import Mathlib

/-
  A verification development for the ts-smart-schema runtime validation
  engine.  The TypeScript sources are embedded shallowly: JavaScript
  runtime values become the inductive type `JValue`, the schema class
  hierarchy becomes the inductive type `SchemaE` together with the
  interpreter `parseS`, and JavaScript exceptions are modelled by the
  `Except JsError` layer that every parsing function threads (a thrown
  exception is `.error`, a returned `Result` is `.ok`).  JavaScript
  numbers are modelled as exact rationals; the model therefore has no
  NaN and no floating-point rounding, which no theorem below depends on.
-/

set_option maxHeartbeats 2000000

namespace SmartSchema

/-- JavaScript runtime values: `undefined`, `null`, booleans, numbers
(modelled as rationals), strings, arrays and plain objects (ordered
field lists, as JavaScript preserves insertion order). -/
inductive JValue where
  | undef
  | jnull
  | jbool (b : Bool)
  | jnum (q : ℚ)
  | jstr (s : String)
  | jarr (elems : List JValue)
  | jobj (fields : List (String × JValue))
deriving Repr, Inhabited

mutual

/-- Structural equality of values, used to model JavaScript `===` on
primitives and the serialized-key comparisons of the source. -/
def JValue.beq : JValue → JValue → Bool
  | .undef, .undef => true
  | .jnull, .jnull => true
  | .jbool a, .jbool b => a == b
  | .jnum a, .jnum b => a == b
  | .jstr a, .jstr b => a == b
  | .jarr xs, .jarr ys => JValue.beqList xs ys
  | .jobj xs, .jobj ys => JValue.beqFields xs ys
  | _, _ => false

/-- Elementwise equality of value lists. -/
def JValue.beqList : List JValue → List JValue → Bool
  | [], [] => true
  | x :: xs, y :: ys => JValue.beq x y && JValue.beqList xs ys
  | _, _ => false

/-- Elementwise equality of field lists. -/
def JValue.beqFields : List (String × JValue) → List (String × JValue) → Bool
  | [], [] => true
  | (k, x) :: xs, (l, y) :: ys => k == l && JValue.beq x y && JValue.beqFields xs ys
  | _, _ => false

end

instance : BEq JValue := ⟨JValue.beq⟩

/-- The JavaScript `typeof` operator restricted to the modelled values. -/
def typeofJS : JValue → String
  | .undef => "undefined"
  | .jnull => "object"
  | .jbool _ => "boolean"
  | .jnum _ => "number"
  | .jstr _ => "string"
  | .jarr _ => "object"
  | .jobj _ => "object"

/-- JavaScript truthiness: `undefined`, `null`, `false`, `0`, `NaN` and
the empty string are falsy, everything else (including empty arrays and
objects) is truthy. -/
def truthyJS : JValue → Bool
  | .undef => false
  | .jnull => false
  | .jbool b => b
  | .jnum q => !(q == 0)
  | .jstr s => !(s == "")
  | .jarr _ => true
  | .jobj _ => true

/-- Property lookup on an object field list: the value of the first
binding of the key, or `none` when the key is absent. -/
def getProp (fields : List (String × JValue)) (k : String) : Option JValue :=
  fields.lookup k

/-- JavaScript member access `obj[k]`: an absent property reads as
`undefined`. -/
def getPropJS (v : JValue) (k : String) : JValue :=
  match v with
  | .jobj fields => (getProp fields k).getD .undef
  | .jarr xs =>
    match k.toNat? with
    | some i => xs.getD i .undef
    | none => .undef
  | _ => (.undef)

/-- The JavaScript `in` operator on the modelled values: object keys,
and for arrays the numeric indices below the length. -/
def hasKeyJS (v : JValue) (k : String) : Bool :=
  match v with
  | .jobj fields => (getProp fields k).isSome
  | .jarr xs =>
    match k.toNat? with
    | some i => i < xs.length
    | none => false
  | _ => false

/-- JavaScript property assignment `obj[k] = v` on a field list:
overwrites the existing binding in place or appends a new one. -/
def objSet (fields : List (String × JValue)) (k : String) (v : JValue) :
    List (String × JValue) :=
  match fields with
  | [] => [(k, v)]
  | (k', v') :: rest =>
    if k' == k then (k', v) :: rest else (k', v') :: objSet rest k v

mutual

/-- JavaScript `String(v)` coercion on the modelled values. -/
def jsStringOf : JValue → String
  | .undef => "undefined"
  | .jnull => "null"
  | .jbool b => if b then "true" else "false"
  | .jnum q => toString q
  | .jstr s => s
  | .jarr xs => jsStringOfList xs
  | .jobj _ => "[object Object]"

/-- Array `toString`: element strings joined with commas. -/
def jsStringOfList : List JValue → String
  | [] => ""
  | [x] => jsStringOf x
  | x :: xs => jsStringOf x ++ "," ++ jsStringOfList xs

end

/-- One path-addressed validation defect, as in `src/core/errors.ts`.
Parameter values are modelled values; an issue created without params
carries the empty list. -/
structure ValidationIssue where
  path : List String
  message : String
  code : String
  params : List (String × JValue) := []
deriving Repr, Inhabited

/-- Format the human-readable summary of a validation error
(`ValidationError.formatMessage`). -/
def formatMessage (issues : List ValidationIssue) : String :=
  match issues with
  | [] => "Validation failed"
  | [issue] =>
    let path := if issue.path.length != 0 then String.intercalate "." issue.path else "value"
    let msg := issue.message
    s!"Validation failed at {path}: {msg}"
  | _ =>
    let issueMessages := String.intercalate "\n" (issues.map fun issue =>
      let path := if issue.path.length != 0 then String.intercalate "." issue.path else "value"
      let msg := issue.message
      s!"  - {path}: {msg}")
    let n := issues.length
    s!"Validation failed with {n} issues:\n{issueMessages}"

/-- The aggregate validation error: an ordered list of issues.  The
summary string of the source class is derived by `formatMessage` and is
not duplicated here. -/
structure ValidationError where
  issues : List ValidationIssue
deriving Repr, Inhabited

/-- `ValidationError.typeMismatch`: the single-issue error produced on a
type check failure. -/
def typeMismatchErr (expected : String) (received : JValue) (path : List String) :
    ValidationError :=
  let actualType := typeofJS received
  ⟨[{ path := path
      message := s!"Expected {expected}, received {actualType}"
      code := "invalid_type"
      params := [("expected", .jstr expected), ("received", .jstr actualType)] }]⟩

/-- A thrown JavaScript exception: either a plain `Error` (identified by
its message) or a thrown `ValidationError` instance. -/
inductive JsError where
  | plain (message : String)
  | vErr (e : ValidationError)
deriving Repr, Inhabited

/-- The `message` property of a thrown error; a `ValidationError`
formats its issues. -/
def JsError.messageOf : JsError → String
  | .plain m => m
  | .vErr e => formatMessage e.issues

/-- JavaScript `String(error)`: the error name followed by the message. -/
def JsError.jsString : JsError → String
  | .plain m => if m == "" then "Error" else s!"Error: {m}"
  | .vErr e =>
    let m := formatMessage e.issues
    if m == "" then "ValidationError" else s!"ValidationError: {m}"

/-- The source `Result<T, ValidationError>`: `Ok` carries the validated
value, `Err` carries the aggregate error. -/
inductive VResult (α : Type) where
  | ok (value : α)
  | verr (error : ValidationError)
deriving Repr, Inhabited

/-- The complete observable outcome of a synchronous parse: `.error`
models an exception escaping the call, `.ok` a returned `Result`. -/
abbrev PResult (α : Type) := Except JsError (VResult α)

/-- Fully merged validation options, as produced by spreading the
caller's options over `DEFAULT_VALIDATION_OPTIONS`.  The `context`
field keeps `none` for an absent context. -/
structure ValidationOptions where
  path : List String
  abortEarly : Bool
  stripUnknown : Bool
  defaults : Bool
  context : Option JValue
deriving Repr, Inhabited

/-- `DEFAULT_VALIDATION_OPTIONS` from `src/core/schema.ts`. -/
def defaultOptions : ValidationOptions :=
  { path := [], abortEarly := false, stripUnknown := false, defaults := true,
    context := none }

/-- Caller-supplied options: every key optional, mirroring the
`ValidationOptions` interface of the source. -/
structure CallerOptions where
  path : Option (List String) := none
  abortEarly : Option Bool := none
  stripUnknown : Option Bool := none
  defaults : Option Bool := none
  context : Option JValue := none
deriving Repr, Inhabited

/-- Merging `{ ...DEFAULT_VALIDATION_OPTIONS, ...options }`. -/
def mergeOptions (o : CallerOptions) : ValidationOptions :=
  { path := o.path.getD defaultOptions.path
    abortEarly := o.abortEarly.getD defaultOptions.abortEarly
    stripUnknown := o.stripUnknown.getD defaultOptions.stripUnknown
    defaults := o.defaults.getD defaultOptions.defaults
    context := o.context }

/-- The falsiness test `!options.context` applied to the optional
context value. -/
def contextFalsy : Option JValue → Bool
  | none => true
  | some c => !truthyJS c

/-- String formats supported by `StringSchema` (`src/types/string.ts`). -/
inductive StringFormat where
  | email
  | url
  | uuid
  | date
  | time
  | datetime
deriving Repr, DecidableEq

/-- Name of a format, for the unsupported-format message. -/
def formatName : StringFormat → String
  | .email => "email"
  | .url => "url"
  | .uuid => "uuid"
  | .date => "date"
  | .time => "time"
  | .datetime => "datetime"

/-- Character class `[^\s@]` of the email regular expression. -/
def noWsNoAt (s : String) : Bool :=
  s.toList.all fun c => !c.isWhitespace && c != '@'

/-- A dot occurring at an inner position (neither first nor last). -/
def hasInnerDot (s : String) : Bool :=
  ((s.toList.drop 1).dropLast).contains '.'

/-- The email test regex of the source,
`^[^\s@]+@[^\s@]+\.[^\s@]+$`: exactly one `@`, a nonempty local part,
and a domain containing a dot with material on both sides. -/
def emailOk (s : String) : Bool :=
  match s.splitOn "@" with
  | [localPart, domain] =>
    localPart != "" && noWsNoAt localPart && noWsNoAt domain && hasInnerDot domain
  | _ => false

/-- Approximation of the `new URL(value)` acceptance test: a nonempty
scheme of URL-scheme characters starting with a letter, followed by a
colon.  No claim below depends on URL validation. -/
def urlOk (s : String) : Bool :=
  match s.splitOn ":" with
  | scheme :: _ :: _ =>
    scheme != "" &&
      scheme.toList.all (fun c => c.isAlphanum || c == '+' || c == '-' || c == '.') &&
      (scheme.toList.head?.elim false Char.isAlpha)
  | _ => false

/-- Hexadecimal digit of either case. -/
def isHexChar (c : Char) : Bool :=
  c.isDigit || ('a' ≤ c && c ≤ 'f') || ('A' ≤ c && c ≤ 'F')

/-- The UUID v4 regex of the source,
`^[0-9a-f]{8}-[0-9a-f]{4}-4[0-9a-f]{3}-[89ab][0-9a-f]{3}-[0-9a-f]{12}$`
with the case-insensitive flag. -/
def uuidOk (s : String) : Bool :=
  let cs := s.toList
  cs.length == 36 &&
  (List.range 36).all fun i =>
    let c := cs.getD i ' '
    if i == 8 || i == 13 || i == 18 || i == 23 then c == '-'
    else if i == 14 then c == '4'
    else if i == 19 then
      c == '8' || c == '9' || c == 'a' || c == 'b' || c == 'A' || c == 'B'
    else isHexChar c

/-- Configuration of `StringSchema`.  A regex pattern is modelled as its
test function paired with its `toString` rendering (used in issue
parameters). -/
structure StringOpts where
  minLength : Option ℚ := none
  maxLength : Option ℚ := none
  pattern : Option ((String → Bool) × String) := none
  format : Option StringFormat := none
  trim : Bool := false
  optional : Bool := false
deriving Inhabited

/-- Validate a string format (`StringSchema._validateFormat`).  The
`date`/`time`/`datetime` formats fall through to the default branch of
the source switch and report an unsupported format. -/
def validateFormat (value : String) (format : StringFormat) (path : List String) :
    Option ValidationIssue :=
  match format with
  | .email =>
    if !emailOk value then
      some { path := path, message := "Invalid email address", code := "string.email" }
    else none
  | .url =>
    if !urlOk value then
      some { path := path, message := "Invalid URL", code := "string.url" }
    else none
  | .uuid =>
    if !uuidOk value then
      some { path := path, message := "Invalid UUID", code := "string.uuid" }
    else none
  | f =>
    some { path := path, message := s!"Unsupported format: {formatName f}"
           code := "string.format" }

/-- `StringSchema._parse`: type check, optional trim, then every
violated constraint collected as a separate issue. -/
def parseStr (o : StringOpts) (data : JValue) (path : List String) : VResult JValue :=
  match data with
  | .jstr s0 =>
    let value := if o.trim then s0.trim else s0
    let len : ℚ := (value.length : ℚ)
    let issues :=
      (match o.minLength with
       | some m =>
         if len < m then
           [{ path := path, message := s!"String must contain at least {m} character(s)"
              code := "string.min_length"
              params := [("minLength", .jnum m), ("actual", .jnum len)] }]
         else []
       | none => []) ++
      (match o.maxLength with
       | some m =>
         if len > m then
           [{ path := path, message := s!"String must contain at most {m} character(s)"
              code := "string.max_length"
              params := [("maxLength", .jnum m), ("actual", .jnum len)] }]
         else []
       | none => []) ++
      (match o.pattern with
       | some p =>
         if !p.1 value then
           let ps := p.2
           [{ path := path, message := s!"String must match pattern: {ps}"
              code := "string.pattern", params := [("pattern", .jstr ps)] }]
         else []
       | none => []) ++
      (match o.format with
       | some f =>
         match validateFormat value f path with
         | some issue => [issue]
         | none => []
       | none => [])
    if !issues.isEmpty then .verr ⟨issues⟩ else .ok (.jstr value)
  | _ => .verr (typeMismatchErr "string" data path)

/-- Configuration of `NumberSchema`. -/
structure NumberOpts where
  min : Option ℚ := none
  max : Option ℚ := none
  integer : Bool := false
  positive : Bool := false
  negative : Bool := false
  multipleOf : Option ℚ := none
  optional : Bool := false
deriving Inhabited

/-- Truncation toward zero, as JavaScript `%` truncates. -/
def ratTrunc (q : ℚ) : ℤ :=
  if 0 ≤ q then ⌊q⌋ else -⌊-q⌋

/-- The JavaScript remainder `a % b` on exact rationals; division by
zero, which yields NaN in JavaScript, is handled at the use site. -/
def jsMod (a b : ℚ) : ℚ :=
  a - b * (ratTrunc (a / b) : ℚ)

/-- `Number.EPSILON`. -/
def epsilonJS : ℚ := 1 / 2 ^ 52

/-- `NumberSchema._parse`.  The `Number.isNaN` part of the type check is
vacuous here because exact rationals have no NaN. -/
def parseNum (o : NumberOpts) (data : JValue) (path : List String) : VResult JValue :=
  match data with
  | .jnum value =>
    let issues :=
      (if o.integer && !(value.den == 1) then
        [{ path := path, message := "Number must be an integer", code := "number.integer" }]
       else []) ++
      (if o.positive && value ≤ 0 then
        [{ path := path, message := "Number must be positive", code := "number.positive"
           params := [("value", .jnum value)] }]
       else []) ++
      (if o.negative && value ≥ 0 then
        [{ path := path, message := "Number must be negative", code := "number.negative"
           params := [("value", .jnum value)] }]
       else []) ++
      (match o.min with
       | some m =>
         if value < m then
           [{ path := path, message := s!"Number must be greater than or equal to {m}"
              code := "number.min", params := [("min", .jnum m), ("value", .jnum value)] }]
         else []
       | none => []) ++
      (match o.max with
       | some m =>
         if value > m then
           [{ path := path, message := s!"Number must be less than or equal to {m}"
              code := "number.max", params := [("max", .jnum m), ("value", .jnum value)] }]
         else []
       | none => []) ++
      (match o.multipleOf with
       | some m =>
         let remainder := jsMod value m
         let isMultiple :=
           if m == 0 then false
           else |remainder| < epsilonJS || |remainder - m| < epsilonJS
         if !isMultiple then
           [{ path := path, message := s!"Number must be a multiple of {m}"
              code := "number.multiple_of"
              params := [("multipleOf", .jnum m), ("value", .jnum value)] }]
         else []
       | none => [])
    if !issues.isEmpty then .verr ⟨issues⟩ else .ok (.jnum value)
  | _ => .verr (typeMismatchErr "number" data path)

/-- Configuration of `BooleanSchema` (`src/types/boolean.ts`). -/
structure BoolOpts where
  optional : Bool := false
  dflt : Option Bool := none
deriving Repr, Inhabited

/-- `BooleanSchema._parse`: an undefined input takes the configured
default if one exists, otherwise a strict type check. -/
def parseBool (o : BoolOpts) (data : JValue) (path : List String) : VResult JValue :=
  match data, o.dflt with
  | .undef, some b => .ok (.jbool b)
  | _, _ =>
    match data with
    | .jbool b => .ok (.jbool b)
    | _ => .verr (typeMismatchErr "boolean" data path)

/-- `EnumSchema._parse`: membership via `values.includes(data)`. -/
def parseEnum (values : List JValue) (data : JValue) (path : List String) : VResult JValue :=
  if !(values.any fun x => JValue.beq x data) then
    let expectedList := String.intercalate ", " (values.map jsStringOf)
    .verr ⟨[{ path := path
              message := s!"Invalid enum value. Expected one of: {expectedList}"
              code := "enum.invalid"
              params := [("expected", .jarr values), ("received", data)] }]⟩
  else .ok data

/-- Configuration of `ArraySchema` (`src/types/array.ts`, the version
with `array.min_length`-style codes). -/
structure ArrayOpts where
  minItems : Option ℚ := none
  maxItems : Option ℚ := none
  uniqueItems : Bool := false
  dflt : Option (List JValue) := none
deriving Inhabited

/-- Duplicate scan of the uniqueness validation: indices whose value was
already seen.  Primitives are compared by `===`; composite values are
keyed by their JSON serialization in the source, modelled here by
structural equality of the value model. -/
def dupScanGo (xs : List JValue) (i : ℕ) (seen : List JValue) (dups : List ℕ) : List ℕ :=
  match xs with
  | [] => dups
  | x :: rest =>
    if seen.any (fun y => JValue.beq y x) then dupScanGo rest (i + 1) seen (dups ++ [i])
    else dupScanGo rest (i + 1) (seen ++ [x]) dups

/-- Array-level issues collected before item validation: length bounds
and uniqueness. -/
def arrLevelIssues (ao : ArrayOpts) (xs : List JValue) (path : List String) :
    List ValidationIssue :=
  let len : ℚ := (xs.length : ℚ)
  (match ao.minItems with
   | some m =>
     if len < m then
       [{ path := path, message := s!"Array must contain at least {m} item(s)"
          code := "array.min_length", params := [("min", .jnum m), ("actual", .jnum len)] }]
     else []
   | none => []) ++
  (match ao.maxItems with
   | some m =>
     if len > m then
       [{ path := path, message := s!"Array must contain at most {m} item(s)"
          code := "array.max_length", params := [("max", .jnum m), ("actual", .jnum len)] }]
     else []
   | none => []) ++
  (if ao.uniqueItems && xs.length > 1 then
    let dups := dupScanGo xs 0 [] []
    if !dups.isEmpty then
      let positions := String.intercalate ", " (dups.map toString)
      [{ path := path
         message := s!"Array items must be unique, found duplicates at positions: {positions}"
         code := "array.unique"
         params := [("duplicates", .jarr (dups.map fun i => .jnum (i : ℚ)))] }]
    else []
   else [])

/-- A permission requirement: a single role, an array of roles (any
match), or a structured condition (`src/core/permissions.ts`). -/
inductive PermissionRequirement where
  | roleStr (r : String)
  | roleArr (rs : List String)
  | cond (crole : Option JValue) (check : Option (JValue → Bool)) (message : Option String)

/-- `PermissionAwareSchema.extractRoles` (the same recognition of
conventional context shapes as `RestrictedSchema.getUserRoles`). -/
def extractRoles (context : JValue) : List JValue :=
  if !truthyJS context then []
  else
    match context with
    | .jstr s => [.jstr s]
    | .jarr xs => xs.filter fun r => typeofJS r == "string"
    | .jobj _ =>
      let roleProp := getPropJS context "role"
      if truthyJS roleProp then
        match roleProp with
        | .jarr xs => xs
        | v => [v]
      else
        let rolesProp := getPropJS context "roles"
        if truthyJS rolesProp then
          match rolesProp with
          | .jarr xs => xs
          | v => [v]
        else
          let userProp := getPropJS context "user"
          let userRole := getPropJS userProp "role"
          if truthyJS userProp && truthyJS userRole then
            match userRole with
            | .jarr xs => xs
            | v => [v]
          else
            let userRoles := getPropJS userProp "roles"
            if truthyJS userProp && truthyJS userRoles then
              match userRoles with
              | .jarr xs => xs
              | v => [v]
            else []
    | _ => []

/-- `PermissionAwareSchema.checkPermission`. -/
def checkPermission (requirement : PermissionRequirement) (userRoles : List JValue)
    (context : JValue) : Bool :=
  match requirement with
  | .roleStr r => userRoles.any fun u => JValue.beq u (.jstr r)
  | .roleArr rs => rs.any fun r => userRoles.any fun u => JValue.beq u (.jstr r)
  | .cond crole check _ =>
    (match crole with
     | some cr =>
       if truthyJS cr then
         let requiredRoles := match cr with | .jarr xs => xs | v => [v]
         requiredRoles.any fun r => userRoles.any fun u => JValue.beq u r
       else true
     | none => true) &&
    (match check with
     | some f => f context
     | none => true)

/-- `Object.entries` on the modelled values. -/
def entriesJS : JValue → List (String × JValue)
  | .jobj fields => fields
  | .jarr xs => xs.enum.map fun p => (toString p.1, p.2)
  | .jstr s => s.toList.enum.map fun p => (toString p.1, .jstr (String.singleton p.2))
  | _ => []

/-- `PermissionAwareSchema.applyPermissions`: keep each entry whose
field either has no recorded requirement or whose requirement the
context satisfies. -/
def applyPermissions (perms : List (String × PermissionRequirement)) (data : JValue)
    (context : JValue) : JValue :=
  let userRoles := extractRoles context
  .jobj ((entriesJS data).foldl (fun acc kv =>
    match perms.lookup kv.1 with
    | some req =>
      if checkPermission req userRoles context then objSet acc kv.1 kv.2 else acc
    | none => objSet acc kv.1 kv.2) [])

/-- Result of a user transformer: either a bare value or an explicit
`Result` (detected via the `_tag` check in the source). -/
inductive TransOut where
  | raw (v : JValue)
  | res (r : VResult JValue)

/-- Resolve a refine message: a static string or a value-derived one. -/
def resolveMsg (msg : String ⊕ (JValue → String)) (value : JValue) : String :=
  match msg with
  | .inl s => s
  | .inr f => f value

/-- The schema variants exercised by the specification claims, one
constructor per source class.  `strOpt`, `numOpt`, `boolOpt`, `objOpt`
and `arrOpt` are the `Optional*Schema` wrappers around the
corresponding base schema's configuration.  User-supplied functions
return in `Except JsError` so that a throwing function is `.error`.
`discUnionC` is the `DiscriminatedUnionSchema` class of
`src/types/union.ts`; the factory-based discriminated union of
`src/core/generic.ts` is modelled separately below. -/
inductive SchemaE where
  | str (o : StringOpts)
  | strOpt (o : StringOpts)
  | num (o : NumberOpts)
  | numOpt (o : NumberOpts)
  | boolS (o : BoolOpts)
  | boolOpt (o : BoolOpts)
  | enumS (values : List JValue)
  | obj (shape : List (String × SchemaE)) (required : List String)
      (dflts : List (String × JValue))
  | objOpt (shape : List (String × SchemaE)) (required : List String)
      (dflts : List (String × JValue))
  | arr (item : SchemaE) (ao : ArrayOpts)
  | arrOpt (item : SchemaE) (ao : ArrayOpts)
  | refine (base : SchemaE) (pred : JValue → Except JsError Bool)
      (msg : String ⊕ (JValue → String))
  | transform (base : SchemaE) (f : JValue → Except JsError TransOut)
  | preproc (base : SchemaE) (f : JValue → Except JsError JValue)
  | postproc (base : SchemaE) (f : JValue → Except JsError JValue)
  | asyncS (base : SchemaE) (validator : JValue → Except JsError (VResult JValue))
  | discUnionC (disc : String) (members : List SchemaE)
  | permAware (base : SchemaE) (perms : List (String × PermissionRequirement))

/-- The unknown-key pass at the end of `ObjectSchema._parse`:
pass-through when `stripUnknown` is off, and the shape-restricted
backfill when it is on. -/
def unknownPass (shape : List (String × SchemaE)) (fs accF : List (String × JValue))
    (strip : Bool) : List (String × JValue) :=
  if !strip then
    fs.foldl (fun acc kv =>
      if (shape.lookup kv.1).isSome then acc else objSet acc kv.1 kv.2) accF
  else
    fs.foldl (fun acc kv =>
      if (shape.lookup kv.1).isSome && (acc.lookup kv.1).isNone then objSet acc kv.1 kv.2
      else acc) accF

/-- `RefinedSchema._parse` continuation after the base parse: on base
success the predicate runs uncaught (a throw propagates), a false
predicate yields one `custom` issue. -/
def refineCont (baseResult : PResult JValue) (pred : JValue → Except JsError Bool)
    (msg : String ⊕ (JValue → String)) (o : ValidationOptions) : PResult JValue :=
  match baseResult with
  | .error e => .error e
  | .ok (.verr e) => .ok (.verr e)
  | .ok (.ok value) =>
    match pred value with
    | .error e => .error e
    | .ok b =>
      if !b then
        .ok (.verr ⟨[{ path := o.path, message := resolveMsg msg value, code := "custom" }]⟩)
      else .ok (.ok value)

/-- `TransformSchema._parse` continuation: the transformer runs uncaught
on base success; an explicit `Result` is propagated verbatim, a bare
value is wrapped as success.  The not-a-number transformer check of the
source is vacuous in the exact-rational model, which has no NaN. -/
def transformCont (baseResult : PResult JValue) (f : JValue → Except JsError TransOut) :
    PResult JValue :=
  match baseResult with
  | .error e => .error e
  | .ok (.verr e) => .ok (.verr e)
  | .ok (.ok baseValue) =>
    match f baseValue with
    | .error e => .error e
    | .ok (.res r) => .ok r
    | .ok (.raw v) => .ok (.ok v)

/-- `PostprocessSchema._parse` continuation: the postprocessor runs
inside a try/catch, a throw becomes a `process.postprocess_failed`
issue. -/
def postprocCont (baseResult : PResult JValue) (f : JValue → Except JsError JValue)
    (o : ValidationOptions) : PResult JValue :=
  match baseResult with
  | .error e => .error e
  | .ok (.verr e) => .ok (.verr e)
  | .ok (.ok value) =>
    match f value with
    | .ok u => .ok (.ok u)
    | .error e =>
      let m := e.messageOf
      .ok (.verr ⟨[{ path := o.path, message := s!"Postprocessing failed: {m}"
                     code := "process.postprocess_failed" }]⟩)

mutual

/-- The schema interpreter: `_parse` of every embedded variant.
`safeParse` is this function composed with option merging (see
`safeParseO`). -/
def parseS : SchemaE → JValue → ValidationOptions → PResult JValue
  | .str so, v, o => .ok (parseStr so v o.path)
  | .strOpt so, v, o =>
    match v with
    | .undef => .ok (.ok .undef)
    | .jnull => .ok (.ok .undef)
    | _ => .ok (parseStr so v o.path)
  | .num no, v, o => .ok (parseNum no v o.path)
  | .numOpt no, v, o =>
    match v with
    | .undef => .ok (.ok .undef)
    | .jnull => .ok (.ok .undef)
    | _ => .ok (parseNum no v o.path)
  | .boolS bo, v, o => .ok (parseBool bo v o.path)
  | .boolOpt bo, v, o =>
    match v with
    | .undef => .ok (.ok .undef)
    | .jnull => .ok (.ok .undef)
    | _ => .ok (parseBool bo v o.path)
  | .enumS values, v, o => .ok (parseEnum values v o.path)
  | .obj shape required dflts, v, o =>
    match v with
    | .jobj fs =>
      match fieldsGo shape fs required dflts o [] [] with
      | .error e => .error e
      | .ok (.inl ve) => .ok (.verr ve)
      | .ok (.inr (accF, issues)) =>
        let resF := unknownPass shape fs accF o.stripUnknown
        if !issues.isEmpty then .ok (.verr ⟨issues⟩) else .ok (.ok (.jobj resF))
    | _ => .ok (.verr (typeMismatchErr "object" v o.path))
  | .objOpt shape required dflts, v, o =>
    match v with
    | .undef => .ok (.ok .undef)
    | .jnull => .ok (.ok .undef)
    | .jobj fs =>
      match fieldsGo shape fs required dflts o [] [] with
      | .error e => .error e
      | .ok (.inl ve) => .ok (.verr ve)
      | .ok (.inr (accF, issues)) =>
        let resF := unknownPass shape fs accF o.stripUnknown
        if !issues.isEmpty then .ok (.verr ⟨issues⟩) else .ok (.ok (.jobj resF))
    | _ => .ok (.verr (typeMismatchErr "object" v o.path))
  | .arr item ao, v, o =>
    match v with
    | .undef =>
      match ao.dflt with
      | some d => .ok (.ok (.jarr d))
      | none => .ok (.verr (typeMismatchErr "array" .undef o.path))
    | .jnull =>
      match ao.dflt with
      | some d => .ok (.ok (.jarr d))
      | none => .ok (.verr (typeMismatchErr "array" .jnull o.path))
    | .jarr xs =>
      match itemsGo item xs 0 o (arrLevelIssues ao xs o.path) [] with
      | .error e => .error e
      | .ok (.inl ve) => .ok (.verr ve)
      | .ok (.inr (result, issues)) =>
        if !issues.isEmpty then .ok (.verr ⟨issues⟩) else .ok (.ok (.jarr result))
    | _ => .ok (.verr (typeMismatchErr "array" v o.path))
  | .arrOpt item ao, v, o =>
    match v with
    | .undef => .ok (.ok .undef)
    | .jnull => .ok (.ok .undef)
    | .jarr xs =>
      match itemsGo item xs 0 o (arrLevelIssues ao xs o.path) [] with
      | .error e => .error e
      | .ok (.inl ve) => .ok (.verr ve)
      | .ok (.inr (result, issues)) =>
        if !issues.isEmpty then .ok (.verr ⟨issues⟩) else .ok (.ok (.jarr result))
    | _ => .ok (.verr (typeMismatchErr "array" v o.path))
  | .refine base pred msg, v, o => refineCont (parseS base v o) pred msg o
  | .transform base f, v, o => transformCont (parseS base v o) f
  | .preproc base f, v, o =>
    match f v with
    | .error e => .error e
    | .ok processed => parseS base processed o
  | .postproc base f, v, o => postprocCont (parseS base v o) f o
  | .asyncS base _validator, v, o => parseS base v o
  | .discUnionC disc members, v, o =>
    match v with
    | .jobj _ | .jarr _ =>
      if hasKeyJS v disc then
        match duGoC members v o [] with
        | .error e => .error e
        | .ok (.ok w) => .ok (.ok w)
        | .ok (.error issues) =>
          let dv := getPropJS v disc
          let dvs := jsStringOf dv
          .ok (.verr ⟨{ path := o.path
                        message := s!"No schema matched discriminator value '{dvs}'"
                        code := "union.no_discriminator_match"
                        params := [("discriminator", .jstr disc), ("value", dv)] } :: issues⟩)
      else
        .ok (.verr ⟨[{ path := o.path
                       message := s!"Discriminator property '{disc}' is missing"
                       code := "union.discriminator_missing"
                       params := [("discriminator", .jstr disc)] }]⟩)
    | _ => .ok (.verr (typeMismatchErr "object" v o.path))
  | .permAware base perms, v, o =>
    if contextFalsy o.context then parseS base v o
    else
      match parseS base v o with
      | .error e => .error e
      | .ok (.verr e) => .ok (.verr e)
      | .ok (.ok d) => .ok (.ok (applyPermissions perms d (o.context.getD .undef)))

/-- The per-field body of `ObjectSchema._parse`: validate a present
field, else resolve a default (explicit, or probed from the field
schema with an undefined input inside a try/catch), else report
`object.required` when the field is required.  Returns the binding to
add and the issues contributed by this field. -/
def fieldStep (s : SchemaE) (k : String) (fs : List (String × JValue))
    (required : List String) (dflts : List (String × JValue)) (o : ValidationOptions) :
    Except JsError (Option (String × JValue) × List ValidationIssue) :=
  let propPath := o.path ++ [k]
  match getProp fs k with
  | some pv =>
    match parseS s pv { o with path := propPath } with
    | .error e => .error e
    | .ok (.ok w) => .ok (some (k, w), [])
    | .ok (.verr e) => .ok (none, e.issues)
  | none =>
    if k ∈ required then
      match (if o.defaults then dflts.lookup k else none) with
      | some dv => .ok (some (k, dv), [])
      | none =>
        let probed :=
          if o.defaults then
            match parseS s .undef { o with path := propPath, defaults := true } with
            | .ok (.ok d) => match d with | .undef => none | _ => some d
            | _ => none
          else none
        match probed with
        | some d => .ok (some (k, d), [])
        | none =>
          .ok (none, [{ path := propPath, message := "Required property missing"
                        code := "object.required" }])
    else
      if o.defaults then
        match dflts.lookup k with
        | some dv => .ok (some (k, dv), [])
        | none =>
          match parseS s .undef { o with path := propPath, defaults := true } with
          | .ok (.ok d) =>
            match d with
            | .undef => .ok (none, [])
            | _ => .ok (some (k, d), [])
          | _ => .ok (none, [])
      else .ok (none, [])

/-- The declared-field loop of `ObjectSchema._parse`, with the
`abortEarly` early return (`.inl`). -/
def fieldsGo (shape : List (String × SchemaE)) (fs : List (String × JValue))
    (required : List String) (dflts : List (String × JValue)) (o : ValidationOptions)
    (accF : List (String × JValue)) (accI : List ValidationIssue) :
    Except JsError (ValidationError ⊕ (List (String × JValue) × List ValidationIssue)) :=
  match shape with
  | [] => .ok (.inr (accF, accI))
  | (k, s) :: rest =>
    match fieldStep s k fs required dflts o with
    | .error e => .error e
    | .ok (add, iss) =>
      let accF' := match add with | some kv => objSet accF kv.1 kv.2 | none => accF
      let accI' := accI ++ iss
      if o.abortEarly && !iss.isEmpty then .ok (.inl ⟨accI'⟩)
      else fieldsGo rest fs required dflts o accF' accI'

/-- The item loop of `ArraySchema._parse`, with the `abortEarly` early
return (`.inl`).  `accI` starts with the array-level issues. -/
def itemsGo (item : SchemaE) (xs : List JValue) (i : ℕ) (o : ValidationOptions)
    (accI : List ValidationIssue) (accR : List JValue) :
    Except JsError (ValidationError ⊕ (List JValue × List ValidationIssue)) :=
  match xs with
  | [] => .ok (.inr (accR, accI))
  | x :: rest =>
    match parseS item x { o with path := o.path ++ [toString i] } with
    | .error e => .error e
    | .ok (.ok w) => itemsGo item rest (i + 1) o accI (accR ++ [w])
    | .ok (.verr e) =>
      let accI' := accI ++ e.issues
      if o.abortEarly then .ok (.inl ⟨accI'⟩)
      else itemsGo item rest (i + 1) o accI' accR

/-- The member loop of `DiscriminatedUnionSchema._parse`: first
successful member is returned as is (no discriminator re-check),
failing members contribute their issues. -/
def duGoC (members : List SchemaE) (v : JValue) (o : ValidationOptions)
    (accI : List ValidationIssue) :
    Except JsError (Except (List ValidationIssue) JValue) :=
  match members with
  | [] => .ok (.error accI)
  | m :: rest =>
    match parseS m v o with
    | .error e => .error e
    | .ok (.ok w) => .ok (.ok w)
    | .ok (.verr e) => duGoC rest v o (accI ++ e.issues)

end

/-- `Schema.safeParse`: merge the caller options over the defaults and
run the internal parse.  A `.error` outcome is an exception escaping
`safeParse`. -/
def safeParseO (S : SchemaE) (v : JValue) (o : CallerOptions) : PResult JValue :=
  parseS S v (mergeOptions o)

/-- `safeParse` with no caller options. -/
def safeParseD (S : SchemaE) (v : JValue) : PResult JValue :=
  parseS S v defaultOptions

mutual

/-- The `partial()` method of every embedded variant: primitives become
their optional wrappers, optional wrappers return themselves, objects
partial each child and empty the required set, arrays partial the item
schema and become optional, and the pipeline / cross-cutting wrappers
partial their base. -/
def partialOf : SchemaE → SchemaE
  | .str o => .strOpt o
  | .strOpt o => .strOpt o
  | .num o => .numOpt o
  | .numOpt o => .numOpt o
  | .boolS o => .boolOpt o
  | .boolOpt o => .boolOpt o
  | .enumS vs => .enumS vs
  | .obj shape _ dflts => .obj (partialShape shape) [] dflts
  | .objOpt shape _ dflts => .objOpt (partialShape shape) [] dflts
  | .arr item ao => .arrOpt (partialOf item) ao
  | .arrOpt item ao => .arrOpt item ao
  | .refine base pred msg => .refine (partialOf base) pred msg
  | .transform base f => .transform (partialOf base) f
  | .preproc base f => .preproc (partialOf base) f
  | .postproc base f => .postproc (partialOf base) f
  | .asyncS base validator => .asyncS (partialOf base) validator
  | .discUnionC disc members => .discUnionC disc (partialList members)
  | .permAware base perms => .permAware (partialOf base) perms

/-- Partial every child schema of an object shape. -/
def partialShape : List (String × SchemaE) → List (String × SchemaE)
  | [] => []
  | (k, s) :: rest => (k, partialOf s) :: partialShape rest

/-- Partial every member of a schema list. -/
def partialList : List SchemaE → List SchemaE
  | [] => []
  | s :: rest => partialOf s :: partialList rest

end

/-- Insertion into the `Set`-backed required list, preserving first-add
order as `Array.from(new Set(...))` does. -/
def setAdd (s : List String) (k : String) : List String :=
  if k ∈ s then s else s ++ [k]

/-- Add every key of a list into the required set. -/
def setAddMany (s : List String) (ks : List String) : List String :=
  ks.foldl setAdd s

/-- The `required(keys)` operation attached to the schema returned by
`ObjectSchema.partial()`: a fresh object schema over the partial shape
whose required set holds exactly the named keys (the empty required set
of the partial schema is not consulted). -/
def partialRequired (shape : List (String × SchemaE)) (dflts : List (String × JValue))
    (keys : List String) : SchemaE :=
  .obj (partialShape shape) (setAddMany [] keys) dflts

/-- The `required(moreKeys)` operation attached to the schema returned
by `partialRequired`: the previously named keys are united with the new
ones. -/
def partialRequiredAgain (shape : List (String × SchemaE)) (dflts : List (String × JValue))
    (keys moreKeys : List String) : SchemaE :=
  .obj (partialShape shape) (setAddMany (setAddMany [] keys) moreKeys) dflts

/-- The member loop of the factory-built discriminated union of
`src/core/generic.ts` (`s.discriminatedUnion`): members are tried with
`safeParse(value)` under default options; a member that succeeds is
accepted only when its validated output carries the same discriminator
value as the input, otherwise the loop continues. -/
def discUnionGenGo (disc : String) (schemas : List SchemaE) (value : JValue) (dv : JValue) :
    Except JsError (Option JValue) :=
  match schemas with
  | [] => .ok none
  | m :: rest =>
    match parseS m value defaultOptions with
    | .error e => .error e
    | .ok (.ok w) =>
      if JValue.beq (getPropJS w disc) dv then .ok (some w)
      else discUnionGenGo disc rest value dv
    | .ok (.verr _) => discUnionGenGo disc rest value dv

/-- Outcome of the factory-built discriminated union's custom validator:
a validated value, or `s.error(new Error(message))`. -/
inductive GenResult where
  | ok (w : JValue)
  | errMsg (m : String)
deriving Repr

/-- The custom validator built by `createDiscriminatedUnionSchema` in
`src/core/generic.ts`.  JavaScript `===` on the discriminator values is
modelled by structural equality (on reference-compared objects `===`
implies structural equality, so every acceptance modelled here is sound
for the mismatch-rejection property). -/
def discUnionGen (disc : String) (schemas : List SchemaE) (value : JValue) :
    Except JsError GenResult :=
  match value with
  | .jobj _ | .jarr _ =>
    if hasKeyJS value disc then
      let dv := getPropJS value disc
      match discUnionGenGo disc schemas value dv with
      | .error e => .error e
      | .ok (some w) => .ok (.ok w)
      | .ok none =>
        let dvs := jsStringOf dv
        .ok (.errMsg s!"No matching schema found for discriminator value '{dvs}'")
    else .ok (.errMsg s!"Missing discriminator property '{disc}'")
  | _ => .ok (.errMsg s!"Expected an object with '{disc}' property")

/-- The `LazySchema` class of `src/types/union.ts`: the deferred factory
(`.error` models a factory that throws), and the flag recording whether
the factory's source text contains both `'array'` and `'default'` (the
`toString`-sniffing special case of `_parse`). -/
structure LazySchemaModel where
  schemaFn : Unit → Except JsError SchemaE
  sniffArrayDefault : Bool

/-- Boolean test `data === undefined`. -/
def isUndef : JValue → Bool
  | .undef => true
  | _ => false

/-- `isUndef` decides equality with `undefined`. -/
theorem isUndef_iff (v : JValue) : isUndef v = true ↔ v = .undef := by
  cases v <;> simp [isUndef]

/-- The `lazy.evaluation_error` issue produced when the factory throws
in the guarded path of `LazySchema._parse`. -/
def lazyEvalIssue (path : List String) (e : JsError) : ValidationIssue :=
  let m := e.messageOf
  let es := e.jsString
  { path := path
    message := s!"Failed to evaluate lazy schema: {m}"
    code := "lazy.evaluation_error"
    params := [("error", .jstr es)] }

/-- `LazySchema._parse`, threading the memoization cell `cached`
explicitly.  The returned flag records whether the factory was invoked
during this call.  In the `stripUnknown` fast path the factory runs
outside any try/catch; in the main path a throwing factory is caught
and becomes a `lazy.evaluation_error` issue, except that an undefined
input with defaults enabled yields an empty array. -/
def lazyParse (L : LazySchemaModel) (cached : Option SchemaE) (v : JValue)
    (o : ValidationOptions) : PResult JValue × Option SchemaE × Bool :=
  if o.stripUnknown && !(isUndef v) && !o.path.isEmpty then
    match cached with
    | some s => (parseS s v o, some s, false)
    | none =>
      match L.schemaFn () with
      | .ok s => (parseS s v o, some s, true)
      | .error e => (.error e, none, true)
  else if isUndef v && o.defaults && L.sniffArrayDefault then
    (.ok (.ok (.jarr [])), cached, false)
  else
    match cached with
    | some s => (parseS s v o, some s, false)
    | none =>
      match L.schemaFn () with
      | .ok s => (parseS s v o, some s, true)
      | .error e =>
        if isUndef v && o.defaults then (.ok (.ok (.jarr [])), none, true)
        else (.ok (.verr ⟨[lazyEvalIssue o.path e]⟩), none, true)

/-- `LazySchema.safeParse`: option merging in front of `_parse`. -/
def lazySafeParse (L : LazySchemaModel) (cached : Option SchemaE) (v : JValue)
    (o : CallerOptions) : PResult JValue × Option SchemaE × Bool :=
  lazyParse L cached v (mergeOptions o)

/-- Run a sequence of `safeParse` calls against one lazy schema
instance, returning the final cache state and the number of factory
invocations. -/
def lazyRun (L : LazySchemaModel) (cached : Option SchemaE)
    (calls : List (JValue × CallerOptions)) : Option SchemaE × ℕ :=
  match calls with
  | [] => (cached, 0)
  | (v, o) :: rest =>
    let r := lazySafeParse L cached v o
    let next := lazyRun L r.2.1 rest
    (next.1, (if r.2.2 then 1 else 0) + next.2)

/-- `AsyncSchema.safeParseAsync`: the synchronous base check followed by
the stored asynchronous validator, the whole inside a try/catch that
turns a thrown `ValidationError` into that failure and any other throw
into an `async.failed` issue. -/
def safeParseAsyncS (base : SchemaE) (validator : JValue → Except JsError (VResult JValue))
    (v : JValue) (o : CallerOptions) : VResult JValue :=
  let merged := mergeOptions o
  let caught : JsError → VResult JValue := fun e =>
    match e with
    | .vErr ve => .verr ve
    | .plain m =>
      .verr ⟨[{ path := merged.path, message := s!"Async validation failed: {m}"
                code := "async.failed" }]⟩
  match parseS base v merged with
  | .error e => caught e
  | .ok (.verr ve) => .verr ve
  | .ok (.ok x) =>
    match validator x with
    | .error e => caught e
    | .ok r => r

/-- One entry of a `Versioned` history (`src/core/versioned.ts`). -/
structure VersionEntry where
  data : JValue
  timestamp : ℕ
  label : Option String := none
deriving Repr, Inhabited

/-- The mutable state of a `Versioned` instance: the history buffer and
the cursor. -/
structure VersionedState where
  history : List VersionEntry
  currentIndex : ℕ
deriving Repr, Inhabited

/-- The `current` getter: the data snapshot under the cursor.  An
out-of-range cursor would crash in the source (reading `.data` of
`undefined`), modelled as `none`. -/
def vsCurrent (st : VersionedState) : Option JValue :=
  (st.history.get? st.currentIndex).map (·.data)

/-- `Versioned.revert(steps)`: both range checks throw before any state
change; on success the cursor moves back and the new current value is
returned. -/
def vsRevert (st : VersionedState) (steps : ℤ) : Except JsError (JValue × VersionedState) :=
  if steps ≤ 0 then .error (.plain "Steps must be positive")
  else
    let targetIndex : ℤ := (st.currentIndex : ℤ) - steps
    if targetIndex < 0 then
      let n := st.currentIndex
      .error (.plain s!"Cannot revert {steps} steps, only {n} versions are available")
    else
      let st' := { st with currentIndex := targetIndex.toNat }
      match vsCurrent st' with
      | some d => .ok (d, st')
      | none => .error (.plain "TypeError: cannot read current version")

/-- `Versioned.redo(steps)`: symmetric to `vsRevert`, moving the cursor
forward within the history length. -/
def vsRedo (st : VersionedState) (steps : ℤ) : Except JsError (JValue × VersionedState) :=
  if steps ≤ 0 then .error (.plain "Steps must be positive")
  else
    let targetIndex : ℤ := (st.currentIndex : ℤ) + steps
    if targetIndex ≥ (st.history.length : ℤ) then
      let avail : ℤ := (st.history.length : ℤ) - (st.currentIndex : ℤ) - 1
      .error (.plain s!"Cannot redo {steps} steps, only {avail} versions are available")
    else
      let st' := { st with currentIndex := targetIndex.toNat }
      match vsCurrent st' with
      | some d => .ok (d, st')
      | none => .error (.plain "TypeError: cannot read current version")

/-- `Versioned._trimHistory`: drop the oldest entries beyond the cap and
clamp the cursor (natural subtraction models the `Math.max(0, ...)`). -/
def vsTrimHistory (maxVersions : ℕ) (st : VersionedState) : VersionedState :=
  if st.history.length > maxVersions then
    let excess := st.history.length - maxVersions
    { history := st.history.drop excess, currentIndex := st.currentIndex - excess }
  else st

/-- `Versioned._addVersion`: discard entries beyond the cursor, append
the snapshot (deep cloning is the identity on immutable modelled
values), move the cursor to the end and trim. -/
def vsAddVersion (st : VersionedState) (d : JValue) (ts : ℕ) (label : Option String)
    (maxVersions : ℕ) : VersionedState :=
  let hist :=
    if st.currentIndex < st.history.length - 1 then st.history.take (st.currentIndex + 1)
    else st.history
  let hist' := hist ++ [{ data := d, timestamp := ts, label := label }]
  vsTrimHistory maxVersions { history := hist', currentIndex := hist'.length - 1 }

/-- The schema of the concrete spec scenario
`object({ id: string().uuid(), age: number().int().positive().optional() })`. -/
def scenarioSchema : SchemaE :=
  .obj [("id", .str { format := some .uuid }),
        ("age", .numOpt { integer := true, positive := true })]
    ["id", "age"] []

/-- The input `{id: "not-a-uuid", age: -1}` of the concrete scenario. -/
def scenarioInput : JValue :=
  .jobj [("id", .jstr "not-a-uuid"), ("age", .jnum (-1))]

/-- C9: on `object({ id: string().uuid(), age:
number().int().positive().optional() })` and input `{id: "not-a-uuid",
age: -1}`, `safeParse` without abortEarly fails with exactly two
issues: code `string.uuid` at path `['id']` and code `number.positive`
at path `['age']`, in that order. -/
theorem C9_concrete_two_issue_scenario :
    safeParseD scenarioSchema scenarioInput = .ok (.verr ⟨[
      { path := ["id"], message := "Invalid UUID", code := "string.uuid" },
      { path := ["age"], message := "Number must be positive", code := "number.positive"
        params := [("value", .jnum (-1))] }]⟩) := by
  have hu : uuidOk "not-a-uuid" = false := by decide
  simp [safeParseD, defaultOptions, scenarioSchema, scenarioInput, parseS, fieldsGo,
    fieldStep, parseStr, parseNum, validateFormat, hu, getProp, List.lookup, unknownPass,
    typeMismatchErr]

/-- C8: for a `Versioned` state whose cursor is at least one entry from
the start and inside the history, `revert(1)` followed by `redo(1)`
restores exactly the pre-revert state and current value (deep equality
is equality of the immutable value model); a revert or redo whose step
count leaves the history range, or a non-positive step count, reports
an error (raised before any state change in the source). -/
theorem C8_history_roundtrip (st : VersionedState)
    (h1 : 1 ≤ st.currentIndex) (h2 : st.currentIndex < st.history.length) :
    (∃ d₁ st₁, vsRevert st 1 = .ok (d₁, st₁) ∧
      ∃ d₂, vsRedo st₁ 1 = .ok (d₂, st) ∧ vsCurrent st = some d₂) ∧
    (∀ steps : ℤ, (st.currentIndex : ℤ) < steps →
      ∃ m, vsRevert st steps = .error (.plain m)) ∧
    (∀ steps : ℤ, 0 < steps → (st.history.length : ℤ) ≤ (st.currentIndex : ℤ) + steps →
      ∃ m, vsRedo st steps = .error (.plain m)) ∧
    (∀ steps : ℤ, steps ≤ 0 →
      (∃ m, vsRevert st steps = .error (.plain m)) ∧
      (∃ m, vsRedo st steps = .error (.plain m))) := by
  have hi1 : st.currentIndex - 1 < st.history.length := by omega
  have hg1 : st.history[st.currentIndex - 1]? = some st.history[st.currentIndex - 1] :=
    List.getElem?_eq_getElem hi1
  have hg2 : st.history[st.currentIndex]? = some st.history[st.currentIndex] :=
    List.getElem?_eq_getElem h2
  refine ⟨?_, ?_, ?_, ?_⟩
  · have e1 : vsRevert st 1 =
        .ok (st.history[st.currentIndex - 1].data, { st with currentIndex := st.currentIndex - 1 }) := by
      simp only [vsRevert]
      rw [if_neg (by omega), if_neg (by omega)]
      have ht : ((st.currentIndex : ℤ) - 1).toNat = st.currentIndex - 1 := by omega
      simp [ht, vsCurrent, List.get?_eq_getElem?, hg1]
    have e2 : vsRedo { st with currentIndex := st.currentIndex - 1 } 1 =
        .ok (st.history[st.currentIndex].data, st) := by
      simp only [vsRedo]
      rw [if_neg (by omega)]
      rw [if_neg (by omega)]
      have ht2 : (((st.currentIndex - 1 : ℕ) : ℤ) + 1).toNat = st.currentIndex := by omega
      simp only [ht2, vsCurrent, List.get?_eq_getElem?]
      simp [hg2]
    refine ⟨_, _, e1, _, e2, ?_⟩
    simp [vsCurrent, List.get?_eq_getElem?, hg2]
  · intro steps hs
    simp only [vsRevert, if_neg (show ¬steps ≤ 0 by omega),
      if_pos (show (st.currentIndex : ℤ) - steps < 0 by omega)]
    exact ⟨_, rfl⟩
  · intro steps hs hrange
    simp only [vsRedo, if_neg (show ¬steps ≤ 0 by omega),
      if_pos (show (st.currentIndex : ℤ) + steps ≥ (st.history.length : ℤ) by omega)]
    exact ⟨_, rfl⟩
  · intro steps hs
    constructor
    · simp only [vsRevert, if_pos hs]
      exact ⟨_, rfl⟩
    · simp only [vsRedo, if_pos hs]
      exact ⟨_, rfl⟩

/-- A concrete two-entry history with the cursor on the newest entry. -/
def c8demo : VersionedState :=
  { history := [{ data := .jnum 1, timestamp := 0 }, { data := .jnum 2, timestamp := 1 }]
    currentIndex := 1 }

/-- Witness instantiating `C8_history_roundtrip` on a concrete
two-entry history. -/
theorem C8_history_roundtrip_witness :
    ∃ d₁ st₁, vsRevert c8demo 1 = .ok (d₁, st₁) ∧
      ∃ d₂, vsRedo st₁ 1 = .ok (d₂, c8demo) ∧ vsCurrent c8demo = some d₂ :=
  (C8_history_roundtrip c8demo (by decide) (by decide)).1

/-- A discriminated-union member whose `type` field is transformed to
the constant `"a"`: it parses `{type: "b"}` successfully but its
validated output carries discriminator `"a"`. -/
def duMismatchMember : SchemaE :=
  .obj [("type", .transform (.str {}) (fun _ => .ok (.raw (.jstr "a"))))] ["type"] []

/-- The input `{type: "b"}` for the discriminator-mismatch scenario. -/
def duMismatchInput : JValue := .jobj [("type", .jstr "b")]

/-- C2 counterexample: the `DiscriminatedUnionSchema` class accepts the
first member that parses successfully without re-checking the
discriminator — on `{type: "b"}` the member above succeeds with output
`{type: "a"}` and the class returns that output as a success, even
though the discriminators disagree, instead of treating the member as
non-matching. -/
theorem C2_counterexample :
    parseS (.discUnionC "type" [duMismatchMember]) duMismatchInput defaultOptions
      = .ok (.ok (.jobj [("type", .jstr "a")])) ∧
    JValue.beq (getPropJS (.jobj [("type", .jstr "a")]) "type")
      (getPropJS duMismatchInput "type") = false := by
  constructor
  · simp [parseS, duGoC, fieldsGo, fieldStep, transformCont, parseStr, getProp,
      List.lookup, unknownPass, objSet, defaultOptions, hasKeyJS, duMismatchMember,
      duMismatchInput]
  · simp [getPropJS, getProp, List.lookup, duMismatchInput, JValue.beq]

/-- The member loop of the factory-built discriminated union accepts a
member only when the validated output agrees on the discriminator. -/
theorem discUnionGenGo_agrees (disc : String) (schemas : List SchemaE) (value dv w : JValue)
    (h : discUnionGenGo disc schemas value dv = .ok (some w)) :
    JValue.beq (getPropJS w disc) dv = true := by
  induction schemas with
  | nil => simp [discUnionGenGo] at h
  | cons m rest ih =>
    rw [discUnionGenGo] at h
    cases hp : parseS m value defaultOptions with
    | error e => simp [hp] at h
    | ok r =>
      cases r with
      | verr e =>
        rw [hp] at h
        exact ih h
      | ok w' =>
        rw [hp] at h
        by_cases hb : JValue.beq (getPropJS w' disc) dv = true
        · simp [hb] at h
          subst h
          exact hb
        · simp [Bool.not_eq_true] at hb
          simp [hb] at h
          exact ih h

/-- C2 (amended): the engine's exported discriminated union
(`createDiscriminatedUnionSchema` in `src/core/generic.ts`, exposed as
`s.discriminatedUnion`) accepts a successfully parsed member only when
the member's validated output carries a discriminator value equal to
the input's, and a member that parses successfully but disagrees on the
discriminator is skipped so the remaining members are tried.  The
`DiscriminatedUnionSchema` class of `src/types/union.ts` does not
perform the re-check (see the counterexample). -/
theorem C2_amended :
    (∀ disc schemas value w, discUnionGen disc schemas value = .ok (.ok w) →
      JValue.beq (getPropJS w disc) (getPropJS value disc) = true) ∧
    (∀ disc m rest value dv w, parseS m value defaultOptions = .ok (.ok w) →
      JValue.beq (getPropJS w disc) dv = false →
      discUnionGenGo disc (m :: rest) value dv = discUnionGenGo disc rest value dv) := by
  constructor
  · intro disc schemas value w h
    cases value with
    | jobj fields =>
      rw [discUnionGen] at h
      by_cases hk : hasKeyJS (.jobj fields) disc = true
      · simp only [hk, if_pos] at h
        cases hgo : discUnionGenGo disc schemas (.jobj fields) (getPropJS (.jobj fields) disc) with
        | error e => rw [hgo] at h; cases h
        | ok r =>
          rw [hgo] at h
          cases r with
          | some w' =>
            simp at h
            subst h
            exact discUnionGenGo_agrees _ _ _ _ _ hgo
          | none => simp at h
      · simp only [Bool.not_eq_true] at hk
        simp [hk] at h
    | jarr xs =>
      rw [discUnionGen] at h
      by_cases hk : hasKeyJS (.jarr xs) disc = true
      · simp only [hk, if_pos] at h
        cases hgo : discUnionGenGo disc schemas (.jarr xs) (getPropJS (.jarr xs) disc) with
        | error e => rw [hgo] at h; cases h
        | ok r =>
          rw [hgo] at h
          cases r with
          | some w' =>
            simp at h
            subst h
            exact discUnionGenGo_agrees _ _ _ _ _ hgo
          | none => simp at h
      · simp only [Bool.not_eq_true] at hk
        simp [hk] at h
    | undef => simp [discUnionGen] at h
    | jnull => simp [discUnionGen] at h
    | jbool b => simp [discUnionGen] at h
    | jnum q => simp [discUnionGen] at h
    | jstr s => simp [discUnionGen] at h
  · intro disc m rest value dv w hp hb
    rw [discUnionGenGo]
    simp only [hp, hb]
    simp

/-- Witness instantiating `C2_amended`: on `{type: "b"}` the
transforming member parses successfully but is skipped, leaving the
empty remainder of the member list. -/
theorem C2_amended_witness :
    discUnionGenGo "type" [duMismatchMember] duMismatchInput (.jstr "b")
      = discUnionGenGo "type" [] duMismatchInput (.jstr "b") :=
  C2_amended.2 "type" duMismatchMember [] duMismatchInput (.jstr "b")
    (.jobj [("type", .jstr "a")])
    (by simp [parseS, fieldsGo, fieldStep, transformCont, parseStr, getProp,
      List.lookup, unknownPass, objSet, defaultOptions, duMismatchMember, duMismatchInput])
    (by simp [getPropJS, getProp, List.lookup, JValue.beq])

/-- A lazy schema whose factory always throws. -/
def lazyThrowDemo : LazySchemaModel :=
  { schemaFn := fun _ => .error (.plain "boom"), sniffArrayDefault := false }

/-- C5 counterexample: a factory that throws is re-invoked on every
`safeParse` call — two calls on one instance invoke it twice, while the
claim says the factory is invoked at most once over any number of
calls. -/
theorem C5_counterexample :
    (lazyRun lazyThrowDemo none [(.jnum 1, {}), (.jnum 1, {})]).2 = 2 := by
  simp [lazyRun, lazySafeParse, lazyParse, mergeOptions, defaultOptions, lazyThrowDemo,
    isUndef]

/-- Once the cache holds a schema, a parse call never invokes the
factory and never changes the cache. -/
theorem lazyParse_cached (L : LazySchemaModel) (s : SchemaE) (v : JValue)
    (o : ValidationOptions) :
    (lazyParse L (some s) v o).2.1 = some s ∧ (lazyParse L (some s) v o).2.2 = false := by
  rw [lazyParse]
  split <;> [skip; split] <;> simp

/-- A call sequence started with a populated cache performs no factory
invocations and keeps the cache. -/
theorem lazyRun_cached (L : LazySchemaModel) (s : SchemaE)
    (calls : List (JValue × CallerOptions)) :
    lazyRun L (some s) calls = (some s, 0) := by
  induction calls with
  | nil => rfl
  | cons c rest ih =>
    obtain ⟨v, o⟩ := c
    rw [lazyRun]
    have h := lazyParse_cached L s v (mergeOptions o)
    simp only [lazySafeParse]
    simp [h.1, h.2, ih]

/-- C5 (amended): the lazy schema's cache is written at most once and
first resolution wins — a populated cache is never overwritten and
suppresses factory invocation, the cache only ever changes from empty
to a successfully resolved schema, and when the factory resolves
successfully it is invoked at most once over any number of
parse/safeParse calls on the instance.  (A factory that throws leaves
the cache empty and is re-invoked on later calls; see the
counterexample.) -/
theorem C5_amended :
    (∀ L : LazySchemaModel, ∀ s v o,
      (lazyParse L (some s) v o).2.1 = some s ∧ (lazyParse L (some s) v o).2.2 = false) ∧
    (∀ L : LazySchemaModel, ∀ cached v o,
      (lazyParse L cached v o).2.1 = cached ∨
      (cached = none ∧ ∃ s, L.schemaFn () = .ok s ∧ (lazyParse L cached v o).2.1 = some s)) ∧
    (∀ L : LazySchemaModel, ∀ s, L.schemaFn () = .ok s →
      ∀ calls, (lazyRun L none calls).2 ≤ 1) := by
  refine ⟨fun L s v o => lazyParse_cached L s v o, ?_, ?_⟩
  · intro L cached v o
    cases cached with
    | some s => exact Or.inl (lazyParse_cached L s v o).1
    | none =>
      rw [lazyParse]
      split
      · cases hf : L.schemaFn () with
        | ok s => exact Or.inr ⟨rfl, s, rfl, by simp [hf]⟩
        | error e => exact Or.inl (by simp [hf])
      · split
        · exact Or.inl rfl
        · cases hf : L.schemaFn () with
          | ok s => exact Or.inr ⟨rfl, s, rfl, by simp [hf]⟩
          | error e => exact Or.inl (by simp [hf]; split <;> simp)
  · intro L s hf calls
    induction calls with
    | nil => simp [lazyRun]
    | cons c rest ih =>
      obtain ⟨v, o⟩ := c
      have hstate : (lazyParse L none v (mergeOptions o)).2 = (some s, true) ∨
          (lazyParse L none v (mergeOptions o)).2 = (none, false) := by
        rw [lazyParse]
        split
        · rw [hf]
          exact Or.inl rfl
        · split
          · exact Or.inr rfl
          · rw [hf]
            exact Or.inl rfl
      simp only [lazyRun, lazySafeParse]
      rcases hstate with h | h
      · have h1 : (lazyParse L none v (mergeOptions o)).2.1 = some s := by rw [h]
        have h2 : (lazyParse L none v (mergeOptions o)).2.2 = true := by rw [h]
        simp [h1, h2, lazyRun_cached L s]
      · have h1 : (lazyParse L none v (mergeOptions o)).2.1 = none := by rw [h]
        have h2 : (lazyParse L none v (mergeOptions o)).2.2 = false := by rw [h]
        simpa [h1, h2] using ih

/-- Witness instantiating `C5_amended`: a successfully resolving
factory is invoked at most once over three parse calls. -/
theorem C5_amended_witness :
    (lazyRun { schemaFn := fun _ => .ok (.str {}), sniffArrayDefault := false } none
      [(.jnum 1, {}), (.jstr "x", {}), (.undef, {})]).2 ≤ 1 :=
  C5_amended.2.2 _ (.str {}) rfl _

/-- C6 counterexample: with `stripUnknown: true` and a nonempty `path`
in the caller options and a defined input, `LazySchema._parse` resolves
the factory outside the try/catch, so a throwing factory propagates the
exception out of `safeParse` instead of producing a Failure with a
`lazy.evaluation_error` issue. -/
theorem C6_counterexample :
    (lazySafeParse lazyThrowDemo none (.jnum 1)
      { stripUnknown := some true, path := some ["a"] }).1 = .error (.plain "boom") := by
  simp [lazySafeParse, lazyParse, mergeOptions, defaultOptions, lazyThrowDemo, isUndef]

/-- C6 (amended): outside the `stripUnknown` fast path (which resolves
the factory uncaught — see the counterexample), a lazy schema whose
factory throws yields a Failure carrying a `lazy.evaluation_error`
issue, except that an undefined input with defaults enabled yields an
empty array success. -/
theorem C6_amended (L : LazySchemaModel) (e : JsError) (v : JValue) (o : ValidationOptions)
    (hthrow : L.schemaFn () = .error e)
    (hfast : o.stripUnknown = false ∨ v = .undef ∨ o.path = []) :
    (lazyParse L none v o).1 =
      if isUndef v && o.defaults then .ok (.ok (.jarr []))
      else .ok (.verr ⟨[lazyEvalIssue o.path e]⟩) := by
  have hfastfalse : (o.stripUnknown && !isUndef v && !o.path.isEmpty) = false := by
    rcases hfast with h | h | h
    · simp [h]
    · subst h; simp [isUndef]
    · simp [h]
  rw [lazyParse]
  rw [if_neg (by simp [hfastfalse])]
  by_cases hsniff : (isUndef v && o.defaults && L.sniffArrayDefault) = true
  · rw [if_pos hsniff]
    have hud : (isUndef v && o.defaults) = true := by
      rcases Bool.and_eq_true_iff.mp hsniff with ⟨h1, _⟩
      exact h1
    rw [if_pos hud]
  · rw [if_neg hsniff]
    simp only [hthrow]
    by_cases hud : (isUndef v && o.defaults) = true
    · rw [if_pos hud, if_pos hud]
    · rw [if_neg hud, if_neg hud]

/-- Witness instantiating `C6_amended` on the throwing factory with a
defined input under default options. -/
theorem C6_amended_witness :
    (lazyParse lazyThrowDemo none (.jnum 1) defaultOptions).1 =
      if isUndef (.jnum 1) && defaultOptions.defaults then .ok (.ok (.jarr []))
      else .ok (.verr ⟨[lazyEvalIssue defaultOptions.path (.plain "boom")]⟩) :=
  C6_amended lazyThrowDemo (.plain "boom") (.jnum 1) defaultOptions rfl (Or.inl rfl)

/-- JavaScript assignment on a key absent from the object appends a
fresh binding. -/
theorem objSet_of_lookup_none {acc : List (String × JValue)} {k : String} (v : JValue)
    (h : acc.lookup k = none) : objSet acc k v = acc ++ [(k, v)] := by
  induction acc with
  | nil => rfl
  | cons kv rest ih =>
    obtain ⟨k', v'⟩ := kv
    by_cases he : k = k'
    · subst he
      simp [List.lookup] at h
    · have hb : (k' == k) = false := by simp [Ne.symm he]
      have hb2 : (k == k') = false := by simp [he]
      rw [objSet, if_neg (by simp [hb])]
      simp only [List.lookup, hb2] at h
      rw [ih h]
      simp

/-- Lookup skips a prefix in which the key is absent. -/
theorem lookup_append_of_none {l₁ l₂ : List (String × JValue)} {k : String}
    (h : l₁.lookup k = none) : (l₁ ++ l₂).lookup k = l₂.lookup k := by
  induction l₁ with
  | nil => rfl
  | cons kv rest ih =>
    obtain ⟨k', v'⟩ := kv
    by_cases he : k = k'
    · subst he
      simp [List.lookup] at h
    · have hb2 : (k == k') = false := by simp [he]
      simp only [List.cons_append, List.lookup, hb2] at h ⊢
      exact ih h

/-- When the context satisfies the requirement of every present field,
`applyPermissions`' entry fold copies every entry through. -/
theorem applyPerm_fold_all_kept (perms : List (String × PermissionRequirement))
    (ur : List JValue) (c : JValue) :
    ∀ (fs acc : List (String × JValue)),
    (∀ kv ∈ fs, ∀ req, perms.lookup kv.1 = some req → checkPermission req ur c = true) →
    (∀ kv ∈ fs, acc.lookup kv.1 = none) →
    (fs.map Prod.fst).Nodup →
    fs.foldl (fun acc kv =>
      match perms.lookup kv.1 with
      | some req => if checkPermission req ur c then objSet acc kv.1 kv.2 else acc
      | none => objSet acc kv.1 kv.2) acc = acc ++ fs := by
  intro fs
  induction fs with
  | nil =>
    intro acc _ _ _
    simp
  | cons kv rest ih =>
    intro acc hkeep hfresh hnodup
    obtain ⟨k, v⟩ := kv
    rw [List.foldl_cons]
    have hstep : (match perms.lookup k with
        | some req => if checkPermission req ur c then objSet acc k v else acc
        | none => objSet acc k v) = acc ++ [(k, v)] := by
      cases hp : perms.lookup k with
      | some req =>
        have hc := hkeep (k, v) (by simp) req hp
        simp [hc, objSet_of_lookup_none v (hfresh (k, v) (by simp))]
      | none => simp [objSet_of_lookup_none v (hfresh (k, v) (by simp))]
    rw [hstep]
    have hkmem : k ∉ rest.map Prod.fst := by
      have := hnodup
      simp only [List.map_cons, List.nodup_cons] at this
      exact this.1
    have hfresh' : ∀ kv ∈ rest, ((acc ++ [(k, v)]).lookup kv.1) = none := by
      intro kv hm
      rw [lookup_append_of_none (hfresh kv (by simp [hm]))]
      have hne : kv.1 ≠ k := by
        intro he
        exact hkmem (he ▸ List.mem_map_of_mem Prod.fst hm)
      have hb : (kv.1 == k) = false := by simp [hne]
      simp [List.lookup, hb]
    have hrest := ih (acc ++ [(k, v)])
      (fun kv hm req hp => hkeep kv (by simp [hm]) req hp) hfresh'
      (by simpa using (List.nodup_cons.mp (by simpa using hnodup)).2)
    rw [hrest]
    simp

/-- The permission-aware demo: a base object with a `salary` field
restricted to the `admin` role. -/
def permDemoBase : SchemaE :=
  .obj [("name", .str {}), ("salary", .num {})] ["name", "salary"] []

/-- The demo permission-aware schema. -/
def permDemoSchema : SchemaE :=
  .permAware permDemoBase [("salary", .roleStr "admin")]

/-- The demo input `{name: "bob", salary: 100}`. -/
def permDemoInput : JValue := .jobj [("name", .jstr "bob"), ("salary", .jnum 100)]

/-- C10: when the validation options carry no context (absent or
falsy), a permission-aware schema performs no permission filtering at
all — its parse is the base schema's parse, so restricted fields are
present in the output exactly as for a fully authorized caller.  The
second conjunct shows the authorized-caller side in general: a context
satisfying every present field's requirement leaves `applyPermissions`
the identity.  The last conjuncts evaluate the demo schema: no context
and the `admin` context both keep `salary` (identical outputs), while
the unauthorized `user` context drops it. -/
theorem C10_no_context_no_filtering :
    (∀ (base : SchemaE) (perms : List (String × PermissionRequirement)) (v : JValue)
      (o : ValidationOptions), contextFalsy o.context = true →
      parseS (.permAware base perms) v o = parseS base v o) ∧
    (∀ (perms : List (String × PermissionRequirement)) (fs : List (String × JValue))
      (c : JValue),
      (∀ kv ∈ fs, ∀ req, perms.lookup kv.1 = some req →
        checkPermission req (extractRoles c) c = true) →
      (fs.map Prod.fst).Nodup →
      applyPermissions perms (.jobj fs) c = .jobj fs) ∧
    parseS permDemoSchema permDemoInput defaultOptions = .ok (.ok permDemoInput) ∧
    parseS permDemoSchema permDemoInput
      { defaultOptions with context := some (.jstr "admin") } = .ok (.ok permDemoInput) ∧
    parseS permDemoSchema permDemoInput
      { defaultOptions with context := some (.jstr "user") }
      = .ok (.ok (.jobj [("name", .jstr "bob")])) := by
  refine ⟨?_, ?_, ?_, ?_, ?_⟩
  · intro base perms v o h
    rw [parseS, if_pos h]
  · intro perms fs c hkeep hnodup
    rw [applyPermissions]
    simp only [entriesJS]
    rw [applyPerm_fold_all_kept perms (extractRoles c) c fs [] hkeep (by intro kv _; rfl) hnodup]
    simp
  · simp [parseS, permDemoSchema, permDemoBase, permDemoInput, defaultOptions, contextFalsy,
      fieldsGo, fieldStep, parseStr, parseNum, getProp, List.lookup, unknownPass, objSet]
  · have hroles : extractRoles (.jstr "admin") = [.jstr "admin"] := by
      simp [extractRoles, truthyJS]
    have hchk : checkPermission (.roleStr "admin") [JValue.jstr "admin"] (.jstr "admin") = true := by
      simp [checkPermission, JValue.beq]
    simp [parseS, permDemoSchema, permDemoBase, permDemoInput, defaultOptions, contextFalsy,
      truthyJS, fieldsGo, fieldStep, parseStr, parseNum, getProp, List.lookup, unknownPass,
      objSet, applyPermissions, entriesJS, hroles, hchk]
  · have hroles : extractRoles (.jstr "user") = [.jstr "user"] := by
      simp [extractRoles, truthyJS]
    have hchk : checkPermission (.roleStr "admin") [JValue.jstr "user"] (.jstr "user") = false := by
      simp [checkPermission, JValue.beq]
    simp [parseS, permDemoSchema, permDemoBase, permDemoInput, defaultOptions, contextFalsy,
      truthyJS, fieldsGo, fieldStep, parseStr, parseNum, getProp, List.lookup, unknownPass,
      objSet, applyPermissions, entriesJS, hroles, hchk]

/-- Witness instantiating `C10_no_context_no_filtering` on the demo
schema with an absent context. -/
theorem C10_no_context_no_filtering_witness :
    parseS permDemoSchema permDemoInput defaultOptions
      = parseS permDemoBase permDemoInput defaultOptions :=
  C10_no_context_no_filtering.1 permDemoBase [("salary", .roleStr "admin")]
    permDemoInput defaultOptions rfl

/-- The issues contributed by the first declared field whose check
fails, in declaration order (`none` when every field check passes). -/
def firstFailingIssues (shape : List (String × SchemaE)) (fs : List (String × JValue))
    (required : List String) (dflts : List (String × JValue)) (o : ValidationOptions) :
    Except JsError (Option (List ValidationIssue)) :=
  match shape with
  | [] => .ok none
  | (k, s) :: rest =>
    match fieldStep s k fs required dflts o with
    | .error e => .error e
    | .ok (_, []) => firstFailingIssues rest fs required dflts o
    | .ok (_, iss) => .ok (some iss)

/-- The issues of the first failing item, items checked in index order
(`none` when every item parses). -/
def firstItemFailure (item : SchemaE) (xs : List JValue) (i : ℕ) (o : ValidationOptions) :
    Except JsError (Option (List ValidationIssue)) :=
  match xs with
  | [] => .ok none
  | x :: rest =>
    match parseS item x { o with path := o.path ++ [toString i] } with
    | .error e => .error e
    | .ok (.ok _) => firstItemFailure item rest (i + 1) o
    | .ok (.verr en) => .ok (some en.issues)

/-- Under `abortEarly`, the field loop's early return carries exactly
the first failing field's issues, and a completed loop carries none. -/
theorem fieldsGo_abort_char (fs : List (String × JValue)) (required : List String)
    (dflts : List (String × JValue)) (o : ValidationOptions)
    (habort : o.abortEarly = true) :
    ∀ (shape : List (String × SchemaE)) (accF : List (String × JValue)),
    (∀ e, fieldsGo shape fs required dflts o accF [] = .ok (.inl e) →
      firstFailingIssues shape fs required dflts o = .ok (some e.issues)) ∧
    (∀ resF issues, fieldsGo shape fs required dflts o accF [] = .ok (.inr (resF, issues)) →
      issues = []) := by
  intro shape
  induction shape with
  | nil =>
    intro accF
    constructor
    · intro e h
      rw [fieldsGo] at h
      cases h
    · intro resF issues h
      rw [fieldsGo] at h
      simp at h
      exact h.2
  | cons q rest ih =>
    intro accF
    obtain ⟨k, s⟩ := q
    constructor
    · intro e h
      rw [fieldsGo] at h
      rw [firstFailingIssues]
      cases hstep : fieldStep s k fs required dflts o with
      | error e' => rw [hstep] at h; cases h
      | ok p =>
        obtain ⟨add, iss⟩ := p
        rw [hstep] at h
        cases hiss : iss with
        | nil =>
          simp only [hiss, habort] at h
          simp at h
          exact (ih _).1 e h
        | cons i0 irest =>
          simp only [hiss, habort] at h
          simp at h
          simp [← h]
    · intro resF issues h
      rw [fieldsGo] at h
      cases hstep : fieldStep s k fs required dflts o with
      | error e' => rw [hstep] at h; cases h
      | ok p =>
        obtain ⟨add, iss⟩ := p
        rw [hstep] at h
        cases hiss : iss with
        | nil =>
          simp only [hiss, habort] at h
          simp at h
          exact (ih _).2 resF issues h
        | cons i0 irest =>
          simp only [hiss, habort] at h
          simp at h

/-- Under `abortEarly`, the item loop's early return carries the
accumulated array-level issues followed by exactly the first failing
item's issues, and a completed loop carries only the accumulated
issues. -/
theorem itemsGo_abort_char (item : SchemaE) (o : ValidationOptions)
    (habort : o.abortEarly = true) :
    ∀ (xs : List JValue) (i : ℕ) (accI : List ValidationIssue) (accR : List JValue),
    (∀ e, itemsGo item xs i o accI accR = .ok (.inl e) →
      ∃ iss, firstItemFailure item xs i o = .ok (some iss) ∧ e.issues = accI ++ iss) ∧
    (∀ res issues, itemsGo item xs i o accI accR = .ok (.inr (res, issues)) →
      issues = accI ∧ firstItemFailure item xs i o = .ok none) := by
  intro xs
  induction xs with
  | nil =>
    intro i accI accR
    constructor
    · intro e h
      rw [itemsGo] at h
      cases h
    · intro res issues h
      rw [itemsGo] at h
      simp at h
      exact ⟨h.2.symm, rfl⟩
  | cons x rest ih =>
    intro i accI accR
    constructor
    · intro e h
      rw [itemsGo] at h
      rw [firstItemFailure]
      cases hstep : parseS item x { o with path := o.path ++ [toString i] } with
      | error e' => rw [hstep] at h; cases h
      | ok r =>
        rw [hstep] at h
        cases r with
        | ok w => exact (ih (i + 1) accI (accR ++ [w])).1 e h
        | verr en =>
          simp only [habort] at h
          simp at h
          exact ⟨en.issues, rfl, by simp [← h]⟩
    · intro res issues h
      rw [itemsGo] at h
      rw [firstItemFailure]
      cases hstep : parseS item x { o with path := o.path ++ [toString i] } with
      | error e' => rw [hstep] at h; cases h
      | ok r =>
        rw [hstep] at h
        cases r with
        | ok w => exact (ih (i + 1) accI (accR ++ [w])).2 res issues h
        | verr en =>
          simp only [habort] at h
          simp at h

/-- C3 counterexample: with `abortEarly=true`,
`object({a: number().positive().min(5)})` on `{a: -3}` fails with the
two issues of the single failing field `a` (`number.positive` and
`number.min`), not with at most one issue. -/
theorem C3_counterexample :
    parseS (.obj [("a", .num { positive := true, min := some 5 })] ["a"] [])
      (.jobj [("a", .jnum (-3))]) { defaultOptions with abortEarly := true }
      = .ok (.verr ⟨[
        { path := ["a"], message := "Number must be positive", code := "number.positive"
          params := [("value", .jnum (-3))] },
        { path := ["a"], message := s!"Number must be greater than or equal to {(5 : ℚ)}"
          code := "number.min", params := [("min", .jnum 5), ("value", .jnum (-3))] }]⟩) ∧
    (2 : ℕ) ≠ 1 := by
  constructor
  · simp [parseS, fieldsGo, fieldStep, parseNum, getProp, List.lookup, defaultOptions]
    norm_num
  · decide

/-- C3 (amended): with `abortEarly=true`, a failing object parse
reports either a single type-mismatch issue (non-object input) or
exactly the issues contributed by the first declared field whose check
fails — all of that field's issues, which may be more than one; a
failing array parse reports either a single type-mismatch issue, or the
array-level length/uniqueness issues followed by exactly the first
failing item's issues (or the array-level issues alone when every item
parses).  The claim's bound of at most one issue does not hold. -/
theorem C3_amended :
    (∀ (shape : List (String × SchemaE)) (required : List String)
      (dflts : List (String × JValue)) (v : JValue) (o : ValidationOptions) (e : ValidationError),
      o.abortEarly = true →
      parseS (.obj shape required dflts) v o = .ok (.verr e) →
      e = typeMismatchErr "object" v o.path ∨
      ∃ fs, v = .jobj fs ∧
        firstFailingIssues shape fs required dflts o = .ok (some e.issues)) ∧
    (∀ (item : SchemaE) (ao : ArrayOpts) (v : JValue) (o : ValidationOptions)
      (e : ValidationError),
      o.abortEarly = true →
      parseS (.arr item ao) v o = .ok (.verr e) →
      e = typeMismatchErr "array" v o.path ∨
      ∃ xs, v = .jarr xs ∧
        ((firstItemFailure item xs 0 o = .ok none ∧
          e.issues = arrLevelIssues ao xs o.path ∧ e.issues ≠ []) ∨
         ∃ iss, firstItemFailure item xs 0 o = .ok (some iss) ∧
          e.issues = arrLevelIssues ao xs o.path ++ iss)) := by
  constructor
  · intro shape required dflts v o e habort h
    cases v with
    | jobj fs =>
      right
      refine ⟨fs, rfl, ?_⟩
      simp only [parseS] at h
      cases hgo : fieldsGo shape fs required dflts o [] [] with
      | error e' => rw [hgo] at h; cases h
      | ok r =>
        rw [hgo] at h
        cases r with
        | inl ve =>
          simp at h
          subst h
          exact (fieldsGo_abort_char fs required dflts o habort shape []).1 _ hgo
        | inr p =>
          obtain ⟨resF, issues⟩ := p
          have hempty := (fieldsGo_abort_char fs required dflts o habort shape []).2 resF issues hgo
          subst hempty
          simp at h
    | undef => left; simp only [parseS] at h; simp at h; exact h.symm
    | jnull => left; simp only [parseS] at h; simp at h; exact h.symm
    | jbool b => left; simp only [parseS] at h; simp at h; exact h.symm
    | jnum q => left; simp only [parseS] at h; simp at h; exact h.symm
    | jstr s => left; simp only [parseS] at h; simp at h; exact h.symm
    | jarr xs => left; simp only [parseS] at h; simp at h; exact h.symm
  · intro item ao v o e habort h
    cases v with
    | jarr xs =>
      right
      refine ⟨xs, rfl, ?_⟩
      simp only [parseS] at h
      cases hgo : itemsGo item xs 0 o (arrLevelIssues ao xs o.path) [] with
      | error e' => rw [hgo] at h; cases h
      | ok r =>
        rw [hgo] at h
        cases r with
        | inl ve =>
          simp at h
          subst h
          obtain ⟨iss, h1, h2⟩ :=
            (itemsGo_abort_char item o habort xs 0 (arrLevelIssues ao xs o.path) []).1 _ hgo
          exact Or.inr ⟨iss, h1, h2⟩
        | inr p =>
          obtain ⟨res, issues⟩ := p
          obtain ⟨hiss, hnone⟩ :=
            (itemsGo_abort_char item o habort xs 0 (arrLevelIssues ao xs o.path) []).2
              res issues hgo
          subst hiss
          by_cases hne : (arrLevelIssues ao xs o.path).isEmpty = true
          · simp [hne] at h
          · simp only [hne] at h
            simp at h
            subst h
            exact Or.inl ⟨hnone, rfl, by simpa using hne⟩
    | undef =>
      left
      simp only [parseS] at h
      cases hd : ao.dflt with
      | some d => rw [hd] at h; simp at h
      | none => rw [hd] at h; simp at h; exact h.symm
    | jnull =>
      left
      simp only [parseS] at h
      cases hd : ao.dflt with
      | some d => rw [hd] at h; simp at h
      | none => rw [hd] at h; simp at h; exact h.symm
    | jbool b => left; simp only [parseS] at h; simp at h; exact h.symm
    | jnum q => left; simp only [parseS] at h; simp at h; exact h.symm
    | jstr s => left; simp only [parseS] at h; simp at h; exact h.symm
    | jobj fs => left; simp only [parseS] at h; simp at h; exact h.symm

/-- Witness instantiating `C3_amended` on the two-issue counterexample
schema: the abort-early error is exactly the first failing field's
issue list. -/
theorem C3_amended_witness :
    (⟨[
        { path := ["a"], message := "Number must be positive", code := "number.positive"
          params := [("value", .jnum (-3))] },
        { path := ["a"], message := s!"Number must be greater than or equal to {(5 : ℚ)}"
          code := "number.min", params := [("min", .jnum 5), ("value", .jnum (-3))] }]⟩ : ValidationError)
      = typeMismatchErr "object" (.jobj [("a", .jnum (-3))])
        ({ defaultOptions with abortEarly := true } : ValidationOptions).path ∨
    ∃ fs, (JValue.jobj [("a", .jnum (-3))]) = .jobj fs ∧
      firstFailingIssues [("a", .num { positive := true, min := some 5 })] fs ["a"] []
        { defaultOptions with abortEarly := true } = .ok (some [
        { path := ["a"], message := "Number must be positive", code := "number.positive"
          params := [("value", .jnum (-3))] },
        { path := ["a"], message := s!"Number must be greater than or equal to {(5 : ℚ)}"
          code := "number.min", params := [("min", .jnum 5), ("value", .jnum (-3))] }]) :=
  C3_amended.1 [("a", .num { positive := true, min := some 5 })] ["a"] []
    (.jobj [("a", .jnum (-3))]) { defaultOptions with abortEarly := true }
    ⟨[
      { path := ["a"], message := "Number must be positive", code := "number.positive"
        params := [("value", .jnum (-3))] },
      { path := ["a"], message := s!"Number must be greater than or equal to {(5 : ℚ)}"
        code := "number.min", params := [("min", .jnum 5), ("value", .jnum (-3))] }]⟩ rfl
    (by simp [parseS, fieldsGo, fieldStep, parseNum, getProp, List.lookup, defaultOptions]
        norm_num)

/-- The required set of an object schema (empty for other variants). -/
def requiredOf : SchemaE → List String
  | .obj _ required _ => required
  | .objOpt _ required _ => required
  | _ => []

/-- Membership in the set-insertion of one key. -/
theorem mem_setAdd (s : List String) (k k' : String) :
    k ∈ setAdd s k' ↔ k ∈ s ∨ k = k' := by
  rw [setAdd]
  by_cases h : k' ∈ s
  · rw [if_pos h]
    constructor
    · exact Or.inl
    · rintro (hm | rfl)
      · exact hm
      · exact h
  · rw [if_neg h]
    simp

/-- Membership in the set-insertion of a key list. -/
theorem mem_setAddMany (k : String) :
    ∀ (ks s : List String), k ∈ setAddMany s ks ↔ k ∈ s ∨ k ∈ ks := by
  intro ks
  induction ks with
  | nil => intro s; simp [setAddMany]
  | cons k0 rest ih =>
    intro s
    rw [setAddMany, List.foldl_cons]
    have := ih (setAdd s k0)
    rw [setAddMany] at this
    rw [this, mem_setAdd]
    constructor
    · rintro ((h | rfl) | h)
      · exact Or.inl h
      · exact Or.inr (by simp)
      · exact Or.inr (by simp [h])
    · rintro (h | h)
      · exact Or.inl (Or.inl h)
      · rcases List.mem_cons.mp h with rfl | h
        · exact Or.inl (Or.inr rfl)
        · exact Or.inr h

/-- A field absent from the input and not required contributes no
issues (the default probe is wrapped in the source's try/catch). -/
theorem fieldStep_absent_not_required (s : SchemaE) (k : String)
    (fs : List (String × JValue)) (required : List String)
    (dflts : List (String × JValue)) (o : ValidationOptions)
    (habs : getProp fs k = none) (hreq : k ∉ required) :
    ∃ a, fieldStep s k fs required dflts o = .ok (a, []) := by
  rw [fieldStep]
  simp only [habs]
  rw [if_neg hreq]
  by_cases hd : o.defaults = true
  · simp only [hd, if_pos]
    cases hl : dflts.lookup k with
    | some dv => exact ⟨some (k, dv), by simp⟩
    | none =>
      cases hp : parseS s .undef { o with path := o.path ++ [k], defaults := true } with
      | error e => exact ⟨none, by simp [hp]⟩
      | ok r =>
        cases r with
        | verr e => exact ⟨none, by simp [hp]⟩
        | ok d =>
          cases d with
          | undef => exact ⟨none, by simp [hp]⟩
          | jnull => exact ⟨some (k, .jnull), by simp [hp]⟩
          | jbool b => exact ⟨some (k, .jbool b), by simp [hp]⟩
          | jnum q => exact ⟨some (k, .jnum q), by simp [hp]⟩
          | jstr t => exact ⟨some (k, .jstr t), by simp [hp]⟩
          | jarr xs => exact ⟨some (k, .jarr xs), by simp [hp]⟩
          | jobj gs => exact ⟨some (k, .jobj gs), by simp [hp]⟩
  · have hd' : o.defaults = false := by
      revert hd
      cases o.defaults <;> simp
    simp only [hd']
    exact ⟨none, by simp⟩

/-- A required field absent from the input, with no explicit default
and whose schema probe resolves no defined default, contributes exactly
the `object.required` issue. -/
theorem fieldStep_required_missing (s : SchemaE) (k : String)
    (fs : List (String × JValue)) (required : List String)
    (dflts : List (String × JValue)) (o : ValidationOptions)
    (habs : getProp fs k = none) (hreq : k ∈ required)
    (hdef : o.defaults = true) (hnd : dflts.lookup k = none)
    (hprobe : ∀ d, parseS s .undef { o with path := o.path ++ [k], defaults := true }
      = .ok (.ok d) → d = .undef) :
    fieldStep s k fs required dflts o = .ok (none,
      [{ path := o.path ++ [k], message := "Required property missing"
         code := "object.required" }]) := by
  rw [fieldStep]
  simp only [habs]
  rw [if_pos hreq]
  simp only [hdef, if_pos, hnd]
  cases hp : parseS s .undef { o with path := o.path ++ [k], defaults := true } with
  | error e => simp [hp]
  | ok r =>
    cases r with
    | verr e => simp [hp]
    | ok d =>
      have hds := hprobe d hp
      subst hds
      simp [hp]

/-- Without `abortEarly`, the field loop appends each field's issue
contribution in declaration order. -/
theorem fieldsGo_issues_append (fs : List (String × JValue)) (required : List String)
    (dflts : List (String × JValue)) (o : ValidationOptions) (hab : o.abortEarly = false)
    (issOf : String × SchemaE → List ValidationIssue) :
    ∀ (shape : List (String × SchemaE)) (accF : List (String × JValue))
      (accI : List ValidationIssue),
    (∀ q ∈ shape, ∃ a, fieldStep q.2 q.1 fs required dflts o = .ok (a, issOf q)) →
    ∃ resF, fieldsGo shape fs required dflts o accF accI
      = .ok (.inr (resF, accI ++ (shape.map issOf).flatten)) := by
  intro shape
  induction shape with
  | nil =>
    intro accF accI _
    exact ⟨accF, by simp [fieldsGo]⟩
  | cons q rest ih =>
    intro accF accI hstep
    obtain ⟨k, s⟩ := q
    obtain ⟨a, ha⟩ := hstep (k, s) (by simp)
    rw [fieldsGo, ha]
    have hcond : (o.abortEarly && !(issOf (k, s)).isEmpty) = false := by simp [hab]
    cases a with
    | some kv =>
      obtain ⟨resF, hr⟩ := ih (objSet accF kv.1 kv.2) (accI ++ issOf (k, s))
        (fun q hq => hstep q (by simp [hq]))
      exact ⟨resF, by simp [hcond, hr]⟩
    | none =>
      obtain ⟨resF, hr⟩ := ih accF (accI ++ issOf (k, s))
        (fun q hq => hstep q (by simp [hq]))
      exact ⟨resF, by simp [hcond, hr]⟩

/-- The join of the per-field issue contributions when exactly the key
`k` contributes `riss` and every other key contributes nothing. -/
theorem join_single_contribution (k : String) (riss : List ValidationIssue) :
    ∀ (l : List (String × SchemaE)), (l.map Prod.fst).Nodup → k ∈ l.map Prod.fst →
    (l.map fun q => if q.1 = k then riss else []).flatten = riss := by
  have hnone : ∀ (l : List (String × SchemaE)), k ∉ l.map Prod.fst →
      (l.map fun q => if q.1 = k then riss else []).flatten = [] := by
    intro l
    induction l with
    | nil => intro _; simp
    | cons q rest ih =>
      intro hm
      simp only [List.map_cons, List.mem_cons, not_or] at hm
      simp only [List.map_cons, List.flatten_cons]
      rw [if_neg (fun he => hm.1 he.symm), ih hm.2]
      simp
  intro l
  induction l with
  | nil => intro _ h; simp at h
  | cons q rest ih =>
    intro hnodup hmem
    simp only [List.map_cons, List.nodup_cons] at hnodup
    simp only [List.map_cons, List.flatten_cons]
    by_cases he : q.1 = k
    · rw [if_pos he]
      rw [hnone rest (he ▸ hnodup.1)]
      simp
    · rw [if_neg he]
      simp only [List.map_cons, List.mem_cons] at hmem
      rcases hmem with hk | hk
      · exact absurd hk.symm he
      · rw [ih hnodup.2 hk]
        simp

/-- The keys of a shape are unchanged by `partialShape`. -/
theorem partialShape_keys : ∀ shape : List (String × SchemaE),
    (partialShape shape).map Prod.fst = shape.map Prod.fst := by
  intro shape
  induction shape with
  | nil => rfl
  | cons q rest ih =>
    obtain ⟨k, s⟩ := q
    rw [partialShape]
    simp [ih]

/-- Membership in a partialled shape. -/
theorem mem_partialShape : ∀ (shape : List (String × SchemaE)) (q : String × SchemaE),
    q ∈ partialShape shape ↔ ∃ p ∈ shape, q = (p.1, partialOf p.2) := by
  intro shape
  induction shape with
  | nil => intro q; simp [partialShape]
  | cons p rest ih =>
    intro q
    obtain ⟨k, s⟩ := p
    rw [partialShape]
    simp only [List.mem_cons, ih]
    constructor
    · rintro (rfl | ⟨p, hp, rfl⟩)
      · exact ⟨(k, s), by simp⟩
      · exact ⟨p, by simp [hp]⟩
    · rintro ⟨p, hp, rfl⟩
      rcases hp with rfl | hp
      · exact Or.inl rfl
      · exact Or.inr ⟨p, hp, rfl⟩

/-- C4 counterexample: for `S = object({id: string()}).default('id',
'x')` — an object schema that declares the field `id` with an explicit
default — `S.partial().required('id').safeParse({})` succeeds with
`{id: "x"}` instead of failing with one issue at `['id']`: the
explicit default satisfies the re-imposed requiredness. -/
theorem C4_counterexample :
    parseS (partialRequired [("id", .str {})] [("id", .jstr "x")] ["id"]) (.jobj [])
      defaultOptions = .ok (.ok (.jobj [("id", .jstr "x")])) := by
  simp [partialRequired, partialShape, partialOf, setAddMany, setAdd, parseS, fieldsGo,
    fieldStep, getProp, List.lookup, unknownPass, objSet, defaultOptions]

/-- Distinct declared keys determine the field schema uniquely. -/
theorem shape_key_unique : ∀ (shape : List (String × SchemaE)),
    (shape.map Prod.fst).Nodup →
    ∀ (k : String) (s t : SchemaE), (k, s) ∈ shape → (k, t) ∈ shape → s = t := by
  intro shape
  induction shape with
  | nil =>
    intro _ k s t hs _
    simp at hs
  | cons q rest ih =>
    intro hnodup k s t hs ht
    simp only [List.map_cons, List.nodup_cons] at hnodup
    rcases List.mem_cons.mp hs with hqs | hs'
    · rcases List.mem_cons.mp ht with hqt | ht'
      · have := hqs.trans hqt.symm
        exact congrArg Prod.snd this
      · exfalso
        apply hnodup.1
        have hk : q.1 = k := by rw [← hqs]
        rw [hk]
        exact List.mem_map_of_mem Prod.fst ht'
    · rcases List.mem_cons.mp ht with hqt | ht'
      · exfalso
        apply hnodup.1
        have hk : q.1 = k := by rw [← hqt]
        rw [hk]
        exact List.mem_map_of_mem Prod.fst hs'
      · exact ih hnodup.2 k s t hs' ht'

/-- C4 (amended): for an object schema declaring a field `k` (with
distinct declared keys), provided the schema records no explicit
default for `k` and the derived partial field schema resolves no
defined value for an absent input, `partial().required(k).safeParse({})`
fails with exactly one `object.required` issue at path `[k]`.  More
generally `partial()` empties the required set, so
`S.partial().safeParse({})` always succeeds; and the `required(keys)`
operation of the derived partial schema re-imposes requiredness on
exactly the named keys and, called again on the result, unites the new
keys with the previous ones instead of replacing them. -/
theorem C4_amended :
    (∀ (shape : List (String × SchemaE)) (dflts : List (String × JValue)) (k : String)
      (s : SchemaE),
      (k, s) ∈ shape → (shape.map Prod.fst).Nodup →
      dflts.lookup k = none →
      (∀ d, parseS (partialOf s) .undef { defaultOptions with path := [k] } = .ok (.ok d) →
        d = .undef) →
      parseS (partialRequired shape dflts [k]) (.jobj []) defaultOptions
        = .ok (.verr ⟨[{ path := [k], message := "Required property missing"
                         code := "object.required" }]⟩)) ∧
    (∀ (shape : List (String × SchemaE)) (required : List String)
      (dflts : List (String × JValue)), ∃ w,
      parseS (partialOf (.obj shape required dflts)) (.jobj []) defaultOptions
        = .ok (.ok w)) ∧
    (∀ (shape : List (String × SchemaE)) (dflts : List (String × JValue))
      (ks : List String) (k : String),
      k ∈ requiredOf (partialRequired shape dflts ks) ↔ k ∈ ks) ∧
    (∀ (shape : List (String × SchemaE)) (dflts : List (String × JValue))
      (ks1 ks2 : List String) (k : String),
      k ∈ requiredOf (partialRequiredAgain shape dflts ks1 ks2) ↔ k ∈ ks1 ∨ k ∈ ks2) := by
  refine ⟨?_, ?_, ?_, ?_⟩
  · intro shape dflts k s hmem hnodup hnd hprobe
    have hreq : setAddMany [] [k] = [k] := by simp [setAddMany, setAdd]
    rw [partialRequired, hreq]
    have hstep : ∀ q ∈ partialShape shape,
        ∃ a, fieldStep q.2 q.1 [] [k] dflts defaultOptions
          = .ok (a, if q.1 = k then
            [{ path := [k], message := "Required property missing"
               code := "object.required" }] else []) := by
      intro q hq
      obtain ⟨p, hp, rfl⟩ := (mem_partialShape shape q).mp hq
      by_cases he : p.1 = k
      · have hpe : p = (k, p.2) := by rw [← he]
        have hmem2 : (k, p.2) ∈ shape := hpe ▸ hp
        have hps : p.2 = s := shape_key_unique shape hnodup k p.2 s hmem2 hmem
        refine ⟨none, ?_⟩
        simp only [he, if_pos]
        rw [hps]
        exact fieldStep_required_missing (partialOf s) k [] [k] dflts defaultOptions rfl
          (by simp) rfl hnd hprobe
      · obtain ⟨a, ha⟩ := fieldStep_absent_not_required (partialOf p.2) p.1 [] [k]
          dflts defaultOptions rfl (by simp [he])
        exact ⟨a, by simp only [he, if_neg]; simpa using ha⟩
    obtain ⟨resF, hgo⟩ := fieldsGo_issues_append [] [k] dflts defaultOptions rfl
      (fun q => if q.1 = k then
        [{ path := [k], message := "Required property missing"
           code := "object.required" }] else [])
      (partialShape shape) [] [] hstep
    have hjoin := join_single_contribution k
      [{ path := [k], message := "Required property missing", code := "object.required" }]
      (partialShape shape)
      (by rw [partialShape_keys]; exact hnodup)
      (by rw [partialShape_keys]; exact List.mem_map_of_mem Prod.fst hmem)
    rw [hjoin] at hgo
    rw [parseS]
    rw [hgo]
    simp [unknownPass]
  · intro shape required dflts
    rw [partialOf]
    have hstep : ∀ q ∈ partialShape shape,
        ∃ a, fieldStep q.2 q.1 [] [] dflts defaultOptions = .ok (a, (fun _ => []) q) :=
      fun q _ => fieldStep_absent_not_required q.2 q.1 [] [] dflts defaultOptions rfl
        (by simp)
    obtain ⟨resF, hgo⟩ := fieldsGo_issues_append [] [] dflts defaultOptions rfl (fun _ => [])
      (partialShape shape) [] [] hstep
    refine ⟨.jobj resF, ?_⟩
    rw [parseS]
    rw [hgo]
    simp [unknownPass]
  · intro shape dflts ks k
    rw [partialRequired]
    simp only [requiredOf]
    rw [mem_setAddMany]
    simp
  · intro shape dflts ks1 ks2 k
    rw [partialRequiredAgain]
    simp only [requiredOf]
    rw [mem_setAddMany, mem_setAddMany]
    simp

/-- A concrete partial schema for the witness: `object({id: string(),
age: number()})`. -/
def c4shape : List (String × SchemaE) := [("id", .str {}), ("age", .num {})]

/-- Witness instantiating `C4_amended` on `object({id: string(), age:
number()})`: the re-required partial schema rejects `{}` with exactly
one `object.required` issue at `['id']`. -/
theorem C4_amended_witness :
    parseS (partialRequired c4shape [] ["id"]) (.jobj []) defaultOptions
      = .ok (.verr ⟨[{ path := ["id"], message := "Required property missing"
                       code := "object.required" }]⟩) :=
  C4_amended.1 c4shape [] "id" (.str {}) (by simp [c4shape]) (by simp [c4shape]) rfl
    (by intro d h
        simp [partialOf, parseS, defaultOptions] at h
        exact h.symm)

/-! ### C1: safeParse totality and exception conversion -/

/-- Schemas none of whose embedded user-supplied functions throw.  The
`postproc` case needs no condition on its function because
`PostprocessSchema._parse` wraps it in a try/catch, and `asyncS` none on
its validator because the synchronous parse never runs it. -/
inductive NoThrow : SchemaE → Prop where
  | str (o : StringOpts) : NoThrow (.str o)
  | strOpt (o : StringOpts) : NoThrow (.strOpt o)
  | num (o : NumberOpts) : NoThrow (.num o)
  | numOpt (o : NumberOpts) : NoThrow (.numOpt o)
  | boolS (o : BoolOpts) : NoThrow (.boolS o)
  | boolOpt (o : BoolOpts) : NoThrow (.boolOpt o)
  | enumS (values : List JValue) : NoThrow (.enumS values)
  | obj (shape : List (String × SchemaE)) (required : List String)
      (dflts : List (String × JValue)) :
      (∀ q ∈ shape, NoThrow q.2) → NoThrow (.obj shape required dflts)
  | objOpt (shape : List (String × SchemaE)) (required : List String)
      (dflts : List (String × JValue)) :
      (∀ q ∈ shape, NoThrow q.2) → NoThrow (.objOpt shape required dflts)
  | arr (item : SchemaE) (ao : ArrayOpts) : NoThrow item → NoThrow (.arr item ao)
  | arrOpt (item : SchemaE) (ao : ArrayOpts) : NoThrow item → NoThrow (.arrOpt item ao)
  | refine (base : SchemaE) (pred : JValue → Except JsError Bool)
      (msg : String ⊕ (JValue → String)) :
      NoThrow base → (∀ v, ∃ b, pred v = .ok b) → NoThrow (.refine base pred msg)
  | transform (base : SchemaE) (f : JValue → Except JsError TransOut) :
      NoThrow base → (∀ v, ∃ r, f v = .ok r) → NoThrow (.transform base f)
  | preproc (base : SchemaE) (f : JValue → Except JsError JValue) :
      NoThrow base → (∀ v, ∃ u, f v = .ok u) → NoThrow (.preproc base f)
  | postproc (base : SchemaE) (f : JValue → Except JsError JValue) :
      NoThrow base → NoThrow (.postproc base f)
  | asyncS (base : SchemaE) (validator : JValue → Except JsError (VResult JValue)) :
      NoThrow base → NoThrow (.asyncS base validator)
  | discUnionC (disc : String) (members : List SchemaE) :
      (∀ m ∈ members, NoThrow m) → NoThrow (.discUnionC disc members)
  | permAware (base : SchemaE) (perms : List (String × PermissionRequirement)) :
      NoThrow base → NoThrow (.permAware base perms)

/-- The per-field body never lets an exception escape when the field
schema itself never does. -/
theorem fieldStep_total (s : SchemaE)
    (htot : ∀ v o, ∃ r, parseS s v o = .ok r) (k : String)
    (fs : List (String × JValue)) (required : List String)
    (dflts : List (String × JValue)) (o : ValidationOptions) :
    ∃ r, fieldStep s k fs required dflts o = .ok r := by
  cases hget : getProp fs k with
  | some pv =>
    obtain ⟨r, hr⟩ := htot pv { o with path := o.path ++ [k] }
    cases r with
    | ok w => exact ⟨_, by rw [fieldStep]; simp [hget, hr]; rfl⟩
    | verr e => exact ⟨_, by rw [fieldStep]; simp [hget, hr]; rfl⟩
  | none =>
    by_cases hreq : k ∈ required
    · by_cases hdef : o.defaults = true
      · cases hdl : dflts.lookup k with
        | some dv => exact ⟨_, by rw [fieldStep]; simp [hget, hreq, hdef, hdl]; rfl⟩
        | none =>
          cases hp : parseS s .undef { o with path := o.path ++ [k], defaults := true } with
          | error e => exact ⟨_, by rw [fieldStep]; simp [hget, hreq, hdef, hdl, hp]; rfl⟩
          | ok r =>
            cases r with
            | verr e => exact ⟨_, by rw [fieldStep]; simp [hget, hreq, hdef, hdl, hp]; rfl⟩
            | ok d =>
              cases d with
              | undef => exact ⟨_, by rw [fieldStep]; simp [hget, hreq, hdef, hdl, hp]; rfl⟩
              | jnull => exact ⟨_, by rw [fieldStep]; simp [hget, hreq, hdef, hdl, hp]; rfl⟩
              | jbool b => exact ⟨_, by rw [fieldStep]; simp [hget, hreq, hdef, hdl, hp]; rfl⟩
              | jnum q => exact ⟨_, by rw [fieldStep]; simp [hget, hreq, hdef, hdl, hp]; rfl⟩
              | jstr t => exact ⟨_, by rw [fieldStep]; simp [hget, hreq, hdef, hdl, hp]; rfl⟩
              | jarr xs => exact ⟨_, by rw [fieldStep]; simp [hget, hreq, hdef, hdl, hp]; rfl⟩
              | jobj gs => exact ⟨_, by rw [fieldStep]; simp [hget, hreq, hdef, hdl, hp]; rfl⟩
      · have hd : o.defaults = false := by revert hdef; cases o.defaults <;> simp
        exact ⟨_, by rw [fieldStep]; simp [hget, hreq, hd]; rfl⟩
    · obtain ⟨a, ha⟩ := fieldStep_absent_not_required s k fs required dflts o hget hreq
      exact ⟨_, ha⟩

/-- The declared-field loop never lets an exception escape when no field
schema does. -/
theorem fieldsGo_total (fs : List (String × JValue)) (required : List String)
    (dflts : List (String × JValue)) (o : ValidationOptions) :
    ∀ (shape : List (String × SchemaE)),
    (∀ q ∈ shape, ∀ v oo, ∃ r, parseS q.2 v oo = .ok r) →
    ∀ accF accI, ∃ r, fieldsGo shape fs required dflts o accF accI = .ok r := by
  intro shape
  induction shape with
  | nil => intro _ accF accI; exact ⟨_, by rw [fieldsGo]⟩
  | cons q rest ih =>
    intro htot accF accI
    obtain ⟨k, s⟩ := q
    obtain ⟨⟨add, iss⟩, ha⟩ := fieldStep_total s (htot (k, s) (by simp)) k fs required dflts o
    by_cases hc : (o.abortEarly && !iss.isEmpty) = true
    · exact ⟨_, by rw [fieldsGo, ha]; simp [hc]; rfl⟩
    · have hc2 : (o.abortEarly && !iss.isEmpty) = false := by
        revert hc; cases o.abortEarly && !iss.isEmpty <;> simp
      cases add with
      | some kv =>
        obtain ⟨r, hr⟩ := ih (fun p hp => htot p (by simp [hp]))
          (objSet accF kv.1 kv.2) (accI ++ iss)
        exact ⟨_, by rw [fieldsGo, ha]; simp [hc2, hr]; rfl⟩
      | none =>
        obtain ⟨r, hr⟩ := ih (fun p hp => htot p (by simp [hp])) accF (accI ++ iss)
        exact ⟨_, by rw [fieldsGo, ha]; simp [hc2, hr]; rfl⟩

/-- The item loop never lets an exception escape when the item schema
never does. -/
theorem itemsGo_total (item : SchemaE)
    (htot : ∀ v o, ∃ r, parseS item v o = .ok r) :
    ∀ (xs : List JValue) (i : ℕ) (o : ValidationOptions) accI accR,
    ∃ r, itemsGo item xs i o accI accR = .ok r := by
  intro xs
  induction xs with
  | nil => intro i o accI accR; exact ⟨_, by rw [itemsGo]⟩
  | cons x rest ih =>
    intro i o accI accR
    obtain ⟨r, hr⟩ := htot x { o with path := o.path ++ [toString i] }
    cases r with
    | ok w =>
      obtain ⟨r2, hr2⟩ := ih (i + 1) o accI (accR ++ [w])
      exact ⟨_, by rw [itemsGo, hr]; simp [hr2]; rfl⟩
    | verr e =>
      by_cases hab : o.abortEarly = true
      · exact ⟨_, by rw [itemsGo, hr]; simp [hab]; rfl⟩
      · have hab2 : o.abortEarly = false := by revert hab; cases o.abortEarly <;> simp
        obtain ⟨r2, hr2⟩ := ih (i + 1) o (accI ++ e.issues) accR
        exact ⟨_, by rw [itemsGo, hr]; simp [hab2, hr2]; rfl⟩

/-- The member loop of the class discriminated union never lets an
exception escape when no member does. -/
theorem duGoC_total (v : JValue) (o : ValidationOptions) :
    ∀ (members : List SchemaE),
    (∀ m ∈ members, ∀ w oo, ∃ r, parseS m w oo = .ok r) →
    ∀ accI, ∃ r, duGoC members v o accI = .ok r := by
  intro members
  induction members with
  | nil => intro _ accI; exact ⟨_, by rw [duGoC]⟩
  | cons m rest ih =>
    intro htot accI
    obtain ⟨r, hr⟩ := htot m (by simp) v o
    cases r with
    | ok w => exact ⟨_, by rw [duGoC]; simp [hr]; rfl⟩
    | verr e =>
      obtain ⟨r2, hr2⟩ := ih (fun p hp => htot p (by simp [hp])) (accI ++ e.issues)
      exact ⟨_, by rw [duGoC]; simp [hr, hr2]; rfl⟩

/-- Totality of the internal parse under `NoThrow`: no exception escapes
any schema node whose user functions do not throw. -/
theorem parseS_total (S : SchemaE) (h : NoThrow S) :
    ∀ v o, ∃ r, parseS S v o = .ok r := by
  induction h with
  | str so => intro v o; exact ⟨_, by rw [parseS]⟩
  | strOpt so => intro v o; cases v <;> exact ⟨_, by simp only [parseS]; rfl⟩
  | num no => intro v o; exact ⟨_, by rw [parseS]⟩
  | numOpt no => intro v o; cases v <;> exact ⟨_, by simp only [parseS]; rfl⟩
  | boolS bo => intro v o; exact ⟨_, by rw [parseS]⟩
  | boolOpt bo => intro v o; cases v <;> exact ⟨_, by simp only [parseS]; rfl⟩
  | enumS values => intro v o; exact ⟨_, by rw [parseS]⟩
  | obj shape required dflts hshape ihshape =>
    intro v o
    cases v with
    | jobj fs =>
      obtain ⟨r, hr⟩ := fieldsGo_total fs required dflts o shape ihshape [] []
      cases r with
      | inl ve => exact ⟨_, by simp only [parseS]; rw [hr]⟩
      | inr pr =>
        obtain ⟨accF, issues⟩ := pr
        cases hie : issues.isEmpty with
        | true => exact ⟨_, by simp only [parseS]; rw [hr]; simp [hie]; rfl⟩
        | false => exact ⟨_, by simp only [parseS]; rw [hr]; simp [hie]; rfl⟩
    | undef => exact ⟨_, by simp only [parseS]; rfl⟩
    | jnull => exact ⟨_, by simp only [parseS]; rfl⟩
    | jbool b => exact ⟨_, by simp only [parseS]; rfl⟩
    | jnum q => exact ⟨_, by simp only [parseS]; rfl⟩
    | jstr t => exact ⟨_, by simp only [parseS]; rfl⟩
    | jarr xs => exact ⟨_, by simp only [parseS]; rfl⟩
  | objOpt shape required dflts hshape ihshape =>
    intro v o
    cases v with
    | jobj fs =>
      obtain ⟨r, hr⟩ := fieldsGo_total fs required dflts o shape ihshape [] []
      cases r with
      | inl ve => exact ⟨_, by simp only [parseS]; rw [hr]⟩
      | inr pr =>
        obtain ⟨accF, issues⟩ := pr
        cases hie : issues.isEmpty with
        | true => exact ⟨_, by simp only [parseS]; rw [hr]; simp [hie]; rfl⟩
        | false => exact ⟨_, by simp only [parseS]; rw [hr]; simp [hie]; rfl⟩
    | undef => exact ⟨_, by simp only [parseS]; rfl⟩
    | jnull => exact ⟨_, by simp only [parseS]; rfl⟩
    | jbool b => exact ⟨_, by simp only [parseS]; rfl⟩
    | jnum q => exact ⟨_, by simp only [parseS]; rfl⟩
    | jstr t => exact ⟨_, by simp only [parseS]; rfl⟩
    | jarr xs => exact ⟨_, by simp only [parseS]; rfl⟩
  | arr item ao hitem ihitem =>
    intro v o
    cases v with
    | jarr xs =>
      obtain ⟨r, hr⟩ := itemsGo_total item ihitem xs 0 o (arrLevelIssues ao xs o.path) []
      cases r with
      | inl ve => exact ⟨_, by simp only [parseS]; rw [hr]⟩
      | inr pr =>
        obtain ⟨result, issues⟩ := pr
        cases hie : issues.isEmpty with
        | true => exact ⟨_, by simp only [parseS]; rw [hr]; simp [hie]; rfl⟩
        | false => exact ⟨_, by simp only [parseS]; rw [hr]; simp [hie]; rfl⟩
    | undef =>
      cases hd : ao.dflt with
      | some d => exact ⟨_, by simp only [parseS]; rw [hd]⟩
      | none => exact ⟨_, by simp only [parseS]; rw [hd]⟩
    | jnull =>
      cases hd : ao.dflt with
      | some d => exact ⟨_, by simp only [parseS]; rw [hd]⟩
      | none => exact ⟨_, by simp only [parseS]; rw [hd]⟩
    | jbool b => exact ⟨_, by simp only [parseS]; rfl⟩
    | jnum q => exact ⟨_, by simp only [parseS]; rfl⟩
    | jstr t => exact ⟨_, by simp only [parseS]; rfl⟩
    | jobj fs => exact ⟨_, by simp only [parseS]; rfl⟩
  | arrOpt item ao hitem ihitem =>
    intro v o
    cases v with
    | jarr xs =>
      obtain ⟨r, hr⟩ := itemsGo_total item ihitem xs 0 o (arrLevelIssues ao xs o.path) []
      cases r with
      | inl ve => exact ⟨_, by simp only [parseS]; rw [hr]⟩
      | inr pr =>
        obtain ⟨result, issues⟩ := pr
        cases hie : issues.isEmpty with
        | true => exact ⟨_, by simp only [parseS]; rw [hr]; simp [hie]; rfl⟩
        | false => exact ⟨_, by simp only [parseS]; rw [hr]; simp [hie]; rfl⟩
    | undef => exact ⟨_, by simp only [parseS]; rfl⟩
    | jnull => exact ⟨_, by simp only [parseS]; rfl⟩
    | jbool b => exact ⟨_, by simp only [parseS]; rfl⟩
    | jnum q => exact ⟨_, by simp only [parseS]; rfl⟩
    | jstr t => exact ⟨_, by simp only [parseS]; rfl⟩
    | jobj fs => exact ⟨_, by simp only [parseS]; rfl⟩
  | refine base pred msg hb hp ihb =>
    intro v o
    obtain ⟨r, hr⟩ := ihb v o
    simp only [parseS]
    rw [hr]
    cases r with
    | verr e => exact ⟨_, rfl⟩
    | ok value =>
      obtain ⟨b, hpb⟩ := hp value
      simp only [refineCont, hpb]
      cases b with
      | true => exact ⟨_, rfl⟩
      | false => exact ⟨_, rfl⟩
  | transform base f hb hf ihb =>
    intro v o
    obtain ⟨r, hr⟩ := ihb v o
    simp only [parseS]
    rw [hr]
    cases r with
    | verr e => exact ⟨_, rfl⟩
    | ok value =>
      obtain ⟨tr, hft⟩ := hf value
      cases tr with
      | res r2 => exact ⟨_, by simp only [transformCont, hft]; rfl⟩
      | raw u => exact ⟨_, by simp only [transformCont, hft]; rfl⟩
  | preproc base f hb hf ihb =>
    intro v o
    obtain ⟨u, hu⟩ := hf v
    obtain ⟨r, hr⟩ := ihb u o
    exact ⟨r, by simp only [parseS, hu]; exact hr⟩
  | postproc base f hb ihb =>
    intro v o
    obtain ⟨r, hr⟩ := ihb v o
    simp only [parseS]
    rw [hr]
    cases r with
    | verr e => exact ⟨_, rfl⟩
    | ok value =>
      cases hf : f value with
      | ok u => exact ⟨_, by simp only [postprocCont, hf]; rfl⟩
      | error e => exact ⟨_, by simp only [postprocCont, hf]; rfl⟩
  | asyncS base validator hb ihb =>
    intro v o
    obtain ⟨r, hr⟩ := ihb v o
    exact ⟨r, by simp only [parseS]; exact hr⟩
  | discUnionC disc members hm ihm =>
    intro v o
    cases v with
    | jobj fs =>
      by_cases hk : hasKeyJS (.jobj fs) disc = true
      · obtain ⟨r, hr⟩ := duGoC_total (.jobj fs) o members ihm []
        cases r with
        | ok w => exact ⟨_, by simp only [parseS, hk, if_true]; rw [hr]⟩
        | error issues => exact ⟨_, by simp only [parseS, hk, if_true]; rw [hr]⟩
      · have hk2 : hasKeyJS (.jobj fs) disc = false := by
          revert hk; cases hasKeyJS (.jobj fs) disc <;> simp
        exact ⟨_, by simp only [parseS, hk2]; rw [if_neg]; simp⟩
    | jarr xs =>
      by_cases hk : hasKeyJS (.jarr xs) disc = true
      · obtain ⟨r, hr⟩ := duGoC_total (.jarr xs) o members ihm []
        cases r with
        | ok w => exact ⟨_, by simp only [parseS, hk, if_true]; rw [hr]⟩
        | error issues => exact ⟨_, by simp only [parseS, hk, if_true]; rw [hr]⟩
      · have hk2 : hasKeyJS (.jarr xs) disc = false := by
          revert hk; cases hasKeyJS (.jarr xs) disc <;> simp
        exact ⟨_, by simp only [parseS, hk2]; rw [if_neg]; simp⟩
    | undef => exact ⟨_, by simp only [parseS]; rfl⟩
    | jnull => exact ⟨_, by simp only [parseS]; rfl⟩
    | jbool b => exact ⟨_, by simp only [parseS]; rfl⟩
    | jnum q => exact ⟨_, by simp only [parseS]; rfl⟩
    | jstr t => exact ⟨_, by simp only [parseS]; rfl⟩
  | permAware base perms hb ihb =>
    intro v o
    obtain ⟨r, hr⟩ := ihb v o
    by_cases hc : contextFalsy o.context = true
    · exact ⟨r, by simp only [parseS, hc, if_true]; exact hr⟩
    · have hc2 : contextFalsy o.context = false := by
        revert hc; cases contextFalsy o.context <;> simp
      simp only [parseS, hc2]
      rw [if_neg (by simp), hr]
      cases r with
      | verr e => exact ⟨_, rfl⟩
      | ok d => exact ⟨_, rfl⟩

/-- C1 counterexample: a `refine` whose predicate throws.  The base
parse of `number().refine(p)` succeeds on `1`, the predicate's exception
is not caught anywhere, and `safeParse` raises instead of returning an
`Err` result. -/
theorem C1_counterexample :
    safeParseD (.refine (.num {}) (fun _ => .error (.plain "boom")) (.inl "fail"))
      (.jnum 1) = .error (.plain "boom") := by
  simp [safeParseD, parseS, refineCont, parseNum, defaultOptions]

/-- C1 (amended): `safeParse` returns exactly one `Result` variant and
raises no exception for every schema whose user-supplied functions do
not throw — `postprocess` and the async wrapper genuinely catch: a
throwing postprocessor is converted to a `process.postprocess_failed`
issue and a throwing async validator to an `async.failed` issue.  But a
throw inside a `refine` predicate or a `transform` function is caught
nowhere and propagates out of `safeParse`, so the unconditional
no-raise guarantee fails (see `C1_counterexample`). -/
theorem C1_amended :
    (∀ S, NoThrow S → ∀ (v : JValue) (o : CallerOptions), ∃ r, safeParseO S v o = .ok r) ∧
    (∀ (base : SchemaE) (f : JValue → Except JsError JValue) (v : JValue)
      (o : CallerOptions) (x : JValue) (e : JsError),
      parseS base v (mergeOptions o) = .ok (.ok x) → f x = .error e →
      safeParseO (.postproc base f) v o
        = .ok (.verr ⟨[{ path := (mergeOptions o).path
                         message := s!"Postprocessing failed: {e.messageOf}"
                         code := "process.postprocess_failed" }]⟩)) ∧
    (∀ (base : SchemaE) (pred : JValue → Except JsError Bool)
      (msg : String ⊕ (JValue → String)) (v : JValue) (o : CallerOptions)
      (x : JValue) (e : JsError),
      parseS base v (mergeOptions o) = .ok (.ok x) → pred x = .error e →
      safeParseO (.refine base pred msg) v o = .error e) ∧
    (∀ (base : SchemaE) (f : JValue → Except JsError TransOut) (v : JValue)
      (o : CallerOptions) (x : JValue) (e : JsError),
      parseS base v (mergeOptions o) = .ok (.ok x) → f x = .error e →
      safeParseO (.transform base f) v o = .error e) ∧
    (∀ (base : SchemaE) (validator : JValue → Except JsError (VResult JValue))
      (v : JValue) (o : CallerOptions) (x : JValue) (m : String),
      parseS base v (mergeOptions o) = .ok (.ok x) → validator x = .error (.plain m) →
      safeParseAsyncS base validator v o
        = .verr ⟨[{ path := (mergeOptions o).path
                    message := s!"Async validation failed: {m}"
                    code := "async.failed" }]⟩) := by
  refine ⟨?_, ?_, ?_, ?_, ?_⟩
  · intro S h v o
    obtain ⟨r, hr⟩ := parseS_total S h v (mergeOptions o)
    exact ⟨r, hr⟩
  · intro base f v o x e hbase hf
    show parseS (.postproc base f) v (mergeOptions o) = _
    simp only [parseS]
    rw [hbase]
    simp only [postprocCont, hf]
  · intro base pred msg v o x e hbase hp
    show parseS (.refine base pred msg) v (mergeOptions o) = _
    simp only [parseS]
    rw [hbase]
    simp only [refineCont, hp]
  · intro base f v o x e hbase hf
    show parseS (.transform base f) v (mergeOptions o) = _
    simp only [parseS]
    rw [hbase]
    simp only [transformCont, hf]
  · intro base validator v o x m hbase hv
    simp only [safeParseAsyncS]
    rw [hbase]
    simp only [hv]

/-- Witness instantiating `C1_amended`: `number()` as the non-throwing
base, with concrete throwing postprocess, refine, transform and async
validator functions on input `2`. -/
theorem C1_amended_witness :
    (∃ r, safeParseO (.num {}) (.jnum 2) {} = .ok r) ∧
    safeParseO (.postproc (.num {}) (fun _ => .error (.plain "pp"))) (.jnum 2) {}
      = .ok (.verr ⟨[{ path := [], message := "Postprocessing failed: pp"
                       code := "process.postprocess_failed" }]⟩) ∧
    safeParseO (.refine (.num {}) (fun _ => .error (.plain "boom")) (.inl "fail"))
      (.jnum 2) {} = .error (.plain "boom") ∧
    safeParseO (.transform (.num {}) (fun _ => .error (.plain "tt"))) (.jnum 2) {}
      = .error (.plain "tt") ∧
    safeParseAsyncS (.num {}) (fun _ => .error (.plain "aa")) (.jnum 2) {}
      = .verr ⟨[{ path := [], message := "Async validation failed: aa"
                  code := "async.failed" }]⟩ := by
  have hbase : parseS (.num {}) (.jnum 2) (mergeOptions {}) = .ok (.ok (.jnum 2)) := by
    simp [parseS, parseNum, mergeOptions, defaultOptions]
  refine ⟨C1_amended.1 (.num {}) (NoThrow.num {}) (.jnum 2) {}, ?_, ?_, ?_, ?_⟩
  · have h := C1_amended.2.1 (.num {}) (fun _ => .error (.plain "pp")) (.jnum 2) {}
      (.jnum 2) (.plain "pp") hbase rfl
    simpa [mergeOptions, defaultOptions, JsError.messageOf] using h
  · exact C1_amended.2.2.1 (.num {}) (fun _ => .error (.plain "boom")) (.inl "fail")
      (.jnum 2) {} (.jnum 2) (.plain "boom") hbase rfl
  · exact C1_amended.2.2.2.1 (.num {}) (fun _ => .error (.plain "tt")) (.jnum 2) {}
      (.jnum 2) (.plain "tt") hbase rfl
  · have h := C1_amended.2.2.2.2 (.num {}) (fun _ => .error (.plain "aa")) (.jnum 2) {}
      (.jnum 2) "aa" hbase rfl
    simpa [mergeOptions, defaultOptions] using h

/-! ### C7: idempotent re-validation -/

/-- A type-mismatch error always carries exactly one issue. -/
theorem typeMismatchErr_ne (expected : String) (received : JValue) (path : List String) :
    (typeMismatchErr expected received path).issues ≠ [] := by
  simp [typeMismatchErr]

/-- Outcome analysis of the issue-guarded success return shared by the
scalar parsers. -/
theorem vres_if_ok {issues : List ValidationIssue} {v0 w : JValue}
    (h : (if (!issues.isEmpty) = true then VResult.verr ⟨issues⟩ else VResult.ok v0)
      = .ok w) : w = v0 ∧ issues = [] := by
  cases hie : issues.isEmpty with
  | true =>
    rw [hie] at h
    simp at h
    exact ⟨h.symm, by cases issues with | nil => rfl | cons a t => simp at hie⟩
  | false =>
    rw [hie] at h
    simp at h

/-- Failure analysis of the issue-guarded return shared by the scalar
parsers: the reported issues are the collected nonempty list. -/
theorem vres_if_verr {issues : List ValidationIssue} {v0 : JValue} {e : ValidationError}
    (h : (if (!issues.isEmpty) = true then VResult.verr ⟨issues⟩ else VResult.ok v0)
      = .verr e) : e.issues ≠ [] := by
  cases hie : issues.isEmpty with
  | true =>
    rw [hie] at h
    simp at h
  | false =>
    rw [hie] at h
    simp at h
    rw [← h]
    cases issues with
    | nil => simp at hie
    | cons a t => simp

/-- Without trimming, a successful string parse returns its input. -/
theorem parseStr_fix (so : StringOpts) (hs : so.trim = false) (v : JValue)
    (p : List String) (w : JValue) (h : parseStr so v p = .ok w) : w = v := by
  cases v with
  | jstr s0 =>
    simp only [parseStr, hs, Bool.false_eq_true, if_false] at h
    exact (vres_if_ok h).1
  | undef => simp [parseStr] at h
  | jnull => simp [parseStr] at h
  | jbool b => simp [parseStr] at h
  | jnum q => simp [parseStr] at h
  | jarr xs => simp [parseStr] at h
  | jobj fs => simp [parseStr] at h

/-- A failed string parse reports at least one issue. -/
theorem parseStr_verr_ne (so : StringOpts) (v : JValue) (p : List String)
    (e : ValidationError) (h : parseStr so v p = .verr e) : e.issues ≠ [] := by
  cases v with
  | jstr s0 =>
    simp only [parseStr] at h
    exact vres_if_verr h
  | undef => exact (VResult.verr.inj h) ▸ typeMismatchErr_ne "string" _ p
  | jnull => exact (VResult.verr.inj h) ▸ typeMismatchErr_ne "string" _ p
  | jbool b => exact (VResult.verr.inj h) ▸ typeMismatchErr_ne "string" _ p
  | jnum q => exact (VResult.verr.inj h) ▸ typeMismatchErr_ne "string" _ p
  | jarr xs => exact (VResult.verr.inj h) ▸ typeMismatchErr_ne "string" _ p
  | jobj fs => exact (VResult.verr.inj h) ▸ typeMismatchErr_ne "string" _ p

/-- A successful number parse returns its input. -/
theorem parseNum_fix (no : NumberOpts) (v : JValue) (p : List String)
    (w : JValue) (h : parseNum no v p = .ok w) : w = v := by
  cases v with
  | jnum q =>
    simp only [parseNum] at h
    exact (vres_if_ok h).1
  | undef => simp [parseNum] at h
  | jnull => simp [parseNum] at h
  | jbool b => simp [parseNum] at h
  | jstr s => simp [parseNum] at h
  | jarr xs => simp [parseNum] at h
  | jobj fs => simp [parseNum] at h

/-- A failed number parse reports at least one issue. -/
theorem parseNum_verr_ne (no : NumberOpts) (v : JValue) (p : List String)
    (e : ValidationError) (h : parseNum no v p = .verr e) : e.issues ≠ [] := by
  cases v with
  | jnum q =>
    simp only [parseNum] at h
    exact vres_if_verr h
  | undef => exact (VResult.verr.inj h) ▸ typeMismatchErr_ne "number" _ p
  | jnull => exact (VResult.verr.inj h) ▸ typeMismatchErr_ne "number" _ p
  | jbool b => exact (VResult.verr.inj h) ▸ typeMismatchErr_ne "number" _ p
  | jstr s => exact (VResult.verr.inj h) ▸ typeMismatchErr_ne "number" _ p
  | jarr xs => exact (VResult.verr.inj h) ▸ typeMismatchErr_ne "number" _ p
  | jobj fs => exact (VResult.verr.inj h) ▸ typeMismatchErr_ne "number" _ p

/-- Re-validating any successful boolean parse output returns it
unchanged (the output is always a boolean, which the second match arm
accepts verbatim). -/
theorem parseBool_fix (bo : BoolOpts) (v : JValue) (p : List String)
    (w : JValue) (h : parseBool bo v p = .ok w) : parseBool bo w p = .ok w := by
  cases v with
  | undef =>
    cases hd : bo.dflt with
    | some b =>
      simp only [parseBool, hd] at h
      cases h
      simp [parseBool]
    | none =>
      simp only [parseBool, hd] at h
      simp at h
  | jbool b =>
    have hw : w = .jbool b := by
      simp only [parseBool] at h
      simp at h
      exact h.symm
    subst hw
    simp [parseBool]
  | jnull => simp [parseBool] at h
  | jnum q => simp [parseBool] at h
  | jstr s => simp [parseBool] at h
  | jarr xs => simp [parseBool] at h
  | jobj fs => simp [parseBool] at h

/-- A failed boolean parse reports at least one issue. -/
theorem parseBool_verr_ne (bo : BoolOpts) (v : JValue) (p : List String)
    (e : ValidationError) (h : parseBool bo v p = .verr e) : e.issues ≠ [] := by
  cases v with
  | undef =>
    cases hd : bo.dflt with
    | some b => simp [parseBool, hd] at h
    | none =>
      simp only [parseBool, hd] at h
      simp only [VResult.verr.inj h.symm]
      exact typeMismatchErr_ne "boolean" _ p
  | jbool b => simp [parseBool] at h
  | jnull =>
    have hh : typeMismatchErr "boolean" .jnull p = e := by
      cases hd : bo.dflt <;> simp [parseBool, hd] at h <;> exact h
    exact hh ▸ typeMismatchErr_ne "boolean" _ p
  | jnum q =>
    have hh : typeMismatchErr "boolean" (.jnum q) p = e := by
      cases hd : bo.dflt <;> simp [parseBool, hd] at h <;> exact h
    exact hh ▸ typeMismatchErr_ne "boolean" _ p
  | jstr s =>
    have hh : typeMismatchErr "boolean" (.jstr s) p = e := by
      cases hd : bo.dflt <;> simp [parseBool, hd] at h <;> exact h
    exact hh ▸ typeMismatchErr_ne "boolean" _ p
  | jarr xs =>
    have hh : typeMismatchErr "boolean" (.jarr xs) p = e := by
      cases hd : bo.dflt <;> simp [parseBool, hd] at h <;> exact h
    exact hh ▸ typeMismatchErr_ne "boolean" _ p
  | jobj fs =>
    have hh : typeMismatchErr "boolean" (.jobj fs) p = e := by
      cases hd : bo.dflt <;> simp [parseBool, hd] at h <;> exact h
    exact hh ▸ typeMismatchErr_ne "boolean" _ p

/-- A successful enum parse returns its input. -/
theorem parseEnum_fix (values : List JValue) (v : JValue) (p : List String)
    (w : JValue) (h : parseEnum values v p = .ok w) : w = v := by
  rw [parseEnum] at h
  split at h
  · simp at h
  · exact (VResult.ok.inj h).symm

/-- A failed enum parse reports at least one issue. -/
theorem parseEnum_verr_ne (values : List JValue) (v : JValue) (p : List String)
    (e : ValidationError) (h : parseEnum values v p = .verr e) : e.issues ≠ [] := by
  rw [parseEnum] at h
  split at h
  · rw [← VResult.verr.inj h]
    simp
  · simp at h

/-- Array-level issues depend only on the length when uniqueness
checking is off. -/
theorem arrLevelIssues_len (ao : ArrayOpts) (hu : ao.uniqueItems = false)
    (xs ys : List JValue) (p : List String) (hl : xs.length = ys.length) :
    arrLevelIssues ao xs p = arrLevelIssues ao ys p := by
  simp [arrLevelIssues, hu, hl]

/-- Fixing the `defaults` flag to its current `true` value changes
nothing in an options record. -/
theorem opts_defaults_self (o : ValidationOptions) (p : List String)
    (h : o.defaults = true) :
    ({ o with path := p, defaults := true } : ValidationOptions)
      = { o with path := p } := by
  cases o
  simp_all

/-- Lookup after `objSet` at the written key. -/
theorem lookup_objSet_self (l : List (String × JValue)) (k : String) (v : JValue) :
    (objSet l k v).lookup k = some v := by
  induction l with
  | nil => simp [objSet, List.lookup]
  | cons kv rest ih =>
    obtain ⟨k1, v1⟩ := kv
    by_cases he : k1 = k
    · subst he
      simp [objSet, List.lookup]
    · have hb : (k1 == k) = false := by simp [he]
      have hb2 : (k == k1) = false := by simp [Ne.symm he]
      rw [objSet, if_neg (by simp [hb])]
      simp [List.lookup, hb2, ih]

/-- Lookup after `objSet` at any other key. -/
theorem lookup_objSet_other (l : List (String × JValue)) (k k2 : String) (v : JValue)
    (h : k2 ≠ k) : (objSet l k v).lookup k2 = l.lookup k2 := by
  have hb0 : (k2 == k) = false := by simp [h]
  induction l with
  | nil => simp [objSet, List.lookup, hb0]
  | cons kv rest ih =>
    obtain ⟨k1, v1⟩ := kv
    by_cases he : k1 = k
    · subst he
      rw [objSet, if_pos (by simp)]
      simp [List.lookup, hb0]
    · rw [objSet, if_neg (by simp [he])]
      by_cases he2 : k2 = k1
      · subst he2
        simp [List.lookup]
      · have hb : (k2 == k1) = false := by simp [he2]
        simp [List.lookup, hb, ih]

/-- `getProp` after `objSet` at the written key. -/
theorem getProp_objSet_self (l : List (String × JValue)) (k : String) (v : JValue) :
    getProp (objSet l k v) k = some v :=
  lookup_objSet_self l k v

/-- `getProp` after `objSet` at any other key. -/
theorem getProp_objSet_other (l : List (String × JValue)) (k k2 : String) (v : JValue)
    (h : k2 ≠ k) : getProp (objSet l k v) k2 = getProp l k2 :=
  lookup_objSet_other l k k2 v h

/-- Membership of the key list coincides with lookup success. -/
theorem lookup_isSome_iff_mem {β : Type} (l : List (String × β)) (k : String) :
    (l.lookup k).isSome = true ↔ k ∈ l.map Prod.fst := by
  induction l with
  | nil => simp [List.lookup]
  | cons kv rest ih =>
    obtain ⟨k1, v1⟩ := kv
    by_cases he : k = k1
    · subst he
      simp [List.lookup]
    · have hb : (k == k1) = false := by simp [he]
      simp [List.lookup, hb, ih, he]

/-- Lookup in an append is resolved by the first list when it knows the
key. -/
theorem lookup_append_of_some {l1 l2 : List (String × JValue)} {k : String}
    (h : (l1.lookup k).isSome = true) : (l1 ++ l2).lookup k = l1.lookup k := by
  induction l1 with
  | nil => simp [List.lookup] at h
  | cons kv rest ih =>
    obtain ⟨k1, v1⟩ := kv
    by_cases he : k = k1
    · subst he
      simp [List.lookup]
    · have hb : (k == k1) = false := by simp [he]
      simp only [List.cons_append, List.lookup, hb] at h ⊢
      exact ih h

/-- The field loop only ever appends to the issue accumulator. -/
theorem fieldsGo_accI_mono :
    ∀ (shape : List (String × SchemaE)) (fs : List (String × JValue))
      (required : List String) (dflts : List (String × JValue))
      (o : ValidationOptions) (accF : List (String × JValue))
      (accI : List ValidationIssue) (rF : List (String × JValue))
      (rI : List ValidationIssue),
    fieldsGo shape fs required dflts o accF accI = .ok (.inr (rF, rI)) →
    ∃ t, rI = accI ++ t := by
  intro shape
  induction shape with
  | nil =>
    intro fs required dflts o accF accI rF rI h
    rw [fieldsGo] at h
    simp at h
    exact ⟨[], by simp [h.2]⟩
  | cons q rest ih =>
    intro fs required dflts o accF accI rF rI h
    obtain ⟨k, s⟩ := q
    rw [fieldsGo] at h
    cases hst : fieldStep s k fs required dflts o with
    | error e => rw [hst] at h; simp at h
    | ok pr =>
      obtain ⟨add, iss⟩ := pr
      rw [hst] at h
      simp only at h
      by_cases hc : (o.abortEarly && !iss.isEmpty) = true
      · rw [if_pos hc] at h
        simp at h
      · rw [if_neg hc] at h
        obtain ⟨t, ht⟩ := ih fs required dflts o _ (accI ++ iss) rF rI h
        exact ⟨iss ++ t, by simp [ht]⟩

/-- The item loop only ever appends to the issue accumulator. -/
theorem itemsGo_accI_mono (item : SchemaE) :
    ∀ (xs : List JValue) (i : ℕ) (o : ValidationOptions)
      (accI : List ValidationIssue) (accR : List JValue) (rR : List JValue)
      (rI : List ValidationIssue),
    itemsGo item xs i o accI accR = .ok (.inr (rR, rI)) →
    ∃ t, rI = accI ++ t := by
  intro xs
  induction xs with
  | nil =>
    intro i o accI accR rR rI h
    rw [itemsGo] at h
    simp at h
    exact ⟨[], by simp [h.2]⟩
  | cons x rest ih =>
    intro i o accI accR rR rI h
    rw [itemsGo] at h
    cases hp : parseS item x { o with path := o.path ++ [toString i] } with
    | error e => rw [hp] at h; simp at h
    | ok r =>
      rw [hp] at h
      cases r with
      | ok w =>
        simp only at h
        exact ih (i + 1) o accI (accR ++ [w]) rR rI h
      | verr e =>
        simp only at h
        by_cases hab : o.abortEarly = true
        · rw [if_pos hab] at h
          simp at h
        · rw [if_neg hab] at h
          obtain ⟨t, ht⟩ := ih (i + 1) o (accI ++ e.issues) accR rR rI h
          exact ⟨e.issues ++ t, by simp [ht]⟩

/-- An `abortEarly` return of the field loop carries at least one
issue. -/
theorem fieldsGo_inl_ne :
    ∀ (shape : List (String × SchemaE)) (fs : List (String × JValue))
      (required : List String) (dflts : List (String × JValue))
      (o : ValidationOptions) (accF : List (String × JValue))
      (accI : List ValidationIssue) (ve : ValidationError),
    fieldsGo shape fs required dflts o accF accI = .ok (.inl ve) →
    ve.issues ≠ [] := by
  intro shape
  induction shape with
  | nil =>
    intro fs required dflts o accF accI ve h
    rw [fieldsGo] at h
    simp at h
  | cons q rest ih =>
    intro fs required dflts o accF accI ve h
    obtain ⟨k, s⟩ := q
    rw [fieldsGo] at h
    cases hst : fieldStep s k fs required dflts o with
    | error e => rw [hst] at h; simp at h
    | ok pr =>
      obtain ⟨add, iss⟩ := pr
      rw [hst] at h
      simp only at h
      by_cases hc : (o.abortEarly && !iss.isEmpty) = true
      · rw [if_pos hc] at h
        simp at h
        have hne : iss ≠ [] := by
          have := (Bool.and_eq_true _ _).mp hc
          cases iss with
          | nil => simp at this
          | cons a t => simp
        rw [← h]
        simp [hne]
      · rw [if_neg hc] at h
        exact ih fs required dflts o _ (accI ++ iss) ve h

/-- An `abortEarly` return of the item loop carries at least one issue,
provided the item schema never reports an empty failure. -/
theorem itemsGo_inl_ne (item : SchemaE)
    (hB : ∀ v o e, parseS item v o = .ok (.verr e) → e.issues ≠ []) :
    ∀ (xs : List JValue) (i : ℕ) (o : ValidationOptions)
      (accI : List ValidationIssue) (accR : List JValue) (ve : ValidationError),
    itemsGo item xs i o accI accR = .ok (.inl ve) →
    ve.issues ≠ [] := by
  intro xs
  induction xs with
  | nil =>
    intro i o accI accR ve h
    rw [itemsGo] at h
    simp at h
  | cons x rest ih =>
    intro i o accI accR ve h
    rw [itemsGo] at h
    cases hp : parseS item x { o with path := o.path ++ [toString i] } with
    | error e => rw [hp] at h; simp at h
    | ok r =>
      rw [hp] at h
      cases r with
      | ok w =>
        simp only at h
        exact ih (i + 1) o accI (accR ++ [w]) ve h
      | verr e =>
        simp only at h
        by_cases hab : o.abortEarly = true
        · rw [if_pos hab] at h
          simp at h
          have hne := hB x { o with path := o.path ++ [toString i] } e hp
          rw [← h]
          simp [hne]
        · rw [if_neg hab] at h
          exact ih (i + 1) o (accI ++ e.issues) accR ve h

/-- A binding the per-field body adds always carries the field key. -/
theorem fieldStep_add_key (s : SchemaE) (k : String) (fs : List (String × JValue))
    (required : List String) (dflts : List (String × JValue)) (o : ValidationOptions)
    (kv : String × JValue) (iss : List ValidationIssue)
    (h : fieldStep s k fs required dflts o = .ok (some kv, iss)) : kv.1 = k := by
  rw [fieldStep] at h
  cases hget : getProp fs k with
  | some pv =>
    rw [hget] at h
    simp only at h
    cases hp : parseS s pv { o with path := o.path ++ [k] } with
    | error e => rw [hp] at h; simp at h
    | ok r =>
      rw [hp] at h
      cases r with
      | ok w =>
        simp at h
        exact (congrArg Prod.fst h.1).symm
      | verr e => simp at h
  | none =>
    rw [hget] at h
    simp only at h
    by_cases hreq : k ∈ required
    · rw [if_pos hreq] at h
      cases hdl : (if o.defaults = true then dflts.lookup k else none) with
      | some dv =>
        rw [hdl] at h
        simp at h
        exact (congrArg Prod.fst h.1).symm
      | none =>
        rw [hdl] at h
        simp only at h
        cases hpr : (if o.defaults = true then
            match parseS s .undef { o with path := o.path ++ [k], defaults := true } with
            | .ok (.ok d) => match d with | .undef => none | _ => some d
            | _ => none
          else none) with
        | some d =>
          rw [hpr] at h
          simp at h
          exact (congrArg Prod.fst h.1).symm
        | none => rw [hpr] at h; simp at h
    · rw [if_neg hreq] at h
      by_cases hdef : o.defaults = true
      · rw [if_pos hdef] at h
        cases hdl : dflts.lookup k with
        | some dv =>
          rw [hdl] at h
          simp at h
          exact (congrArg Prod.fst h.1).symm
        | none =>
          rw [hdl] at h
          simp only at h
          cases hp : parseS s .undef { o with path := o.path ++ [k], defaults := true } with
          | error e => rw [hp] at h; simp at h
          | ok r =>
            rw [hp] at h
            cases r with
            | verr e => simp at h
            | ok d =>
              cases d with
              | undef => simp at h
              | jnull =>
                simp at h
                exact (congrArg Prod.fst h.1).symm
              | jbool b =>
                simp at h
                exact (congrArg Prod.fst h.1).symm
              | jnum q =>
                simp at h
                exact (congrArg Prod.fst h.1).symm
              | jstr t =>
                simp at h
                exact (congrArg Prod.fst h.1).symm
              | jarr xs =>
                simp at h
                exact (congrArg Prod.fst h.1).symm
              | jobj gs =>
                simp at h
                exact (congrArg Prod.fst h.1).symm
      · rw [if_neg hdef] at h
        simp at h

/-- Re-running the per-field body on the validated output reproduces the
added binding and contributes no issues, for a field schema with the
fixed-point and nonempty-failure properties and no explicit default. -/
theorem fieldStep_idem (s : SchemaE)
    (hA : ∀ v o w, parseS s v o = .ok (.ok w) → parseS s w o = .ok (.ok w))
    (hB : ∀ v o e, parseS s v o = .ok (.verr e) → e.issues ≠ [])
    (k : String) (fs resF : List (String × JValue)) (required : List String)
    (o : ValidationOptions) (add : Option (String × JValue))
    (hstep : fieldStep s k fs required [] o = .ok (add, []))
    (hres : getProp resF k = Option.map Prod.snd add) :
    fieldStep s k resF required [] o = .ok (add, []) := by
  have hpresent : ∀ (val : JValue), getProp resF k = some val →
      parseS s val { o with path := o.path ++ [k] } = .ok (.ok val) →
      fieldStep s k resF required [] o = .ok (some (k, val), []) := by
    intro val hr2 hpar
    rw [fieldStep]
    simp only [hr2]
    rw [hpar]
  have hdl0 : (if o.defaults = true then ([] : List (String × JValue)).lookup k
      else none) = none := by
    cases o.defaults <;> simp [List.lookup]
  cases hget : getProp fs k with
  | some pv =>
    rw [fieldStep] at hstep
    rw [hget] at hstep
    simp only at hstep
    cases hp : parseS s pv { o with path := o.path ++ [k] } with
    | error e => rw [hp] at hstep; simp at hstep
    | ok r =>
      rw [hp] at hstep
      cases r with
      | ok w =>
        simp only [Except.ok.injEq, Prod.mk.injEq] at hstep
        have hadd : add = some (k, w) := hstep.1.symm
        subst hadd
        have hr2 : getProp resF k = some w := by simpa using hres
        exact hpresent w hr2 (hA pv _ w hp)
      | verr e =>
        simp only [Except.ok.injEq, Prod.mk.injEq] at hstep
        exact absurd hstep.2 (hB pv _ e hp)
  | none =>
    rw [fieldStep] at hstep
    rw [hget] at hstep
    simp only at hstep
    by_cases hreq : k ∈ required
    · rw [if_pos hreq] at hstep
      rw [hdl0] at hstep
      simp only at hstep
      by_cases hdef : o.defaults = true
      · simp only [hdef, if_pos] at hstep
        cases hp : parseS s .undef { o with path := o.path ++ [k], defaults := true } with
        | error e => rw [hp] at hstep; simp at hstep
        | ok r =>
          rw [hp] at hstep
          cases r with
          | verr e => simp at hstep
          | ok d =>
            have hfin : ∀ (hni : d ≠ .undef), fieldStep s k resF required [] o
                = .ok (add, []) := by
              intro hni
              have hadd : add = some (k, d) := by
                cases d <;> simp at hstep <;>
                  first
                    | exact absurd rfl hni
                    | exact hstep.symm
              subst hadd
              have hr2 : getProp resF k = some d := by simpa using hres
              have hpar := hA .undef { o with path := o.path ++ [k], defaults := true } d hp
              rw [opts_defaults_self o (o.path ++ [k]) hdef] at hpar
              exact hpresent d hr2 hpar
            cases d with
            | undef => simp at hstep
            | jnull => exact hfin (by simp)
            | jbool b => exact hfin (by simp)
            | jnum q => exact hfin (by simp)
            | jstr t => exact hfin (by simp)
            | jarr xs => exact hfin (by simp)
            | jobj gs => exact hfin (by simp)
      · have hdef2 : o.defaults = false := by revert hdef; cases o.defaults <;> simp
        rw [hdef2] at hstep
        simp at hstep
    · rw [if_neg hreq] at hstep
      by_cases hdef : o.defaults = true
      · simp only [hdef, if_pos] at hstep
        rw [show (([] : List (String × JValue)).lookup k) = none from by
          simp [List.lookup]] at hstep
        simp only at hstep
        cases hp : parseS s .undef { o with path := o.path ++ [k], defaults := true } with
        | error e =>
          rw [hp] at hstep
          simp only [Except.ok.injEq, Prod.mk.injEq] at hstep
          have hadd : add = none := hstep.1.symm
          subst hadd
          have hr2 : getProp resF k = none := by simpa using hres
          rw [fieldStep]
          simp only [hr2]
          rw [if_neg hreq]
          simp only [hdef, if_pos]
          rw [show (([] : List (String × JValue)).lookup k) = none from by
            simp [List.lookup]]
          simp only
          rw [hp]
        | ok r =>
          rw [hp] at hstep
          cases r with
          | verr e =>
            simp only [Except.ok.injEq, Prod.mk.injEq] at hstep
            have hadd : add = none := hstep.1.symm
            subst hadd
            have hr2 : getProp resF k = none := by simpa using hres
            rw [fieldStep]
            simp only [hr2]
            rw [if_neg hreq]
            simp only [hdef, if_pos]
            rw [show (([] : List (String × JValue)).lookup k) = none from by
              simp [List.lookup]]
            simp only
            rw [hp]
          | ok d =>
            have hfin : ∀ (hni : d ≠ .undef), fieldStep s k resF required [] o
                = .ok (add, []) := by
              intro hni
              have hadd : add = some (k, d) := by
                cases d <;> simp at hstep <;>
                  first
                    | exact absurd rfl hni
                    | exact hstep.symm
              subst hadd
              have hr2 : getProp resF k = some d := by simpa using hres
              have hpar := hA .undef { o with path := o.path ++ [k], defaults := true } d hp
              rw [opts_defaults_self o (o.path ++ [k]) hdef] at hpar
              exact hpresent d hr2 hpar
            cases d with
            | undef =>
              simp only [Except.ok.injEq, Prod.mk.injEq] at hstep
              have hadd : add = none := hstep.1.symm
              subst hadd
              have hr2 : getProp resF k = none := by simpa using hres
              rw [fieldStep]
              simp only [hr2]
              rw [if_neg hreq]
              simp only [hdef, if_pos]
              rw [show (([] : List (String × JValue)).lookup k) = none from by
                simp [List.lookup]]
              simp only
              rw [hp]
            | jnull => exact hfin (by simp)
            | jbool b => exact hfin (by simp)
            | jnum q => exact hfin (by simp)
            | jstr t => exact hfin (by simp)
            | jarr xs => exact hfin (by simp)
            | jobj gs => exact hfin (by simp)
      · have hdef2 : o.defaults = false := by revert hdef; cases o.defaults <;> simp
        rw [hdef2] at hstep
        simp only [Bool.false_eq_true, if_false, Except.ok.injEq, Prod.mk.injEq] at hstep
        have hadd : add = none := hstep.1.symm
        subst hadd
        have hr2 : getProp resF k = none := by simpa using hres
        rw [fieldStep]
        simp only [hr2]
        rw [if_neg hreq, hdef2]
        simp

/-- The field loop leaves the accumulator unchanged at keys outside the
shape. -/
theorem fieldsGo_pres :
    ∀ (shape : List (String × SchemaE)) (fs : List (String × JValue))
      (required : List String) (dflts : List (String × JValue))
      (o : ValidationOptions) (accF0 : List (String × JValue))
      (accI : List ValidationIssue) (accF : List (String × JValue))
      (rI : List ValidationIssue),
    fieldsGo shape fs required dflts o accF0 accI = .ok (.inr (accF, rI)) →
    ∀ k2, k2 ∉ shape.map Prod.fst → getProp accF k2 = getProp accF0 k2 := by
  intro shape
  induction shape with
  | nil =>
    intro fs required dflts o accF0 accI accF rI h k2 hk2
    rw [fieldsGo] at h
    simp at h
    rw [← h.1]
  | cons q rest ih =>
    intro fs required dflts o accF0 accI accF rI h k2 hk2
    obtain ⟨k, s⟩ := q
    rw [fieldsGo] at h
    cases hst : fieldStep s k fs required dflts o with
    | error e => rw [hst] at h; simp at h
    | ok pr =>
      obtain ⟨add, iss⟩ := pr
      rw [hst] at h
      simp only at h
      by_cases hc : (o.abortEarly && !iss.isEmpty) = true
      · rw [if_pos hc] at h
        simp at h
      · rw [if_neg hc] at h
        have hk2r : k2 ∉ rest.map Prod.fst := fun hm => hk2 (by simp [hm])
        have hk2k : k2 ≠ k := fun he => hk2 (by simp [he])
        cases add with
        | some kv =>
          have hk1 : kv.1 = k := fieldStep_add_key s k fs required dflts o kv iss hst
          have := ih fs required dflts o (objSet accF0 kv.1 kv.2) (accI ++ iss) accF rI h
            k2 hk2r
          rw [this, hk1]
          exact getProp_objSet_other accF0 k k2 kv.2 hk2k
        | none => exact ih fs required dflts o accF0 (accI ++ iss) accF rI h k2 hk2r

/-- Keys known to the field loop result were known to the accumulator or
declared in the shape. -/
theorem fieldsGo_keys :
    ∀ (shape : List (String × SchemaE)) (fs : List (String × JValue))
      (required : List String) (dflts : List (String × JValue))
      (o : ValidationOptions) (accF0 : List (String × JValue))
      (accI : List ValidationIssue) (accF : List (String × JValue))
      (rI : List ValidationIssue),
    fieldsGo shape fs required dflts o accF0 accI = .ok (.inr (accF, rI)) →
    ∀ k2, (getProp accF k2).isSome = true →
      (getProp accF0 k2).isSome = true ∨ k2 ∈ shape.map Prod.fst := by
  intro shape
  induction shape with
  | nil =>
    intro fs required dflts o accF0 accI accF rI h k2 hk2
    rw [fieldsGo] at h
    simp at h
    rw [← h.1] at hk2
    exact Or.inl hk2
  | cons q rest ih =>
    intro fs required dflts o accF0 accI accF rI h k2 hk2
    obtain ⟨k, s⟩ := q
    rw [fieldsGo] at h
    cases hst : fieldStep s k fs required dflts o with
    | error e => rw [hst] at h; simp at h
    | ok pr =>
      obtain ⟨add, iss⟩ := pr
      rw [hst] at h
      simp only at h
      by_cases hc : (o.abortEarly && !iss.isEmpty) = true
      · rw [if_pos hc] at h
        simp at h
      · rw [if_neg hc] at h
        cases add with
        | some kv =>
          have hk1 : kv.1 = k := fieldStep_add_key s k fs required dflts o kv iss hst
          rcases ih fs required dflts o (objSet accF0 kv.1 kv.2) (accI ++ iss) accF rI h
              k2 hk2 with h1 | h2
          · by_cases he : k2 = k
            · exact Or.inr (by simp [he])
            · rw [hk1, getProp_objSet_other accF0 k k2 kv.2 he] at h1
              exact Or.inl h1
          · exact Or.inr (by simp [h2])
        | none =>
          rcases ih fs required dflts o accF0 (accI ++ iss) accF rI h k2 hk2 with h1 | h2
          · exact Or.inl h1
          · exact Or.inr (by simp [h2])

/-- On a fully successful run, every declared field present in the input
ends up bound in the result accumulator. -/
theorem fieldsGo_present_kept :
    ∀ (shape : List (String × SchemaE)),
    (∀ q ∈ shape, ∀ v o e, parseS q.2 v o = .ok (.verr e) → e.issues ≠ []) →
    (shape.map Prod.fst).Nodup →
    ∀ (fs : List (String × JValue)) (required : List String)
      (o : ValidationOptions) (accF0 : List (String × JValue))
      (accF : List (String × JValue)),
    fieldsGo shape fs required [] o accF0 [] = .ok (.inr (accF, [])) →
    ∀ k2, k2 ∈ shape.map Prod.fst → (getProp fs k2).isSome = true →
      (getProp accF k2).isSome = true := by
  intro shape
  induction shape with
  | nil =>
    intro _ _ fs required o accF0 accF h k2 hk2
    simp at hk2
  | cons q rest ih =>
    intro hB hnodup fs required o accF0 accF h k2 hk2 hfs
    obtain ⟨k, s⟩ := q
    simp only [List.map_cons, List.nodup_cons] at hnodup
    rw [fieldsGo] at h
    cases hst : fieldStep s k fs required [] o with
    | error e => rw [hst] at h; simp at h
    | ok pr =>
      obtain ⟨add, iss⟩ := pr
      rw [hst] at h
      simp only at h
      by_cases hc : (o.abortEarly && !iss.isEmpty) = true
      · rw [if_pos hc] at h
        simp at h
      · rw [if_neg hc] at h
        have hiss : iss = [] := by
          obtain ⟨t, ht⟩ := fieldsGo_accI_mono rest fs required [] o _ ([] ++ iss) accF [] h
          cases iss with
          | nil => rfl
          | cons a b => simp at ht
        subst hiss
        rw [List.nil_append] at h
        rw [List.map_cons] at hk2
        rcases List.mem_cons.mp hk2 with he | hm
        · subst he
          cases hget : getProp fs k2 with
          | none => rw [hget] at hfs; simp at hfs
          | some pv =>
            rw [fieldStep] at hst
            rw [hget] at hst
            simp only at hst
            cases hp : parseS s pv { o with path := o.path ++ [k2] } with
            | error e => rw [hp] at hst; simp at hst
            | ok r =>
              rw [hp] at hst
              cases r with
              | verr e =>
                simp only [Except.ok.injEq, Prod.mk.injEq] at hst
                exact absurd hst.2 (hB (k2, s) (by simp) pv _ e hp)
              | ok w =>
                simp only [Except.ok.injEq, Prod.mk.injEq] at hst
                have hadd : add = some (k2, w) := hst.1.symm
                subst hadd
                simp only at h
                have hpres := fieldsGo_pres rest fs required [] o
                  (objSet accF0 k2 w) [] accF [] h k2 hnodup.1
                rw [hpres, getProp_objSet_self]
                rfl
        · cases add with
          | some kv =>
            simp only at h
            exact ih (fun q hq => hB q (by simp [hq])) hnodup.2 fs required o _ accF h
              k2 hm hfs
          | none =>
            simp only at h
            exact ih (fun q hq => hB q (by simp [hq])) hnodup.2 fs required o _ accF h
              k2 hm hfs

/-- Re-running the declared-field loop on the validated output
reproduces the accumulator with no issues. -/
theorem fieldsGo_idem :
    ∀ (shape : List (String × SchemaE)),
    (∀ q ∈ shape,
      (∀ v o w, parseS q.2 v o = .ok (.ok w) → parseS q.2 w o = .ok (.ok w)) ∧
      (∀ v o e, parseS q.2 v o = .ok (.verr e) → e.issues ≠ [])) →
    (shape.map Prod.fst).Nodup →
    ∀ (fs resF accF0 : List (String × JValue)) (required : List String)
      (o : ValidationOptions) (accF : List (String × JValue)),
    (∀ k2, k2 ∈ shape.map Prod.fst → getProp accF0 k2 = none) →
    fieldsGo shape fs required [] o accF0 [] = .ok (.inr (accF, [])) →
    (∀ k2, k2 ∈ shape.map Prod.fst → getProp resF k2 = getProp accF k2) →
    fieldsGo shape resF required [] o accF0 [] = .ok (.inr (accF, [])) := by
  intro shape
  induction shape with
  | nil =>
    intro _ _ fs resF accF0 required o accF _ h _
    rw [fieldsGo] at h ⊢
    exact h
  | cons q rest ih =>
    intro hch hnodup fs resF accF0 required o accF hdis h hres
    obtain ⟨k, s⟩ := q
    simp only [List.map_cons, List.nodup_cons] at hnodup
    rw [fieldsGo] at h
    cases hst : fieldStep s k fs required [] o with
    | error e => rw [hst] at h; simp at h
    | ok pr =>
      obtain ⟨add, iss⟩ := pr
      rw [hst] at h
      simp only at h
      by_cases hc : (o.abortEarly && !iss.isEmpty) = true
      · rw [if_pos hc] at h
        simp at h
      · rw [if_neg hc] at h
        have hiss : iss = [] := by
          obtain ⟨t, ht⟩ := fieldsGo_accI_mono rest fs required [] o _ ([] ++ iss) accF [] h
          cases iss with
          | nil => rfl
          | cons a b => simp at ht
        subst hiss
        rw [List.nil_append] at h
        have hch1 := hch (k, s) (by simp)
        cases add with
        | some kv =>
          have hk1 : kv.1 = k := fieldStep_add_key s k fs required [] o kv [] hst
          obtain ⟨k1, val⟩ := kv
          simp only at hk1
          subst hk1
          simp only at h
          have haccFk : getProp accF k1 = some val := by
            rw [fieldsGo_pres rest fs required [] o (objSet accF0 k1 val) [] accF [] h
              k1 hnodup.1]
            exact getProp_objSet_self accF0 k1 val
          have hresk : getProp resF k1 = some val := by
            rw [hres k1 (by simp)]
            exact haccFk
          have hidem := fieldStep_idem s hch1.1 hch1.2 k1 fs resF required o
            (some (k1, val)) hst (by rw [hresk]; rfl)
          rw [fieldsGo, hidem]
          simp only
          rw [if_neg (by simp)]
          rw [List.nil_append]
          refine ih (fun q hq => hch q (by simp [hq])) hnodup.2 fs resF _ required o accF
            ?_ h ?_
          · intro k2 hk2
            have hne : k2 ≠ k1 := fun he => hnodup.1 (he ▸ hk2)
            rw [getProp_objSet_other accF0 k1 k2 val hne]
            exact hdis k2 (by simp [hk2])
          · intro k2 hk2
            exact hres k2 (by simp [hk2])
        | none =>
          simp only at h
          have haccFk : getProp accF k = getProp accF0 k := by
            exact fieldsGo_pres rest fs required [] o accF0 [] accF [] h k hnodup.1
          have hresk : getProp resF k = none := by
            rw [hres k (by simp), haccFk]
            exact hdis k (by simp)
          have hidem := fieldStep_idem s hch1.1 hch1.2 k fs resF required o none hst
            (by rw [hresk]; rfl)
          rw [fieldsGo, hidem]
          simp only
          rw [if_neg (by simp)]
          rw [List.nil_append]
          exact ih (fun q hq => hch q (by simp [hq])) hnodup.2 fs resF accF0 required o accF
            (fun k2 hk2 => hdis k2 (by simp [hk2])) h
            (fun k2 hk2 => hres k2 (by simp [hk2]))

/-- Lookup misses a singleton of a different key. -/
theorem lookup_singleton_ne (p : String × JValue) (k : String) (h : k ≠ p.1) :
    ([p] : List (String × JValue)).lookup k = none := by
  obtain ⟨k1, v1⟩ := p
  simp only at h
  have hb : (k == k1) = false := by simp [h]
  simp [List.lookup, hb]

/-- `objSet` distributes over an append whose first part misses the
key. -/
theorem objSet_append (l1 l2 : List (String × JValue)) (k : String) (v : JValue)
    (h : l1.lookup k = none) : objSet (l1 ++ l2) k v = l1 ++ objSet l2 k v := by
  induction l1 with
  | nil => simp
  | cons kv rest ih =>
    obtain ⟨k1, v1⟩ := kv
    by_cases he : k = k1
    · subst he
      simp [List.lookup] at h
    · have hb : (k1 == k) = false := by simp [Ne.symm he]
      have hb2 : (k == k1) = false := by simp [he]
      simp only [List.lookup, hb2] at h
      rw [List.cons_append, objSet, if_neg (by simp [hb]), ih h]
      simp

/-- Entries after `objSet` come from the original list or carry the
written key. -/
theorem objSet_mem (l : List (String × JValue)) (k : String) (v : JValue)
    (p : String × JValue) (h : p ∈ objSet l k v) : p ∈ l ∨ p.1 = k := by
  induction l with
  | nil =>
    rw [objSet] at h
    simp at h
    simp [h]
  | cons kv rest ih =>
    obtain ⟨k1, v1⟩ := kv
    by_cases he : k1 = k
    · subst he
      rw [objSet, if_pos (by simp)] at h
      rcases List.mem_cons.mp h with rfl | hm
      · simp
      · exact Or.inl (by simp [hm])
    · rw [objSet, if_neg (by simp [he])] at h
      rcases List.mem_cons.mp h with rfl | hm
      · simp
      · rcases ih hm with h1 | h2
        · exact Or.inl (by simp [h1])
        · exact Or.inr h2

/-- Overwriting an existing key leaves the key list unchanged. -/
theorem objSet_keys_of_some (l : List (String × JValue)) (k : String) (v : JValue)
    (h : (l.lookup k).isSome = true) :
    (objSet l k v).map Prod.fst = l.map Prod.fst := by
  induction l with
  | nil => simp [List.lookup] at h
  | cons kv rest ih =>
    obtain ⟨k1, v1⟩ := kv
    by_cases he : k1 = k
    · subst he
      rw [objSet, if_pos (by simp)]
      simp
    · have hb2 : (k == k1) = false := by simp [Ne.symm he]
      simp only [List.lookup, hb2] at h
      rw [objSet, if_neg (by simp [he])]
      simp [ih h]

/-- `objSet` preserves distinctness of the keys. -/
theorem objSet_keys_nodup (l : List (String × JValue)) (k : String) (v : JValue)
    (h : (l.map Prod.fst).Nodup) : ((objSet l k v).map Prod.fst).Nodup := by
  cases hl : l.lookup k with
  | some v0 =>
    rw [objSet_keys_of_some l k v (by simp [hl])]
    exact h
  | none =>
    rw [objSet_of_lookup_none v hl]
    have hk : k ∉ l.map Prod.fst := fun hm => by
      have := (lookup_isSome_iff_mem l k).mpr hm
      simp [hl] at this
    simp [List.nodup_append, h, hk]

/-- A fold step that always skips is the identity. -/
theorem foldF_skip (shape : List (String × SchemaE)) :
    ∀ (l : List (String × JValue)) (acc : List (String × JValue)),
    (∀ p ∈ l, (shape.lookup p.1).isSome = true) →
    l.foldl (fun acc kv => if (shape.lookup kv.1).isSome then acc
      else objSet acc kv.1 kv.2) acc = acc := by
  intro l
  induction l with
  | nil => intro acc _; rfl
  | cons p rest ih =>
    intro acc hl
    simp only [List.foldl_cons, if_pos (hl p (by simp))]
    exact ih acc (fun q hq => hl q (by simp [hq]))

/-- Folding fresh entries with pairwise distinct keys appends them. -/
theorem foldF_app (shape : List (String × SchemaE)) (accF : List (String × JValue)) :
    ∀ (E P : List (String × JValue)),
    (∀ p ∈ E, (shape.lookup p.1).isSome = false) →
    (E.map Prod.fst).Nodup →
    (∀ q ∈ E, (accF ++ P).lookup q.1 = none) →
    E.foldl (fun acc kv => if (shape.lookup kv.1).isSome then acc
      else objSet acc kv.1 kv.2) (accF ++ P) = accF ++ P ++ E := by
  intro E
  induction E with
  | nil => intro P _ _ _; simp
  | cons p rest ih =>
    intro P hE hnd hfresh
    simp only [List.map_cons, List.nodup_cons] at hnd
    have hstep : objSet (accF ++ P) p.1 p.2 = accF ++ P ++ [p] := by
      rw [objSet_of_lookup_none p.2 (hfresh p (by simp))]
    simp only [List.foldl_cons, hE p (by simp), Bool.false_eq_true, if_false, hstep]
    have hfresh2 : ∀ q ∈ rest, (accF ++ (P ++ [p])).lookup q.1 = none := by
      intro q hq
      rw [show accF ++ (P ++ [p]) = (accF ++ P) ++ [p] from by simp]
      rw [lookup_append_of_none (hfresh q (by simp [hq]))]
      exact lookup_singleton_ne p q.1 (fun he => hnd.1 (he ▸ List.mem_map_of_mem Prod.fst hq))
    have h2 := ih (P ++ [p]) (fun q hq => hE q (by simp [hq])) hnd.2 hfresh2
    rw [show accF ++ (P ++ [p]) = accF ++ P ++ [p] from by simp] at h2
    rw [h2]
    simp

/-- Structure of the pass-through unknown-key pass: the extra entries
are appended after the accumulator, miss the shape and have distinct
keys. -/
theorem upF_ext (shape : List (String × SchemaE)) (accF : List (String × JValue))
    (haccF : ∀ k, (accF.lookup k).isSome = true → (shape.lookup k).isSome = true) :
    ∀ (fs E0 : List (String × JValue)),
    (∀ p ∈ E0, (shape.lookup p.1).isSome = false) →
    (E0.map Prod.fst).Nodup →
    ∃ E, fs.foldl (fun acc kv => if (shape.lookup kv.1).isSome then acc
        else objSet acc kv.1 kv.2) (accF ++ E0) = accF ++ E ∧
      (∀ p ∈ E, (shape.lookup p.1).isSome = false) ∧ (E.map Prod.fst).Nodup := by
  intro fs
  induction fs with
  | nil =>
    intro E0 hE0 hnd
    exact ⟨E0, by simp, hE0, hnd⟩
  | cons kv rest ih =>
    intro E0 hE0 hnd
    by_cases hsk : (shape.lookup kv.1).isSome = true
    · simp only [List.foldl_cons, if_pos hsk]
      exact ih E0 hE0 hnd
    · have hsk2 : (shape.lookup kv.1).isSome = false := by
        revert hsk; cases (shape.lookup kv.1).isSome <;> simp
      have haccn : accF.lookup kv.1 = none := by
        cases hal : accF.lookup kv.1 with
        | none => rfl
        | some x =>
          have := haccF kv.1 (by simp [hal])
          simp [this] at hsk2
      simp only [List.foldl_cons, hsk2, Bool.false_eq_true, if_false]
      rw [objSet_append accF E0 kv.1 kv.2 haccn]
      have hE0' : ∀ p ∈ objSet E0 kv.1 kv.2, (shape.lookup p.1).isSome = false := by
        intro p hp
        rcases objSet_mem E0 kv.1 kv.2 p hp with h1 | h2
        · exact hE0 p h1
        · rw [h2]; exact hsk2
      exact ih (objSet E0 kv.1 kv.2) hE0' (objSet_keys_nodup E0 kv.1 kv.2 hnd)

/-- The pass-through unknown-key pass is idempotent on its own output. -/
theorem upF_idem (shape : List (String × SchemaE)) (accF E : List (String × JValue))
    (haccF : ∀ k, (accF.lookup k).isSome = true → (shape.lookup k).isSome = true)
    (hE : ∀ p ∈ E, (shape.lookup p.1).isSome = false)
    (hEnd : (E.map Prod.fst).Nodup) :
    unknownPass shape (accF ++ E) accF false = accF ++ E := by
  have hskip : ∀ p ∈ accF, (shape.lookup p.1).isSome = true := by
    intro p hp
    exact haccF p.1 ((lookup_isSome_iff_mem accF p.1).mpr (List.mem_map_of_mem Prod.fst hp))
  have hfresh : ∀ q ∈ E, (accF ++ ([] : List (String × JValue))).lookup q.1 = none := by
    intro q hq
    rw [List.append_nil]
    cases hal : accF.lookup q.1 with
    | none => rfl
    | some x =>
      have := haccF q.1 (by simp [hal])
      rw [hE q hq] at this
      simp at this
  rw [unknownPass]
  simp only [Bool.not_false, if_true, List.foldl_append]
  rw [foldF_skip shape accF accF hskip]
  have := foldF_app shape accF E [] hE hEnd hfresh
  rw [List.append_nil] at this
  rw [this]

/-- A strip-mode fold whose condition never fires is the identity. -/
theorem foldT_skip (shape : List (String × SchemaE)) :
    ∀ (l : List (String × JValue)) (acc : List (String × JValue)),
    (∀ p ∈ l, ((shape.lookup p.1).isSome && (acc.lookup p.1).isNone) = false) →
    l.foldl (fun acc kv => if (shape.lookup kv.1).isSome && (acc.lookup kv.1).isNone
      then objSet acc kv.1 kv.2 else acc) acc = acc := by
  intro l
  induction l with
  | nil => intro acc _; rfl
  | cons p rest ih =>
    intro acc hl
    simp only [List.foldl_cons, hl p (by simp), Bool.false_eq_true, if_false]
    exact ih acc (fun q hq => hl q (by simp [hq]))

/-- In strip mode the unknown-key pass is the identity whenever every
declared key present in the input is already bound. -/
theorem upT_id (shape : List (String × SchemaE)) (fs accF : List (String × JValue))
    (h : ∀ kv ∈ fs, (shape.lookup kv.1).isSome = true → (accF.lookup kv.1).isSome = true) :
    unknownPass shape fs accF true = accF := by
  rw [unknownPass]
  simp only [Bool.not_true, Bool.false_eq_true, if_false]
  refine foldT_skip shape fs accF ?_
  intro p hp
  by_cases hs : (shape.lookup p.1).isSome = true
  · have := h p hp hs
    simp [hs, this, Option.isNone]
    cases hal : accF.lookup p.1 with
    | none => simp [hal] at this
    | some x => simp
  · have hs2 : (shape.lookup p.1).isSome = false := by
      revert hs; cases (shape.lookup p.1).isSome <;> simp
    simp [hs2]

/-- Re-running the item loop on the validated outputs reproduces them,
for an item schema with the fixed-point and nonempty-failure
properties. -/
theorem itemsGo_idem (item : SchemaE)
    (hA : ∀ v o w, parseS item v o = .ok (.ok w) → parseS item w o = .ok (.ok w))
    (hB : ∀ v o e, parseS item v o = .ok (.verr e) → e.issues ≠ []) :
    ∀ (xs : List JValue) (i : ℕ) (o : ValidationOptions) (accR res : List JValue),
    itemsGo item xs i o [] accR = .ok (.inr (res, [])) →
    ∃ ws, res = accR ++ ws ∧ ws.length = xs.length ∧
      ∀ accR2, itemsGo item ws i o [] accR2 = .ok (.inr (accR2 ++ ws, [])) := by
  intro xs
  induction xs with
  | nil =>
    intro i o accR res h
    rw [itemsGo] at h
    simp at h
    refine ⟨[], by simp [← h], rfl, ?_⟩
    intro accR2
    rw [itemsGo]
    simp
  | cons x rest ih =>
    intro i o accR res h
    rw [itemsGo] at h
    cases hp : parseS item x { o with path := o.path ++ [toString i] } with
    | error e => rw [hp] at h; simp at h
    | ok r =>
      rw [hp] at h
      cases r with
      | verr e =>
        simp only at h
        by_cases hab : o.abortEarly = true
        · rw [if_pos hab] at h
          simp at h
        · rw [if_neg hab] at h
          obtain ⟨t, ht⟩ := itemsGo_accI_mono item rest (i + 1) o ([] ++ e.issues) accR
            res [] h
          have hemp : e.issues = [] := by
            cases hei : e.issues with
            | nil => rfl
            | cons a b => rw [hei] at ht; simp at ht
          exact absurd hemp (hB x _ e hp)
      | ok w =>
        simp only at h
        obtain ⟨ws2, hres, hlen, hrerun⟩ := ih (i + 1) o (accR ++ [w]) res h
        refine ⟨w :: ws2, by simp [hres], by simp [hlen], ?_⟩
        intro accR2
        rw [itemsGo]
        rw [hA x { o with path := o.path ++ [toString i] } w hp]
        simp only [hrerun (accR2 ++ [w])]
        simp

/-- Collective re-run property of `ObjectSchema._parse` on a successful
parse: the field loop re-produces the same accumulator on the final
output object, and the unknown-key pass is idempotent on it. -/
theorem objBody_idem (shape : List (String × SchemaE))
    (hch : ∀ q ∈ shape,
      (∀ v o w, parseS q.2 v o = .ok (.ok w) → parseS q.2 w o = .ok (.ok w)) ∧
      (∀ v o e, parseS q.2 v o = .ok (.verr e) → e.issues ≠ []))
    (hnodup : (shape.map Prod.fst).Nodup)
    (fs : List (String × JValue)) (required : List String) (o : ValidationOptions)
    (accF : List (String × JValue))
    (h : fieldsGo shape fs required [] o [] [] = .ok (.inr (accF, []))) :
    fieldsGo shape (unknownPass shape fs accF o.stripUnknown) required [] o [] []
      = .ok (.inr (accF, [])) ∧
    unknownPass shape (unknownPass shape fs accF o.stripUnknown) accF o.stripUnknown
      = unknownPass shape fs accF o.stripUnknown := by
  have haccF : ∀ k, (accF.lookup k).isSome = true → (shape.lookup k).isSome = true := by
    intro k hk
    rcases fieldsGo_keys shape fs required [] o [] [] accF [] h k hk with h1 | h2
    · simp [getProp, List.lookup] at h1
    · exact (lookup_isSome_iff_mem shape k).mpr h2
  cases hst : o.stripUnknown with
  | false =>
    obtain ⟨E, hE1, hE2, hE3⟩ := upF_ext shape accF haccF fs [] (by simp) (by simp)
    rw [List.append_nil] at hE1
    have hup : unknownPass shape fs accF false = accF ++ E := by
      rw [unknownPass]
      simp only [Bool.not_false, if_true]
      exact hE1
    have hres : ∀ k2, k2 ∈ shape.map Prod.fst →
        getProp (accF ++ E) k2 = getProp accF k2 := by
      intro k2 hk2
      cases hal : accF.lookup k2 with
      | some x =>
        show (accF ++ E).lookup k2 = accF.lookup k2
        rw [lookup_append_of_some (by simp [hal])]
      | none =>
        show (accF ++ E).lookup k2 = accF.lookup k2
        rw [lookup_append_of_none hal, hal]
        cases hel : E.lookup k2 with
        | none => rfl
        | some y =>
          obtain ⟨p, hpE, hpk⟩ := List.mem_map.mp
            ((lookup_isSome_iff_mem E k2).mp (by simp [hel]))
          have hfalse := hE2 p hpE
          rw [hpk] at hfalse
          rw [(lookup_isSome_iff_mem shape k2).mpr hk2] at hfalse
          simp at hfalse
    rw [hup]
    constructor
    · exact fieldsGo_idem shape hch hnodup fs (accF ++ E) [] required o accF
        (fun k2 _ => rfl) h hres
    · exact upF_idem shape accF E haccF hE2 hE3
  | true =>
    have hkept : ∀ kv ∈ fs, (shape.lookup kv.1).isSome = true →
        (accF.lookup kv.1).isSome = true := by
      intro kv hkv hs
      have hk2 : kv.1 ∈ shape.map Prod.fst := (lookup_isSome_iff_mem shape kv.1).mp hs
      have hfs : (getProp fs kv.1).isSome = true :=
        (lookup_isSome_iff_mem fs kv.1).mpr (List.mem_map_of_mem Prod.fst hkv)
      exact fieldsGo_present_kept shape (fun q hq => (hch q hq).2) hnodup fs required o
        [] accF h kv.1 hk2 hfs
    have hup : unknownPass shape fs accF true = accF := upT_id shape fs accF hkept
    rw [hup]
    constructor
    · exact fieldsGo_idem shape hch hnodup fs accF [] required o accF
        (fun k2 _ => rfl) h (fun k2 _ => rfl)
    · exact upT_id shape accF accF (fun kv hkv _ =>
        (lookup_isSome_iff_mem accF kv.1).mpr (List.mem_map_of_mem Prod.fst hkv))

/-- A successful boolean parse of a defined input returns it. -/
theorem parseBool_fix_nonundef (bo : BoolOpts) (v : JValue) (p : List String)
    (w : JValue) (hv : v ≠ .undef) (h : parseBool bo v p = .ok w) : w = v := by
  cases v with
  | undef => exact absurd rfl hv
  | jbool b =>
    cases hd : bo.dflt <;> simp only [parseBool, hd] at h <;>
      exact (VResult.ok.inj h).symm
  | jnull => simp [parseBool] at h
  | jnum q => simp [parseBool] at h
  | jstr s => simp [parseBool] at h
  | jarr xs => simp [parseBool] at h
  | jobj fs => simp [parseBool] at h

/-- The value-preserving schema class: no transform, preprocess,
postprocess, permission filtering, union or lazy node; no trimming; no
explicit object defaults; declared object keys distinct; no array
default and no uniqueness re-check.  The `postproc`, `preproc` and
`transform` wrappers rewrite values and are excluded; `asyncS` is
included because the synchronous parse ignores its validator. -/
inductive VP : SchemaE → Prop where
  | str (so : StringOpts) : so.trim = false → VP (.str so)
  | strOpt (so : StringOpts) : so.trim = false → VP (.strOpt so)
  | num (no : NumberOpts) : VP (.num no)
  | numOpt (no : NumberOpts) : VP (.numOpt no)
  | boolS (bo : BoolOpts) : VP (.boolS bo)
  | boolOpt (bo : BoolOpts) : VP (.boolOpt bo)
  | enumS (values : List JValue) : VP (.enumS values)
  | obj (shape : List (String × SchemaE)) (required : List String) :
      (∀ q ∈ shape, VP q.2) → (shape.map Prod.fst).Nodup →
      VP (.obj shape required [])
  | objOpt (shape : List (String × SchemaE)) (required : List String) :
      (∀ q ∈ shape, VP q.2) → (shape.map Prod.fst).Nodup →
      VP (.objOpt shape required [])
  | arr (item : SchemaE) (ao : ArrayOpts) : VP item → ao.uniqueItems = false →
      ao.dflt = none → VP (.arr item ao)
  | arrOpt (item : SchemaE) (ao : ArrayOpts) : VP item → ao.uniqueItems = false →
      VP (.arrOpt item ao)
  | refine (base : SchemaE) (pred : JValue → Except JsError Bool)
      (msg : String ⊕ (JValue → String)) : VP base → VP (.refine base pred msg)
  | asyncS (base : SchemaE) (validator : JValue → Except JsError (VResult JValue)) :
      VP base → VP (.asyncS base validator)

/-- Master induction for the value-preserving class: a successful parse
output re-validates to itself, and every failure carries at least one
issue. -/
theorem parseS_vp (S : SchemaE) (h : VP S) :
    (∀ v o w, parseS S v o = .ok (.ok w) → parseS S w o = .ok (.ok w)) ∧
    (∀ v o e, parseS S v o = .ok (.verr e) → e.issues ≠ []) := by
  induction h with
  | str so hs =>
    constructor
    · intro v o w h
      simp only [parseS] at h ⊢
      have h2 := Except.ok.inj h
      have hw := parseStr_fix so hs v o.path w h2
      subst hw
      rw [h2]
    · intro v o e h
      simp only [parseS] at h
      exact parseStr_verr_ne so v o.path e (Except.ok.inj h)
  | strOpt so hs =>
    constructor
    · intro v o w h
      cases v with
      | undef =>
        simp only [parseS] at h
        cases h
        simp only [parseS]
      | jnull =>
        simp only [parseS] at h
        cases h
        simp only [parseS]
      | jbool b =>
        simp only [parseS] at h ⊢
        have h2 := Except.ok.inj h
        have hw := parseStr_fix so hs _ o.path w h2
        subst hw
        simp [parseStr] at h2
      | jnum q =>
        simp only [parseS] at h ⊢
        have h2 := Except.ok.inj h
        have hw := parseStr_fix so hs _ o.path w h2
        subst hw
        simp [parseStr] at h2
      | jstr s =>
        simp only [parseS] at h ⊢
        have h2 := Except.ok.inj h
        have hw := parseStr_fix so hs _ o.path w h2
        subst hw
        simp only [parseS]
        rw [h2]
      | jarr xs =>
        simp only [parseS] at h ⊢
        have h2 := Except.ok.inj h
        have hw := parseStr_fix so hs _ o.path w h2
        subst hw
        simp [parseStr] at h2
      | jobj fs =>
        simp only [parseS] at h ⊢
        have h2 := Except.ok.inj h
        have hw := parseStr_fix so hs _ o.path w h2
        subst hw
        simp [parseStr] at h2
    · intro v o e h
      cases v with
      | undef => simp only [parseS] at h; cases h
      | jnull => simp only [parseS] at h; cases h
      | jbool b =>
        simp only [parseS] at h
        exact parseStr_verr_ne so _ o.path e (Except.ok.inj h)
      | jnum q =>
        simp only [parseS] at h
        exact parseStr_verr_ne so _ o.path e (Except.ok.inj h)
      | jstr s =>
        simp only [parseS] at h
        exact parseStr_verr_ne so _ o.path e (Except.ok.inj h)
      | jarr xs =>
        simp only [parseS] at h
        exact parseStr_verr_ne so _ o.path e (Except.ok.inj h)
      | jobj fs =>
        simp only [parseS] at h
        exact parseStr_verr_ne so _ o.path e (Except.ok.inj h)
  | num no =>
    constructor
    · intro v o w h
      simp only [parseS] at h ⊢
      have h2 := Except.ok.inj h
      have hw := parseNum_fix no v o.path w h2
      subst hw
      rw [h2]
    · intro v o e h
      simp only [parseS] at h
      exact parseNum_verr_ne no v o.path e (Except.ok.inj h)
  | numOpt no =>
    constructor
    · intro v o w h
      cases v with
      | undef =>
        simp only [parseS] at h
        cases h
        simp only [parseS]
      | jnull =>
        simp only [parseS] at h
        cases h
        simp only [parseS]
      | jbool b =>
        simp only [parseS] at h
        have h2 := Except.ok.inj h
        have hw := parseNum_fix no _ o.path w h2
        subst hw
        simp [parseNum] at h2
      | jnum q =>
        simp only [parseS] at h ⊢
        have h2 := Except.ok.inj h
        have hw := parseNum_fix no _ o.path w h2
        subst hw
        simp only [parseS]
        rw [h2]
      | jstr s =>
        simp only [parseS] at h
        have h2 := Except.ok.inj h
        have hw := parseNum_fix no _ o.path w h2
        subst hw
        simp [parseNum] at h2
      | jarr xs =>
        simp only [parseS] at h
        have h2 := Except.ok.inj h
        have hw := parseNum_fix no _ o.path w h2
        subst hw
        simp [parseNum] at h2
      | jobj fs =>
        simp only [parseS] at h
        have h2 := Except.ok.inj h
        have hw := parseNum_fix no _ o.path w h2
        subst hw
        simp [parseNum] at h2
    · intro v o e h
      cases v with
      | undef => simp only [parseS] at h; cases h
      | jnull => simp only [parseS] at h; cases h
      | jbool b =>
        simp only [parseS] at h
        exact parseNum_verr_ne no _ o.path e (Except.ok.inj h)
      | jnum q =>
        simp only [parseS] at h
        exact parseNum_verr_ne no _ o.path e (Except.ok.inj h)
      | jstr s =>
        simp only [parseS] at h
        exact parseNum_verr_ne no _ o.path e (Except.ok.inj h)
      | jarr xs =>
        simp only [parseS] at h
        exact parseNum_verr_ne no _ o.path e (Except.ok.inj h)
      | jobj fs =>
        simp only [parseS] at h
        exact parseNum_verr_ne no _ o.path e (Except.ok.inj h)
  | boolS bo =>
    constructor
    · intro v o w h
      simp only [parseS] at h ⊢
      have h2 := Except.ok.inj h
      rw [parseBool_fix bo v o.path w h2]
    · intro v o e h
      simp only [parseS] at h
      exact parseBool_verr_ne bo v o.path e (Except.ok.inj h)
  | boolOpt bo =>
    constructor
    · intro v o w h
      cases v with
      | undef =>
        simp only [parseS] at h
        cases h
        simp only [parseS]
      | jnull =>
        simp only [parseS] at h
        cases h
        simp only [parseS]
      | jbool b =>
        simp only [parseS] at h
        have h2 := Except.ok.inj h
        have hw := parseBool_fix_nonundef bo _ o.path w (by simp) h2
        subst hw
        simp only [parseS]
        rw [h2]
      | jnum q =>
        simp only [parseS] at h
        have h2 := Except.ok.inj h
        have hw := parseBool_fix_nonundef bo _ o.path w (by simp) h2
        subst hw
        simp [parseBool] at h2
      | jstr s =>
        simp only [parseS] at h
        have h2 := Except.ok.inj h
        have hw := parseBool_fix_nonundef bo _ o.path w (by simp) h2
        subst hw
        simp [parseBool] at h2
      | jarr xs =>
        simp only [parseS] at h
        have h2 := Except.ok.inj h
        have hw := parseBool_fix_nonundef bo _ o.path w (by simp) h2
        subst hw
        simp [parseBool] at h2
      | jobj fs =>
        simp only [parseS] at h
        have h2 := Except.ok.inj h
        have hw := parseBool_fix_nonundef bo _ o.path w (by simp) h2
        subst hw
        simp [parseBool] at h2
    · intro v o e h
      cases v with
      | undef => simp only [parseS] at h; cases h
      | jnull => simp only [parseS] at h; cases h
      | jbool b =>
        simp only [parseS] at h
        exact parseBool_verr_ne bo _ o.path e (Except.ok.inj h)
      | jnum q =>
        simp only [parseS] at h
        exact parseBool_verr_ne bo _ o.path e (Except.ok.inj h)
      | jstr s =>
        simp only [parseS] at h
        exact parseBool_verr_ne bo _ o.path e (Except.ok.inj h)
      | jarr xs =>
        simp only [parseS] at h
        exact parseBool_verr_ne bo _ o.path e (Except.ok.inj h)
      | jobj fs =>
        simp only [parseS] at h
        exact parseBool_verr_ne bo _ o.path e (Except.ok.inj h)
  | enumS values =>
    constructor
    · intro v o w h
      simp only [parseS] at h ⊢
      have h2 := Except.ok.inj h
      have hw := parseEnum_fix values v o.path w h2
      subst hw
      rw [h2]
    · intro v o e h
      simp only [parseS] at h
      exact parseEnum_verr_ne values v o.path e (Except.ok.inj h)
  | obj shape required hq hnodup ih =>
    constructor
    · intro v o w h
      cases v with
      | jobj fs =>
        simp only [parseS] at h
        cases hgo : fieldsGo shape fs required [] o [] [] with
        | error e => rw [hgo] at h; simp at h
        | ok r =>
          rw [hgo] at h
          cases r with
          | inl ve => simp at h
          | inr pr =>
            obtain ⟨accF, issues⟩ := pr
            simp only at h
            cases hie : issues.isEmpty with
            | false =>
              rw [hie] at h
              simp at h
            | true =>
              have hinil : issues = [] := by
                cases issues with | nil => rfl | cons a b => simp at hie
              subst hinil
              rw [hie] at h
              simp at h
              obtain ⟨hgo2, hup2⟩ := objBody_idem shape ih hnodup fs required o accF hgo
              subst h
              simp only [parseS]
              rw [hgo2]
              simp [hup2]
      | undef => simp [parseS] at h
      | jnull => simp [parseS] at h
      | jbool b => simp [parseS] at h
      | jnum q => simp [parseS] at h
      | jstr t => simp [parseS] at h
      | jarr xs => simp [parseS] at h
    · intro v o e h
      cases v with
      | jobj fs =>
        simp only [parseS] at h
        cases hgo : fieldsGo shape fs required [] o [] [] with
        | error e2 => rw [hgo] at h; simp at h
        | ok r =>
          rw [hgo] at h
          cases r with
          | inl ve =>
            simp at h
            rw [← h]
            exact fieldsGo_inl_ne shape fs required [] o [] [] ve hgo
          | inr pr =>
            obtain ⟨accF, issues⟩ := pr
            simp only at h
            cases hie : issues.isEmpty with
            | true => rw [hie] at h; simp at h
            | false =>
              rw [hie] at h
              simp at h
              rw [← h]
              cases issues with
              | nil => simp at hie
              | cons a b => simp
      | undef =>
        simp only [parseS] at h
        rw [← VResult.verr.inj (Except.ok.inj h)]
        exact typeMismatchErr_ne "object" _ o.path
      | jnull =>
        simp only [parseS] at h
        rw [← VResult.verr.inj (Except.ok.inj h)]
        exact typeMismatchErr_ne "object" _ o.path
      | jbool b =>
        simp only [parseS] at h
        rw [← VResult.verr.inj (Except.ok.inj h)]
        exact typeMismatchErr_ne "object" _ o.path
      | jnum q =>
        simp only [parseS] at h
        rw [← VResult.verr.inj (Except.ok.inj h)]
        exact typeMismatchErr_ne "object" _ o.path
      | jstr t =>
        simp only [parseS] at h
        rw [← VResult.verr.inj (Except.ok.inj h)]
        exact typeMismatchErr_ne "object" _ o.path
      | jarr xs =>
        simp only [parseS] at h
        rw [← VResult.verr.inj (Except.ok.inj h)]
        exact typeMismatchErr_ne "object" _ o.path
  | objOpt shape required hq hnodup ih =>
    constructor
    · intro v o w h
      cases v with
      | jobj fs =>
        simp only [parseS] at h
        cases hgo : fieldsGo shape fs required [] o [] [] with
        | error e => rw [hgo] at h; simp at h
        | ok r =>
          rw [hgo] at h
          cases r with
          | inl ve => simp at h
          | inr pr =>
            obtain ⟨accF, issues⟩ := pr
            simp only at h
            cases hie : issues.isEmpty with
            | false =>
              rw [hie] at h
              simp at h
            | true =>
              have hinil : issues = [] := by
                cases issues with | nil => rfl | cons a b => simp at hie
              subst hinil
              rw [hie] at h
              simp at h
              obtain ⟨hgo2, hup2⟩ := objBody_idem shape ih hnodup fs required o accF hgo
              subst h
              simp only [parseS]
              rw [hgo2]
              simp [hup2]
      | undef =>
        simp only [parseS] at h
        cases h
        simp only [parseS]
      | jnull =>
        simp only [parseS] at h
        cases h
        simp only [parseS]
      | jbool b => simp [parseS] at h
      | jnum q => simp [parseS] at h
      | jstr t => simp [parseS] at h
      | jarr xs => simp [parseS] at h
    · intro v o e h
      cases v with
      | jobj fs =>
        simp only [parseS] at h
        cases hgo : fieldsGo shape fs required [] o [] [] with
        | error e2 => rw [hgo] at h; simp at h
        | ok r =>
          rw [hgo] at h
          cases r with
          | inl ve =>
            simp at h
            rw [← h]
            exact fieldsGo_inl_ne shape fs required [] o [] [] ve hgo
          | inr pr =>
            obtain ⟨accF, issues⟩ := pr
            simp only at h
            cases hie : issues.isEmpty with
            | true => rw [hie] at h; simp at h
            | false =>
              rw [hie] at h
              simp at h
              rw [← h]
              cases issues with
              | nil => simp at hie
              | cons a b => simp
      | undef => simp only [parseS] at h; cases h
      | jnull => simp only [parseS] at h; cases h
      | jbool b =>
        simp only [parseS] at h
        rw [← VResult.verr.inj (Except.ok.inj h)]
        exact typeMismatchErr_ne "object" _ o.path
      | jnum q =>
        simp only [parseS] at h
        rw [← VResult.verr.inj (Except.ok.inj h)]
        exact typeMismatchErr_ne "object" _ o.path
      | jstr t =>
        simp only [parseS] at h
        rw [← VResult.verr.inj (Except.ok.inj h)]
        exact typeMismatchErr_ne "object" _ o.path
      | jarr xs =>
        simp only [parseS] at h
        rw [← VResult.verr.inj (Except.ok.inj h)]
        exact typeMismatchErr_ne "object" _ o.path
  | arr item ao hitem hu hd ih =>
    constructor
    · intro v o w h
      cases v with
      | jarr xs =>
        simp only [parseS] at h
        cases hgo : itemsGo item xs 0 o (arrLevelIssues ao xs o.path) [] with
        | error e => rw [hgo] at h; simp at h
        | ok r =>
          rw [hgo] at h
          cases r with
          | inl ve => simp at h
          | inr pr =>
            obtain ⟨result, issues⟩ := pr
            simp only at h
            cases hie : issues.isEmpty with
            | false =>
              rw [hie] at h
              simp at h
            | true =>
              have hinil : issues = [] := by
                cases issues with | nil => rfl | cons a b => simp at hie
              subst hinil
              rw [hie] at h
              simp at h
              obtain ⟨t, ht⟩ := itemsGo_accI_mono item xs 0 o
                (arrLevelIssues ao xs o.path) [] result [] hgo
              have harr : arrLevelIssues ao xs o.path = [] := by
                cases hx : arrLevelIssues ao xs o.path with
                | nil => rfl
                | cons a b => rw [hx] at ht; simp at ht
              rw [harr] at hgo
              obtain ⟨ws, hws, hlen, hrerun⟩ := itemsGo_idem item ih.1 ih.2 xs 0 o
                [] result hgo
              simp at hws
              subst hws
              subst h
              simp only [parseS]
              have hlev2 : arrLevelIssues ao result o.path = [] := by
                rw [arrLevelIssues_len ao hu result xs o.path hlen]
                exact harr
              rw [hlev2]
              rw [hrerun []]
              simp
      | undef =>
        simp only [parseS] at h
        rw [hd] at h
        simp at h
      | jnull =>
        simp only [parseS] at h
        rw [hd] at h
        simp at h
      | jbool b => simp [parseS] at h
      | jnum q => simp [parseS] at h
      | jstr t => simp [parseS] at h
      | jobj fs => simp [parseS] at h
    · intro v o e h
      cases v with
      | jarr xs =>
        simp only [parseS] at h
        cases hgo : itemsGo item xs 0 o (arrLevelIssues ao xs o.path) [] with
        | error e2 => rw [hgo] at h; simp at h
        | ok r =>
          rw [hgo] at h
          cases r with
          | inl ve =>
            simp at h
            rw [← h]
            exact itemsGo_inl_ne item ih.2 xs 0 o (arrLevelIssues ao xs o.path) [] ve hgo
          | inr pr =>
            obtain ⟨result, issues⟩ := pr
            simp only at h
            cases hie : issues.isEmpty with
            | true => rw [hie] at h; simp at h
            | false =>
              rw [hie] at h
              simp at h
              rw [← h]
              cases issues with
              | nil => simp at hie
              | cons a b => simp
      | undef =>
        simp only [parseS] at h
        rw [hd] at h
        rw [← VResult.verr.inj (Except.ok.inj h)]
        exact typeMismatchErr_ne "array" _ o.path
      | jnull =>
        simp only [parseS] at h
        rw [hd] at h
        rw [← VResult.verr.inj (Except.ok.inj h)]
        exact typeMismatchErr_ne "array" _ o.path
      | jbool b =>
        simp only [parseS] at h
        rw [← VResult.verr.inj (Except.ok.inj h)]
        exact typeMismatchErr_ne "array" _ o.path
      | jnum q =>
        simp only [parseS] at h
        rw [← VResult.verr.inj (Except.ok.inj h)]
        exact typeMismatchErr_ne "array" _ o.path
      | jstr t =>
        simp only [parseS] at h
        rw [← VResult.verr.inj (Except.ok.inj h)]
        exact typeMismatchErr_ne "array" _ o.path
      | jobj fs =>
        simp only [parseS] at h
        rw [← VResult.verr.inj (Except.ok.inj h)]
        exact typeMismatchErr_ne "array" _ o.path
  | arrOpt item ao hitem hu ih =>
    constructor
    · intro v o w h
      cases v with
      | jarr xs =>
        simp only [parseS] at h
        cases hgo : itemsGo item xs 0 o (arrLevelIssues ao xs o.path) [] with
        | error e => rw [hgo] at h; simp at h
        | ok r =>
          rw [hgo] at h
          cases r with
          | inl ve => simp at h
          | inr pr =>
            obtain ⟨result, issues⟩ := pr
            simp only at h
            cases hie : issues.isEmpty with
            | false =>
              rw [hie] at h
              simp at h
            | true =>
              have hinil : issues = [] := by
                cases issues with | nil => rfl | cons a b => simp at hie
              subst hinil
              rw [hie] at h
              simp at h
              obtain ⟨t, ht⟩ := itemsGo_accI_mono item xs 0 o
                (arrLevelIssues ao xs o.path) [] result [] hgo
              have harr : arrLevelIssues ao xs o.path = [] := by
                cases hx : arrLevelIssues ao xs o.path with
                | nil => rfl
                | cons a b => rw [hx] at ht; simp at ht
              rw [harr] at hgo
              obtain ⟨ws, hws, hlen, hrerun⟩ := itemsGo_idem item ih.1 ih.2 xs 0 o
                [] result hgo
              simp at hws
              subst hws
              subst h
              simp only [parseS]
              have hlev2 : arrLevelIssues ao result o.path = [] := by
                rw [arrLevelIssues_len ao hu result xs o.path hlen]
                exact harr
              rw [hlev2]
              rw [hrerun []]
              simp
      | undef =>
        simp only [parseS] at h
        cases h
        simp only [parseS]
      | jnull =>
        simp only [parseS] at h
        cases h
        simp only [parseS]
      | jbool b => simp [parseS] at h
      | jnum q => simp [parseS] at h
      | jstr t => simp [parseS] at h
      | jobj fs => simp [parseS] at h
    · intro v o e h
      cases v with
      | jarr xs =>
        simp only [parseS] at h
        cases hgo : itemsGo item xs 0 o (arrLevelIssues ao xs o.path) [] with
        | error e2 => rw [hgo] at h; simp at h
        | ok r =>
          rw [hgo] at h
          cases r with
          | inl ve =>
            simp at h
            rw [← h]
            exact itemsGo_inl_ne item ih.2 xs 0 o (arrLevelIssues ao xs o.path) [] ve hgo
          | inr pr =>
            obtain ⟨result, issues⟩ := pr
            simp only at h
            cases hie : issues.isEmpty with
            | true => rw [hie] at h; simp at h
            | false =>
              rw [hie] at h
              simp at h
              rw [← h]
              cases issues with
              | nil => simp at hie
              | cons a b => simp
      | undef => simp only [parseS] at h; cases h
      | jnull => simp only [parseS] at h; cases h
      | jbool b =>
        simp only [parseS] at h
        rw [← VResult.verr.inj (Except.ok.inj h)]
        exact typeMismatchErr_ne "array" _ o.path
      | jnum q =>
        simp only [parseS] at h
        rw [← VResult.verr.inj (Except.ok.inj h)]
        exact typeMismatchErr_ne "array" _ o.path
      | jstr t =>
        simp only [parseS] at h
        rw [← VResult.verr.inj (Except.ok.inj h)]
        exact typeMismatchErr_ne "array" _ o.path
      | jobj fs =>
        simp only [parseS] at h
        rw [← VResult.verr.inj (Except.ok.inj h)]
        exact typeMismatchErr_ne "array" _ o.path
  | refine base pred msg hb ihb =>
    constructor
    · intro v o w h
      simp only [parseS] at h ⊢
      cases hbp : parseS base v o with
      | error e => rw [hbp] at h; simp [refineCont] at h
      | ok r =>
        rw [hbp] at h
        cases r with
        | verr e => simp [refineCont] at h
        | ok x =>
          simp only [refineCont] at h
          cases hpv : pred x with
          | error e2 => rw [hpv] at h; simp at h
          | ok b =>
            rw [hpv] at h
            cases b with
            | false => simp at h
            | true =>
              simp at h
              subst h
              rw [ihb.1 v o x hbp]
              simp [refineCont, hpv]
    · intro v o e h
      simp only [parseS] at h
      cases hbp : parseS base v o with
      | error e2 => rw [hbp] at h; simp [refineCont] at h
      | ok r =>
        rw [hbp] at h
        cases r with
        | verr e2 =>
          simp only [refineCont] at h
          have he := Except.ok.inj h
          rw [← VResult.verr.inj he]
          exact ihb.2 v o e2 hbp
        | ok x =>
          simp only [refineCont] at h
          cases hpv : pred x with
          | error e2 => rw [hpv] at h; simp at h
          | ok b =>
            rw [hpv] at h
            cases b with
            | true => simp at h
            | false =>
              simp at h
              rw [← h]
              simp
  | asyncS base validator hb ihb =>
    constructor
    · intro v o w h
      simp only [parseS] at h ⊢
      exact ihb.1 v o w h
    · intro v o e h
      simp only [parseS] at h
      exact ihb.2 v o e h

/-- C7 counterexample: `number().transform(n => n + 1)` parses `1`
successfully with output `2`, but re-validating the output `2` yields
`3`, which is not deep-equal to `2`. -/
theorem C7_counterexample :
    safeParseD (.transform (.num {})
        (fun v => .ok (.raw (match v with | .jnum n => .jnum (n + 1) | _ => v))))
      (.jnum 1) = .ok (.ok (.jnum 2)) ∧
    safeParseD (.transform (.num {})
        (fun v => .ok (.raw (match v with | .jnum n => .jnum (n + 1) | _ => v))))
      (.jnum 2) = .ok (.ok (.jnum 3)) := by
  constructor
  · simp [safeParseD, parseS, transformCont, parseNum, defaultOptions]
    norm_num
  · simp [safeParseD, parseS, transformCont, parseNum, defaultOptions]
    norm_num

/-- C7 (amended): idempotent re-validation — `safeParse` success output
re-validates to itself under the same options — holds on the
value-preserving class `VP`: scalar schemas without trimming, optional
wrappers, enums, objects with distinct declared keys and no explicit
defaults, arrays without uniqueness re-check or array default,
refinements and async wrappers.  It fails in general: `transform`
(see `C7_counterexample`), `preprocess`/`postprocess`, trimming
strings, explicit object/array defaults and permission filtering can
all rewrite values on re-validation. -/
theorem C7_amended :
    ∀ S, VP S → ∀ (v : JValue) (o : CallerOptions) (w : JValue),
    safeParseO S v o = .ok (.ok w) → safeParseO S w o = .ok (.ok w) :=
  fun S h v o w hp => (parseS_vp S h).1 v (mergeOptions o) w hp

/-- Demo schema for the C7 witness: `object({id: string(), flag:
boolean().default(true)}).required(['id'])`. -/
def c7schema : SchemaE :=
  .obj [("id", .str {}), ("flag", .boolS { dflt := some true })] ["id"] []

/-- Demo input for the C7 witness. -/
def c7input : JValue := .jobj [("id", .jstr "x"), ("extra", .jbool false)]

/-- Demo output for the C7 witness: the boolean default has been
resolved, the unknown key passed through. -/
def c7output : JValue :=
  .jobj [("id", .jstr "x"), ("flag", .jbool true), ("extra", .jbool false)]

/-- Witness instantiating `C7_amended`: re-validating the output of the
demo parse returns it unchanged. -/
theorem C7_amended_witness :
    safeParseO c7schema c7output {} = .ok (.ok c7output) := by
  have hvp : VP c7schema := by
    refine VP.obj _ _ ?_ (by simp)
    intro q hq
    simp [c7schema] at hq
    rcases hq with ⟨rfl, rfl⟩ | ⟨rfl, rfl⟩
    · exact VP.str {} rfl
    · exact VP.boolS _
  have hrun : safeParseO c7schema c7input {} = .ok (.ok c7output) := by
    simp [safeParseO, mergeOptions, defaultOptions, c7schema, c7input, c7output,
      parseS, fieldsGo, fieldStep, getProp, List.lookup, parseStr, parseBool,
      unknownPass, objSet]
  exact C7_amended c7schema hvp c7input {} c7output hrun

end SmartSchema
